import Mathlib

/-!
The ucore lab1 boot loader (`labcodes/lab1/boot/bootmain.c`).

A shallow embedding of `waitdisk`, `readsect`, `readseg` and `bootmain`.

* Machine integers (`uint32_t`, `uintptr_t`) are natural numbers, reduced modulo
  `WORD = 2^32` wherever the C arithmetic can wrap around.
* The machine state is threaded explicitly: byte memory, the IDE disk, and the
  trace of everything the loader did (port accesses, the calls of `readsect` and
  `readseg`, the call of the kernel entry point).
* `waitdisk` and the loop of `readseg` need not terminate, so the loops take fuel:
  `polls` bounds the status reads of one call of `waitdisk`, `fuel` the iterations of
  one loop of `readseg` or `bootmain`. A run that exhausts either is `Except.error m`,
  where `m` is the machine state reached so far; a run that returns is `Except.ok`.
-/

namespace Bootmain

/-- Number of values of a 32-bit machine word; `uint32_t` and `uintptr_t` arithmetic is modulo `WORD`. -/
def WORD : Nat := 4294967296

/-- Sector size, `#define SECTSIZE 512`. -/
def SECTSIZE : Nat := 512

/-- Scratch space, `#define ELFHDR ((struct elfhdr *)0x10000)`. -/
def ELFHDR : Nat := 0x10000

/-- Everything the loader does that is visible from outside, in program order. -/
inductive Event where
  /-- an 8-bit read of `port` that returned `val` -/
  | inb (port val : Nat)
  /-- an 8-bit write of `val` to `port` -/
  | outb (port val : Nat)
  /-- a 16-bit write of `val` to `port` -/
  | outw (port val : Nat)
  /-- one 32-bit read of `port` that returned `val`, stored at `addr` (one step of `insl`) -/
  | insl (port addr val : Nat)
  /-- entry into `readsect(dst, secno)` -/
  | readsect (dst secno : Nat)
  /-- entry into `readseg(va, count, offset)` -/
  | readseg (va count offset : Nat)
  /-- the call of the function at address `target` -/
  | call (target : Nat)
deriving DecidableEq

/-- Modelled from the spec: the block device behind the register interface of §6, as a mock
IDE disk. `sect k j` is byte `j` of block `k`; `status n` is what the `n`-th read of the
status register returns; the other fields are the task-file registers, the block selected by
the last read command, the position of the next data word in it, and the list of the blocks
the disk was commanded to read. -/
structure Disk where
  sect : Nat → Nat → Nat
  status : Nat → Nat
  polls : Nat
  nsect : Nat
  lba0 : Nat
  lba1 : Nat
  lba2 : Nat
  drive : Nat
  cur : Nat
  pos : Nat
  served : List Nat

/-- Byte `j` of block `k`. -/
def Disk.byte (d : Disk) (k j : Nat) : Nat := d.sect k j % 256

/-- The `k`-th 32-bit word the data port will deliver next (little endian). -/
def Disk.word (d : Disk) (k : Nat) : Nat :=
  d.byte d.cur (d.pos + 4 * k) + 256 * d.byte d.cur (d.pos + 4 * k + 1)
    + 65536 * d.byte d.cur (d.pos + 4 * k + 2) + 16777216 * d.byte d.cur (d.pos + 4 * k + 3)

/-- The disk's answer to an 8-bit port read: only the status register `0x1F7` is decoded. -/
def Disk.inb (d : Disk) (port : Nat) : Nat × Disk :=
  if port = 0x1F7 then (d.status d.polls % 256, { d with polls := d.polls + 1 })
  else (0, d)

/-- The disk's reaction to an 8-bit port write. The registers are 8 bits wide. Command `0x20`
(read sectors) selects the block whose 28-bit LBA is held in `0x1F3`-`0x1F6` (low nibble). -/
def Disk.outb (d : Disk) (port val : Nat) : Disk :=
  if port = 0x1F2 then { d with nsect := val % 256 }
  else if port = 0x1F3 then { d with lba0 := val % 256 }
  else if port = 0x1F4 then { d with lba1 := val % 256 }
  else if port = 0x1F5 then { d with lba2 := val % 256 }
  else if port = 0x1F6 then { d with drive := val % 256 }
  else if port = 0x1F7 then
    if val % 256 = 0x20 then
      { d with cur := d.lba0 + 256 * d.lba1 + 65536 * d.lba2 + 16777216 * (d.drive % 16),
               pos := 0,
               served := d.served ++
                 [d.lba0 + 256 * d.lba1 + 65536 * d.lba2 + 16777216 * (d.drive % 16)] }
    else d
  else d

/-- The disk's answer to a 32-bit read: the data port `0x1F0` delivers the next word. -/
def Disk.inl (d : Disk) (port : Nat) : Nat × Disk :=
  if port = 0x1F0 then (d.word 0, { d with pos := d.pos + 4 })
  else (0, d)

/-- The machine: byte memory (addresses below `WORD`), the disk, and the trace so far. -/
structure Machine where
  mem : Nat → Nat
  disk : Disk
  trace : List Event

/-- Append one event to the trace. -/
def Machine.log (m : Machine) (e : Event) : Machine :=
  { m with trace := m.trace ++ [e] }

/-- Store one byte. -/
def store8 (mem : Nat → Nat) (a v : Nat) : Nat → Nat :=
  fun x => if x = a % WORD then v % 256 else mem x

/-- Store a 32-bit word, little endian. -/
def store32 (mem : Nat → Nat) (a w : Nat) : Nat → Nat :=
  store8 (store8 (store8 (store8 mem a w) (a + 1) (w / 256)) (a + 2) (w / 65536))
    (a + 3) (w / 16777216)

/-- Load one byte. -/
def load8 (mem : Nat → Nat) (a : Nat) : Nat := mem (a % WORD) % 256

/-- Load a 16-bit value, little endian. -/
def load16 (mem : Nat → Nat) (a : Nat) : Nat := load8 mem a + 256 * load8 mem (a + 1)

/-- Load a 32-bit value, little endian. -/
def load32 (mem : Nat → Nat) (a : Nat) : Nat :=
  load8 mem a + 256 * load8 mem (a + 1) + 65536 * load8 mem (a + 2)
    + 16777216 * load8 mem (a + 3)

/-- Modelled from the spec: `inb` of `x86.h` (not in the source tree), an 8-bit port read. -/
def inb (port : Nat) (m : Machine) : Nat × Machine :=
  ((m.disk.inb port).1,
   { m with disk := (m.disk.inb port).2, trace := m.trace ++ [Event.inb port (m.disk.inb port).1] })

/-- Modelled from the spec: `outb` of `x86.h` (not in the source tree), an 8-bit port write. -/
def outb (port val : Nat) (m : Machine) : Machine :=
  { m with disk := m.disk.outb port val, trace := m.trace ++ [Event.outb port val] }

/-- Modelled from the spec: `outw` of `x86.h` (not in the source tree), a 16-bit port write.
The disk does not decode 16-bit writes. -/
def outw (port val : Nat) (m : Machine) : Machine :=
  { m with trace := m.trace ++ [Event.outw port val] }

/-- Modelled from the spec: `insl(port, addr, cnt)` of `x86.h` (not in the source tree):
`cnt` times, read a 32-bit word from `port` and store it at `addr`, advancing `addr` by 4. -/
def insl (port : Nat) : Nat → Nat → Machine → Machine
  | _, 0, m => m
  | addr, cnt + 1, m =>
    insl port ((addr + 4) % WORD) cnt
      { mem := store32 m.mem addr (m.disk.inl port).1,
        disk := (m.disk.inl port).2,
        trace := m.trace ++ [Event.insl port addr (m.disk.inl port).1] }

/-- The loop `while ((inb(0x1F7) & 0xC0) != 0x40);` of `waitdisk`, one poll per unit of fuel. -/
def waitdisk : Nat → Machine → Except Machine Machine
  | 0, m => Except.error m
  | fuel + 1, m =>
    if (inb 0x1F7 m).1 &&& 0xC0 ≠ 0x40 then waitdisk fuel (inb 0x1F7 m).2
    else Except.ok (inb 0x1F7 m).2

/-- The function `readsect(dst, secno)`. Every value passed to `outb` is already below 256, so the
conversion to `uint8_t` is the identity. -/
def readsect (polls dst secno : Nat) (m : Machine) : Except Machine Machine := do
  let m1 ← waitdisk polls (m.log (Event.readsect dst secno))
  let m2 := outb 0x1F2 1 m1
  let m3 := outb 0x1F3 (secno &&& 0xFF) m2
  let m4 := outb 0x1F4 ((secno >>> 8) &&& 0xFF) m3
  let m5 := outb 0x1F5 ((secno >>> 16) &&& 0xFF) m4
  let m6 := outb 0x1F6 (((secno >>> 24) &&& 0xF) ||| 0xE0) m5
  let m7 := outb 0x1F7 0x20 m6
  let m8 ← waitdisk polls m7
  pure (insl 0x1F0 dst (SECTSIZE / 4) m8)

/-- The loop `for (; va < end_va; va += SECTSIZE, secno ++) readsect((void *)va, secno);`
of `readseg`, one iteration per unit of fuel. -/
def readsegLoop (polls : Nat) : Nat → Nat → Nat → Nat → Machine → Except Machine Machine
  | 0, _, _, _, m => Except.error m
  | fuel + 1, va, end_va, secno, m =>
    if va < end_va then do
      let m1 ← readsect polls va secno m
      readsegLoop polls fuel ((va + SECTSIZE) % WORD) end_va ((secno + 1) % WORD) m1
    else Except.ok m

/-- The function `readseg(va, count, offset)`; the arguments are 32-bit values. -/
def readseg (polls fuel va count offset : Nat) (m : Machine) : Except Machine Machine :=
  readsegLoop polls fuel ((va + WORD - offset % SECTSIZE) % WORD) ((va + count) % WORD)
    ((offset / SECTSIZE + 1) % WORD) (m.log (Event.readseg va count offset))

/-- Modelled from the spec: `elf.h` is not in the source tree, so the fixed offsets of §6 are
parameters: the magic constant, the offsets of `e_magic`, `e_entry`, `e_phoff`, `e_phnum` in
`struct elfhdr`, the size of `struct proghdr` and the offsets of `p_va`, `p_memsz`, `p_offset`
in it. `e_phnum` is a 16-bit field, the others are 32-bit fields; a `struct` is not empty. -/
structure Layout where
  ELF_MAGIC : Nat
  e_magic : Nat
  e_entry : Nat
  e_phoff : Nat
  e_phnum : Nat
  phsize : Nat
  p_va : Nat
  p_memsz : Nat
  p_offset : Nat
  phsize_pos : 0 < phsize

/-- The layout of ELF32 as declared in ucore's `elf.h`. -/
def elf32 : Layout :=
  { ELF_MAGIC := 0x464C457F, e_magic := 0, e_entry := 24, e_phoff := 28, e_phnum := 44,
    phsize := 32, p_va := 8, p_memsz := 20, p_offset := 4, phsize_pos := by decide }

/-- The arguments `(ph->p_va & 0xFFFFFF, ph->p_memsz, ph->p_offset)` read through `ph`. -/
def segArgs (L : Layout) (mem : Nat → Nat) (ph : Nat) : Nat × Nat × Nat :=
  (load32 mem (ph + L.p_va) &&& 0xFFFFFF, load32 mem (ph + L.p_memsz),
   load32 mem (ph + L.p_offset))

/-- The loop `for (; ph < eph; ph ++) readseg(ph->p_va & 0xFFFFFF, ph->p_memsz, ph->p_offset);`
of `bootmain`, one iteration per unit of fuel. The descriptor is read when it is used. -/
def segLoop (L : Layout) (polls : Nat) : Nat → Nat → Nat → Machine → Except Machine Machine
  | 0, _, _, m => Except.error m
  | fuel + 1, ph, eph, m =>
    if ph < eph then do
      let m1 ← readseg polls fuel (segArgs L m.mem ph).1 (segArgs L m.mem ph).2.1
        (segArgs L m.mem ph).2.2 m
      segLoop L polls fuel ((ph + L.phsize) % WORD) eph m1
    else Except.ok m

/-- Where a run of `bootmain` ends: in the loop `while (1);` after the label `bad`, or inside
the entry function, which has not returned. -/
inductive Final where
  | halt (m : Machine)
  | jumped (m : Machine)

/-- The machine state at the end of the run. -/
def Final.machine : Final → Machine
  | Final.halt m => m
  | Final.jumped m => m

/-- The code after the label `bad`: two writes to port `0x8A00`, then `while (1);`. -/
def bad (m : Machine) : Final :=
  Final.halt (outw 0x8A00 0x8E00 (outw 0x8A00 0x8A00 m))

/-- The call `((void (*)(void))(ELFHDR->e_entry & 0xFFFFFF))();` and what follows it. The
behaviour of the called function is the parameter `entry`: `entry target m` is `none` when the
function at `target`, started in `m`, does not return, and `some m1` when it returns in machine
state `m1`; control then falls through to the label `bad`. -/
def enter (entry : Nat → Machine → Option Machine) (target : Nat) (m : Machine) : Final :=
  match entry target (m.log (Event.call target)) with
  | none => Final.jumped (m.log (Event.call target))
  | some m1 => bad m1

/-- The function `bootmain`. -/
def bootmain (L : Layout) (entry : Nat → Machine → Option Machine) (polls fuel : Nat)
    (m : Machine) : Except Machine Final := do
  let m1 ← readseg polls fuel ELFHDR (SECTSIZE * 8) 0 m
  if load32 m1.mem (ELFHDR + L.e_magic) ≠ L.ELF_MAGIC then
    pure (bad m1)
  else
    let ph := (ELFHDR + load32 m1.mem (ELFHDR + L.e_phoff)) % WORD
    let eph := (ph + L.phsize * load16 m1.mem (ELFHDR + L.e_phnum)) % WORD
    let m2 ← segLoop L polls fuel ph eph m1
    pure (enter entry (load32 m2.mem (ELFHDR + L.e_entry) &&& 0xFFFFFF) m2)

/-! ### Vocabulary of the specification -/

/-- The disk is always ready: every status read has the ready bit set and the busy bit clear. -/
def Ready (d : Disk) : Prop := ∀ n, (d.status n % 256) &&& 0xC0 = 0x40

/-- Byte `i` of the kernel image: the image starts at block 1 of the disk. -/
def image (d : Disk) (i : Nat) : Nat := d.byte (i / SECTSIZE + 1) (i % SECTSIZE)

/-- The machine state a run has reached, whether it returned or ran out of fuel. -/
def reached : Except Machine Machine → Machine
  | Except.ok m => m
  | Except.error m => m

/-- The machine state a run of `bootmain` has reached. -/
def reachedFinal : Except Machine Final → Machine
  | Except.ok f => f.machine
  | Except.error m => m

/-- The sector numbers of the `readsect` calls in a trace, in order. -/
def secnos : List Event → List Nat
  | [] => []
  | Event.readsect _ secno :: evs => secno :: secnos evs
  | _ :: evs => secnos evs

/-- The arguments of the `readseg` calls in a trace, in order. -/
def segCalls : List Event → List (Nat × Nat × Nat)
  | [] => []
  | Event.readseg va count offset :: evs => (va, count, offset) :: segCalls evs
  | _ :: evs => segCalls evs

/-- The targets of the entry calls in a trace, in order. -/
def entryCalls : List Event → List Nat
  | [] => []
  | Event.call target :: evs => target :: entryCalls evs
  | _ :: evs => entryCalls evs

/-- The values written to the failure port `0x8A00` in a trace, in order. -/
def failWrites : List Event → List Nat
  | [] => []
  | Event.outw port val :: evs => if port = 0x8A00 then val :: failWrites evs else failWrites evs
  | _ :: evs => failWrites evs

/-- Whether the event stores to the byte at address `a`: an `insl` step at `addr` stores the
four bytes `addr .. addr + 3` (modulo `WORD`). -/
def Event.writes (a : Nat) : Event → Bool
  | Event.insl _ addr _ => decide (a < WORD ∧ (a + WORD - addr % WORD) % WORD < 4)
  | _ => false

/-- Whether some event of the trace stores to the byte at address `a`. -/
def written (evs : List Event) (a : Nat) : Bool := evs.any (Event.writes a)

/-- Events of the disk driver: port reads and writes of `readsect`, and its call marker. -/
def Event.driver : Event → Bool
  | Event.inb _ _ => true
  | Event.outb _ _ => true
  | Event.insl _ _ _ => true
  | Event.readsect _ _ => true
  | _ => false

/-- The machine after `readsect(dst, secno)` when both calls of `waitdisk` succeed at their
first poll. -/
def sectStep (dst secno : Nat) (m : Machine) : Machine :=
  insl 0x1F0 dst (SECTSIZE / 4)
    (inb 0x1F7 (outb 0x1F7 0x20 (outb 0x1F6 (((secno >>> 24) &&& 0xF) ||| 0xE0)
      (outb 0x1F5 ((secno >>> 16) &&& 0xFF) (outb 0x1F4 ((secno >>> 8) &&& 0xFF)
        (outb 0x1F3 (secno &&& 0xFF) (outb 0x1F2 1
          (inb 0x1F7 (m.log (Event.readsect dst secno))).2))))))).2

/-- The machine after `n` iterations of the loop of `readseg` without wrap-around, when every
`waitdisk` succeeds at its first poll. -/
def sectSteps : Nat → Nat → Nat → Machine → Machine
  | 0, _, _, m => m
  | n + 1, va, secno, m => sectSteps n (va + SECTSIZE) (secno + 1) (sectStep va secno m)

/-- The trace of `readsect(dst, secno)` on a disk `d` that is ready at the first poll. -/
def sectEvents (d : Disk) (dst secno : Nat) : List Event :=
  [Event.readsect dst secno, Event.inb 0x1F7 (d.status d.polls % 256), Event.outb 0x1F2 1,
   Event.outb 0x1F3 (secno &&& 0xFF), Event.outb 0x1F4 ((secno >>> 8) &&& 0xFF),
   Event.outb 0x1F5 ((secno >>> 16) &&& 0xFF),
   Event.outb 0x1F6 (((secno >>> 24) &&& 0xF) ||| 0xE0), Event.outb 0x1F7 0x20,
   Event.inb 0x1F7 (d.status (d.polls + 1) % 256)]
  ++ (List.range (SECTSIZE / 4)).map
       (fun k => Event.insl 0x1F0 ((dst + 4 * k) % WORD)
         (d.byte (secno % 268435456) (4 * k) + 256 * d.byte (secno % 268435456) (4 * k + 1)
           + 65536 * d.byte (secno % 268435456) (4 * k + 2)
           + 16777216 * d.byte (secno % 268435456) (4 * k + 3)))

/-- The six register writes by which `readsect` programs the read of sector `secno`. -/
def cmdEvents (secno : Nat) : List Event :=
  [Event.outb 0x1F2 1, Event.outb 0x1F3 (secno &&& 0xFF),
   Event.outb 0x1F4 ((secno >>> 8) &&& 0xFF), Event.outb 0x1F5 ((secno >>> 16) &&& 0xFF),
   Event.outb 0x1F6 (((secno >>> 24) &&& 0xF) ||| 0xE0), Event.outb 0x1F7 0x20]

/-- The machine after the header-region load `readseg((uintptr_t)ELFHDR, SECTSIZE * 8, 0)` at the
start of `bootmain` (on a ready disk one poll per wait and 11 units of fuel are enough). -/
def headerLoad (m : Machine) : Machine := reached (readseg 1 11 ELFHDR (SECTSIZE * 8) 0 m)

/-- Whether the `i`-th status read from now on finds the disk ready (ready bit set, busy bit
clear). -/
def readyAt (d : Disk) (i : Nat) : Bool := decide ((d.status (d.polls + i) % 256) &&& 0xC0 = 0x40)

/-- The trace of the next `n` reads of the status port. -/
def pollEvents (d : Disk) (n : Nat) : List Event :=
  (List.range n).map (fun i => Event.inb 0x1F7 (d.status (d.polls + i) % 256))

/-- The machine after `n` reads of the status port: only the disk's poll counter and the trace
have changed. -/
def polled (m : Machine) (n : Nat) : Machine :=
  { mem := m.mem, disk := { m.disk with polls := m.disk.polls + n },
    trace := m.trace ++ pollEvents m.disk n }

/-- The six register writes of `readsect` that program the read of sector `secno`. -/
def command (secno : Nat) (m : Machine) : Machine :=
  outb 0x1F7 0x20 (outb 0x1F6 (((secno >>> 24) &&& 0xF) ||| 0xE0)
    (outb 0x1F5 ((secno >>> 16) &&& 0xFF) (outb 0x1F4 ((secno >>> 8) &&& 0xFF)
      (outb 0x1F3 (secno &&& 0xFF) (outb 0x1F2 1 m)))))

/-- The 128 data-port reads of one sector transfer to `dst`, with the words of block
`secno mod 2^28`. -/
def dataEvents (d : Disk) (dst secno : Nat) : List Event :=
  (List.range (SECTSIZE / 4)).map
    (fun k => Event.insl 0x1F0 ((dst + 4 * k) % WORD)
      (d.byte (secno % 268435456) (4 * k) + 256 * d.byte (secno % 268435456) (4 * k + 1)
        + 65536 * d.byte (secno % 268435456) (4 * k + 2)
        + 16777216 * d.byte (secno % 268435456) (4 * k + 3)))

/-- The disk after `n` status reads. -/
def Disk.after (d : Disk) (n : Nat) : Disk := { d with polls := d.polls + n }

/-- An event that writes nothing back to the disk: not a write to the data port `0x1F0`, and
if it is a write to the command port `0x1F7`, the value is the read command `0x20`. A 16-bit
write covers the ports `port` and `port + 1`, and cannot be the 8-bit command `0x20` alone. -/
def Event.readOnly : Event → Bool
  | Event.outb port val => decide (port ≠ 0x1F0 ∧ (port = 0x1F7 → val = 0x20))
  | Event.outw port _ => decide (port ≠ 0x1EF ∧ port ≠ 0x1F0 ∧ port ≠ 0x1F6 ∧ port ≠ 0x1F7)
  | _ => true

/-- The arguments `(dst, secno)` of the `readsect` calls in a trace, in order. -/
def sectCalls : List Event → List (Nat × Nat)
  | [] => []
  | Event.readsect dst secno :: evs => (dst, secno) :: sectCalls evs
  | _ :: evs => sectCalls evs

/-- The 32-bit field at byte offset `off` of the kernel image on the disk (little endian). -/
def image32 (d : Disk) (off : Nat) : Nat :=
  image d off + 256 * image d (off + 1) + 65536 * image d (off + 2)
    + 16777216 * image d (off + 3)

/-- The 16-bit field at byte offset `off` of the kernel image on the disk (little endian). -/
def image16 (d : Disk) (off : Nat) : Nat := image d off + 256 * image d (off + 1)

/-- The arguments `(p_va & 0xFFFFFF, p_memsz, p_offset)` of the `i`-th segment descriptor as
stored on the disk. -/
def diskArgs (L : Layout) (d : Disk) (i : Nat) : Nat × Nat × Nat :=
  (image32 d (image32 d L.e_phoff + L.phsize * i + L.p_va) &&& 0xFFFFFF,
   image32 d (image32 d L.e_phoff + L.phsize * i + L.p_memsz),
   image32 d (image32 d L.e_phoff + L.phsize * i + L.p_offset))

/-! ### Concrete disks and machines -/

/-- A ready disk with all registers cleared whose block 1 holds the bytes `f` and whose other
blocks are filled with the byte `fill`. -/
def diskOf (f : Nat → Nat) (fill : Nat) : Disk :=
  { sect := fun k j => if k = 1 then f j else fill, status := fun _ => 0x40, polls := 0,
    nsect := 0, lba0 := 0, lba1 := 0, lba2 := 0, drive := 0, cur := 0, pos := 0, served := [] }

/-- A machine with zeroed memory and an empty trace in front of the disk `d`. -/
def machineOf (d : Disk) : Machine := { mem := fun _ => 0, disk := d, trace := [] }

/-- A machine whose disk holds the byte 1 everywhere: the magic number is wrong. -/
def machine0 : Machine := machineOf (diskOf (fun _ => 1) 1)

/-- An ELF header with the right magic, entry `0x100000`, and `phnum` program headers at
offset 52, of which the first has `p_offset = 512`, `p_va = 0x100000` and `p_memsz = memsz`
(given by its four bytes, lowest first). -/
def headerBytes (phnum m0 m1 m2 m3 : Nat) (j : Nat) : Nat :=
  if j = 0 then 0x7F else if j = 1 then 0x45 else if j = 2 then 0x4C else if j = 3 then 0x46
  else if j = 26 then 0x10 else if j = 28 then 52 else if j = 44 then phnum
  else if j = 57 then 2 else if j = 62 then 0x10
  else if j = 72 then m0 else if j = 73 then m1 else if j = 74 then m2 else if j = 75 then m3
  else 0

/-- The end-to-end scenario of the specification: one segment, destination `0x100000`,
size 512, file offset 512. -/
def kernelMachine : Machine := machineOf (diskOf (headerBytes 1 0 2 0 0) 0xAA)

/-- A kernel without segments. -/
def emptyKernelMachine : Machine := machineOf (diskOf (headerBytes 0 0 0 0 0) 0xAA)

/-- A kernel whose only segment has destination 0, file offset 0 and size `0xFFFFFFFF`. -/
def hugeKernelMachine : Machine :=
  machineOf (diskOf (fun j => if j = 57 then 0 else if j = 62 then 0
    else headerBytes 1 0xFF 0xFF 0xFF 0xFF j) 0xAA)

/-- An entry function that never returns. -/
def neverReturns : Nat → Machine → Option Machine := fun _ _ => none

/-- An entry function that returns at once, leaving the machine as it found it. -/
def returnsAtOnce : Nat → Machine → Option Machine := fun _ m => some m

/-- The machines of the end-to-end scenario before its segment load (index 0) and after it. -/
def kernelStates (i : Nat) : Machine :=
  if i = 0 then headerLoad kernelMachine
  else sectSteps 1 0x100000 2 ((headerLoad kernelMachine).log (Event.readseg 0x100000 512 512))

/-- A disk that is busy (`0xD0`) at two status reads out of three and ready (`0x50`) at the
third; its blocks hold the byte 1. -/
def slowDisk : Disk :=
  { sect := fun _ _ => 1, status := fun n => if n % 3 = 2 then 0x50 else 0xD0, polls := 0,
    nsect := 0, lba0 := 0, lba1 := 0, lba2 := 0, drive := 0, cur := 0, pos := 0, served := [] }

/-- A disk that stays busy for ever. -/
def deadDisk : Disk :=
  { sect := fun _ _ => 1, status := fun _ => 0xD0, polls := 0,
    nsect := 0, lba0 := 0, lba1 := 0, lba2 := 0, drive := 0, cur := 0, pos := 0, served := [] }

/-- A kernel whose only segment has destination `0x10000`, the scratch region itself: file
offset 512, size 512. On the disk `e_entry` is `0x100000`; block 2 holds the byte `0xAA`. -/
def clobberMachine : Machine :=
  machineOf (diskOf (fun j => if j = 62 then 0x01 else headerBytes 1 0 2 0 0 j) 0xAA)

/-! ### Auxiliary lemmas -/

theorem and_255 (x : Nat) : x &&& 0xFF = x % 256 := Nat.and_pow_two_sub_one_eq_mod x 8
theorem and_15 (x : Nat) : x &&& 0xF = x % 16 := Nat.and_pow_two_sub_one_eq_mod x 4
theorem shr_8 (x : Nat) : x >>> 8 = x / 256 := Nat.shiftRight_eq_div_pow x 8
theorem shr_16 (x : Nat) : x >>> 16 = x / 65536 := Nat.shiftRight_eq_div_pow x 16
theorem shr_24 (x : Nat) : x >>> 24 = x / 16777216 := Nat.shiftRight_eq_div_pow x 24

theorem or_E0 (y : Nat) (h : y < 16) : y ||| 0xE0 = y + 224 := by
  interval_cases y <;> rfl

theorem drive_byte (secno : Nat) : ((secno >>> 24) &&& 0xF) ||| 0xE0 = secno / 16777216 % 16 + 224 := by
  rw [and_15, shr_24, or_E0 _ (Nat.mod_lt _ (by decide))]

theorem and_F0 (y : Nat) (h : y < 16) : (y + 224) &&& 0xF0 = 0xE0 := by
  interval_cases y <;> rfl

theorem and_0F (y : Nat) (h : y < 16) : (y + 224) &&& 0x0F = y := by
  interval_cases y <;> rfl

@[simp] theorem status_outb (d : Disk) (p v : Nat) : (d.outb p v).status = d.status := by
  unfold Disk.outb; split_ifs <;> rfl

@[simp] theorem sect_outb (d : Disk) (p v : Nat) : (d.outb p v).sect = d.sect := by
  unfold Disk.outb; split_ifs <;> rfl

@[simp] theorem status_inb (d : Disk) (p : Nat) : (d.inb p).2.status = d.status := by
  unfold Disk.inb; split_ifs <;> rfl

@[simp] theorem sect_inb (d : Disk) (p : Nat) : (d.inb p).2.sect = d.sect := by
  unfold Disk.inb; split_ifs <;> rfl

@[simp] theorem status_inl (d : Disk) (p : Nat) : (d.inl p).2.status = d.status := by
  unfold Disk.inl; split_ifs <;> rfl

@[simp] theorem sect_inl (d : Disk) (p : Nat) : (d.inl p).2.sect = d.sect := by
  unfold Disk.inl; split_ifs <;> rfl

theorem waitdisk_ready (F : Nat) (m : Machine) (h : Ready m.disk) :
    waitdisk (F + 1) m = Except.ok (inb 0x1F7 m).2 := by
  have h1 : (inb 0x1F7 m).1 &&& 0xC0 = 0x40 := by
    simp only [inb, Disk.inb, if_true]
    exact h _
  rw [waitdisk, if_neg (by simp [h1])]

theorem readsect_ready (F dst secno : Nat) (m : Machine) (h : Ready m.disk) :
    readsect (F + 1) dst secno m = Except.ok (sectStep dst secno m) := by
  unfold readsect
  rw [waitdisk_ready F _ (by simpa [Machine.log] using h)]
  simp only [bind, Except.bind, pure, Except.pure]
  rw [waitdisk_ready F _ (by intro n; simpa [outb, inb, Machine.log, Ready] using h n)]
  rfl

theorem store32_word (mem : Nat → Nat) (addr a b0 b1 b2 b3 : Nat)
    (h0 : b0 < 256) (h1 : b1 < 256) (h2 : b2 < 256) (h3 : b3 < 256) (ha : a < WORD) :
    store32 mem addr (b0 + 256 * b1 + 65536 * b2 + 16777216 * b3) a =
      if (a + WORD - addr % WORD) % WORD = 0 then b0
      else if (a + WORD - addr % WORD) % WORD = 1 then b1
      else if (a + WORD - addr % WORD) % WORD = 2 then b2
      else if (a + WORD - addr % WORD) % WORD = 3 then b3
      else mem a := by
  unfold store32 store8 WORD at *
  split_ifs <;> omega

theorem store32_high (mem : Nat → Nat) (addr w a : Nat) (ha : WORD ≤ a) :
    store32 mem addr w a = mem a := by
  unfold store32 store8 WORD at *
  split_ifs <;> first | rfl | omega

theorem byte_lt (d : Disk) (k j : Nat) : d.byte k j < 256 := Nat.mod_lt _ (by decide)

theorem insl_mem (cnt : Nat) : ∀ (addr : Nat) (m : Machine) (a : Nat), 4 * cnt ≤ WORD →
    (insl 0x1F0 addr cnt m).mem a =
      if a < WORD ∧ (a + WORD - addr % WORD) % WORD < 4 * cnt then
        m.disk.byte m.disk.cur (m.disk.pos + (a + WORD - addr % WORD) % WORD)
      else m.mem a := by
  induction cnt with
  | zero => intro addr m a _; simp [insl]
  | succ n ih =>
    intro addr m a hc
    rw [insl, ih _ _ _ (by omega)]
    by_cases ha : a < WORD
    · have hw := store32_word m.mem addr a _ _ _ _ (byte_lt m.disk m.disk.cur (m.disk.pos + 4 * 0))
        (byte_lt m.disk m.disk.cur (m.disk.pos + 4 * 0 + 1))
        (byte_lt m.disk m.disk.cur (m.disk.pos + 4 * 0 + 2))
        (byte_lt m.disk m.disk.cur (m.disk.pos + 4 * 0 + 3)) ha
      simp only [Disk.inl, if_true, Disk.word, Disk.byte] at hw ⊢
      simp only [hw]
      clear hw
      unfold WORD at *
      have e1 : ∀ t, (a + 4294967296 - addr % 4294967296) % 4294967296 = t + 4 →
          (a + 4294967296 - (addr + 4) % 4294967296 % 4294967296) % 4294967296 = t := by
        intro t ht; omega
      by_cases h0 : (a + 4294967296 - addr % 4294967296) % 4294967296 = 0
      · rw [if_neg (by omega), if_pos h0, if_pos (by omega), h0]
      by_cases h1 : (a + 4294967296 - addr % 4294967296) % 4294967296 = 1
      · rw [if_neg (by omega), if_neg h0, if_pos h1, if_pos (by omega), h1]
      by_cases h2 : (a + 4294967296 - addr % 4294967296) % 4294967296 = 2
      · rw [if_neg (by omega), if_neg h0, if_neg h1, if_pos h2, if_pos (by omega), h2]
      by_cases h3 : (a + 4294967296 - addr % 4294967296) % 4294967296 = 3
      · rw [if_neg (by omega), if_neg h0, if_neg h1, if_neg h2, if_pos h3, if_pos (by omega), h3]
      obtain ⟨t, ht⟩ : ∃ t, (a + 4294967296 - addr % 4294967296) % 4294967296 = t + 4 :=
        ⟨(a + 4294967296 - addr % 4294967296) % 4294967296 - 4, by omega⟩
      rw [e1 t ht]
      by_cases hlt : t < 4 * n
      · rw [if_pos ⟨ha, hlt⟩, if_pos ⟨ha, by omega⟩, ht]
        congr 2
        omega
      · rw [if_neg (by omega), if_neg h0, if_neg h1, if_neg h2, if_neg h3, if_neg (by omega)]
    · rw [if_neg (by omega), if_neg (by omega)]
      exact store32_high _ _ _ _ (by omega)

@[simp] theorem served_inb (d : Disk) (p : Nat) : (d.inb p).2.served = d.served := by
  unfold Disk.inb; split_ifs <;> rfl

@[simp] theorem served_inl (d : Disk) (p : Nat) : (d.inl p).2.served = d.served := by
  unfold Disk.inl; split_ifs <;> rfl

theorem insl_disk (cnt : Nat) : ∀ (addr : Nat) (m : Machine),
    (insl 0x1F0 addr cnt m).disk = { m.disk with pos := m.disk.pos + 4 * cnt } := by
  induction cnt with
  | zero => intro addr m; simp [insl]
  | succ n ih =>
    intro addr m
    rw [insl, ih]
    simp only [Disk.inl, if_true]
    congr 1
    omega

theorem word_shift (d : Disk) (k : Nat) :
    Disk.word { d with pos := d.pos + 4 } k = d.word (k + 1) := by
  simp only [Disk.word, Disk.byte]
  have e : d.pos + 4 + 4 * k = d.pos + 4 * (k + 1) := by omega
  rw [e]

theorem insl_trace (cnt : Nat) : ∀ (addr : Nat) (m : Machine), addr < WORD →
    (insl 0x1F0 addr cnt m).trace =
      m.trace ++ (List.range cnt).map
        (fun k => Event.insl 0x1F0 ((addr + 4 * k) % WORD) (m.disk.word k)) := by
  induction cnt with
  | zero => intro addr m _; simp [insl]
  | succ n ih =>
    intro addr m h
    rw [insl, ih _ _ (Nat.mod_lt _ (by decide)), List.range_succ_eq_map]
    simp only [Disk.inl, if_true, List.map_cons, List.map_map, List.append_assoc,
      List.singleton_append, Nat.mul_zero, Nat.add_zero, Nat.mod_eq_of_lt h]
    congr 2
    apply List.map_congr_left
    intro k _
    simp only [Function.comp, word_shift]
    congr 1
    unfold WORD
    omega

theorem lba_decode (secno : Nat) :
    (secno &&& 0xFF) % 256 + 256 * (((secno >>> 8) &&& 0xFF) % 256)
      + 65536 * (((secno >>> 16) &&& 0xFF) % 256)
      + 16777216 * ((((secno >>> 24) &&& 0xF) ||| 0xE0) % 256 % 16) = secno % 268435456 := by
  rw [drive_byte, and_255, and_255, and_255, shr_8, shr_16]
  omega

/-- The machine on which `readsect` starts the data transfer. -/
theorem sectStep_eq (dst secno : Nat) (m : Machine) :
    sectStep dst secno m =
      insl 0x1F0 dst (SECTSIZE / 4)
        { mem := m.mem,
          disk := { m.disk with
            polls := m.disk.polls + 2, nsect := 1, lba0 := (secno &&& 0xFF) % 256,
            lba1 := ((secno >>> 8) &&& 0xFF) % 256, lba2 := ((secno >>> 16) &&& 0xFF) % 256,
            drive := (((secno >>> 24) &&& 0xF) ||| 0xE0) % 256,
            cur := secno % 268435456, pos := 0,
            served := m.disk.served ++ [secno % 268435456] },
          trace := m.trace ++
            [Event.readsect dst secno, Event.inb 0x1F7 (m.disk.status m.disk.polls % 256),
             Event.outb 0x1F2 1, Event.outb 0x1F3 (secno &&& 0xFF),
             Event.outb 0x1F4 ((secno >>> 8) &&& 0xFF),
             Event.outb 0x1F5 ((secno >>> 16) &&& 0xFF),
             Event.outb 0x1F6 (((secno >>> 24) &&& 0xF) ||| 0xE0), Event.outb 0x1F7 0x20,
             Event.inb 0x1F7 (m.disk.status (m.disk.polls + 1) % 256)] } := by
  unfold sectStep
  congr 1
  simp only [inb, outb, Disk.inb, Disk.outb, Machine.log]
  simp [lba_decode]

theorem sectStep_mem (dst secno : Nat) (m : Machine) (a : Nat) :
    (sectStep dst secno m).mem a =
      if a < WORD ∧ (a + WORD - dst % WORD) % WORD < 512 then
        m.disk.byte (secno % 268435456) ((a + WORD - dst % WORD) % WORD)
      else m.mem a := by
  rw [sectStep_eq, insl_mem _ _ _ _ (by decide)]
  simp [SECTSIZE, Disk.byte]

theorem sectStep_disk (dst secno : Nat) (m : Machine) :
    (sectStep dst secno m).disk =
      { m.disk with
        polls := m.disk.polls + 2, nsect := 1, lba0 := (secno &&& 0xFF) % 256,
        lba1 := ((secno >>> 8) &&& 0xFF) % 256, lba2 := ((secno >>> 16) &&& 0xFF) % 256,
        drive := (((secno >>> 24) &&& 0xF) ||| 0xE0) % 256,
        cur := secno % 268435456, pos := 512,
        served := m.disk.served ++ [secno % 268435456] } := by
  rw [sectStep_eq, insl_disk]
  simp [SECTSIZE]

theorem sectStep_trace (dst secno : Nat) (m : Machine) (h : dst < WORD) :
    (sectStep dst secno m).trace = m.trace ++ sectEvents m.disk dst secno := by
  rw [sectStep_eq, insl_trace _ _ _ h]
  simp [sectEvents, Disk.word, Disk.byte, SECTSIZE]

theorem sectStep_ready (dst secno : Nat) (m : Machine) (h : Ready m.disk) :
    Ready (sectStep dst secno m).disk := by
  rw [sectStep_disk]; exact h

theorem sectStep_byte (dst secno : Nat) (m : Machine) (k j : Nat) :
    (sectStep dst secno m).disk.byte k j = m.disk.byte k j := by
  rw [sectStep_disk]; rfl

theorem sectSteps_ready (n : Nat) : ∀ (va secno : Nat) (m : Machine), Ready m.disk →
    Ready (sectSteps n va secno m).disk := by
  induction n with
  | zero => intro va secno m h; exact h
  | succ n ih => intro va secno m h; exact ih _ _ _ (sectStep_ready _ _ _ h)

theorem sectSteps_byte (n : Nat) : ∀ (va secno : Nat) (m : Machine) (k j : Nat),
    (sectSteps n va secno m).disk.byte k j = m.disk.byte k j := by
  induction n with
  | zero => intro va secno m k j; rfl
  | succ n ih => intro va secno m k j; rw [sectSteps, ih, sectStep_byte]

theorem readsegLoop_ready (P : Nat) (n : Nat) : ∀ (F va end_va secno : Nat) (m : Machine),
    Ready m.disk → n + 1 ≤ F → end_va ≤ va + 512 * n →
    (n = 0 ∨ va + 512 * n < end_va + 512) → va + 512 * n < WORD → secno + n < WORD →
    readsegLoop (P + 1) F va end_va secno m = Except.ok (sectSteps n va secno m) := by
  induction n with
  | zero =>
    intro F va end_va secno m _ hF h1 _ _ _
    obtain ⟨F, rfl⟩ : ∃ G, F = G + 1 := ⟨F - 1, by omega⟩
    rw [readsegLoop, if_neg (by omega)]
    rfl
  | succ n ih =>
    intro F va end_va secno m hr hF h1 h2 h3 h4
    obtain ⟨F, rfl⟩ : ∃ G, F = G + 1 := ⟨F - 1, by omega⟩
    obtain ⟨F, rfl⟩ : ∃ G, F = G + 1 := ⟨F - 1, by omega⟩
    rw [readsegLoop, if_pos (by omega), readsect_ready _ _ _ _ hr]
    simp only [bind, Except.bind]
    unfold WORD at h3 h4
    have e1 : (va + SECTSIZE) % WORD = va + SECTSIZE := by
      unfold SECTSIZE WORD; omega
    have e2 : (secno + 1) % WORD = secno + 1 := by
      unfold WORD; omega
    rw [e1, e2, ih _ _ _ _ _ (sectStep_ready _ _ _ hr) (by omega) (by unfold SECTSIZE; omega)
      (by unfold SECTSIZE; omega) (by unfold SECTSIZE WORD; omega) (by unfold WORD; omega)]
    rfl

theorem sectSteps_mem (n : Nat) : ∀ (va secno : Nat) (m : Machine) (a : Nat),
    va + 512 * n ≤ WORD → secno + n ≤ 268435456 →
    (sectSteps n va secno m).mem a =
      if va ≤ a ∧ a < va + 512 * n then m.disk.byte (secno + (a - va) / 512) ((a - va) % 512)
      else m.mem a := by
  induction n with
  | zero =>
    intro va secno m a _ _
    rw [sectSteps, if_neg (by omega)]
  | succ n ih =>
    intro va secno m a h1 h2
    unfold WORD at h1
    rw [sectSteps, ih _ _ _ _ (by unfold SECTSIZE WORD; omega) (by omega), sectStep_mem]
    simp only [sectStep_byte]
    unfold SECTSIZE WORD
    by_cases c1 : va + 512 ≤ a ∧ a < va + 512 + 512 * n
    · have c3 : va ≤ a ∧ a < va + 512 * (n + 1) := by omega
      rw [if_pos c1, if_pos c3]
      have e1 : secno + 1 + (a - (va + 512)) / 512 = secno + (a - va) / 512 := by omega
      have e2 : (a - (va + 512)) % 512 = (a - va) % 512 := by omega
      rw [e1, e2]
    · rw [if_neg c1]
      by_cases c2 : va ≤ a ∧ a < va + 512
      · have c3 : va ≤ a ∧ a < va + 512 * (n + 1) := by omega
        have c4 : a < 4294967296 ∧ (a + 4294967296 - va % 4294967296) % 4294967296 < 512 := by
          omega
        rw [if_pos c4, if_pos c3]
        have e1 : secno + (a - va) / 512 = secno := by omega
        have e2 : (a + 4294967296 - va % 4294967296) % 4294967296 = (a - va) % 512 := by omega
        have e3 : secno % 268435456 = secno := by omega
        rw [e1, e2, e3]
      · have c3 : ¬ (va ≤ a ∧ a < va + 512 * (n + 1)) := by omega
        have c4 : ¬ (a < 4294967296 ∧ (a + 4294967296 - va % 4294967296) % 4294967296 < 512) := by
          omega
        rw [if_neg c4, if_neg c3]

theorem secnos_append (l1 l2 : List Event) : secnos (l1 ++ l2) = secnos l1 ++ secnos l2 := by
  induction l1 with
  | nil => rfl
  | cons e l ih => cases e <;> simp [secnos, ih]

theorem segCalls_append (l1 l2 : List Event) :
    segCalls (l1 ++ l2) = segCalls l1 ++ segCalls l2 := by
  induction l1 with
  | nil => rfl
  | cons e l ih => cases e <;> simp [segCalls, ih]

theorem entryCalls_append (l1 l2 : List Event) :
    entryCalls (l1 ++ l2) = entryCalls l1 ++ entryCalls l2 := by
  induction l1 with
  | nil => rfl
  | cons e l ih => cases e <;> simp [entryCalls, ih]

theorem failWrites_append (l1 l2 : List Event) :
    failWrites (l1 ++ l2) = failWrites l1 ++ failWrites l2 := by
  induction l1 with
  | nil => rfl
  | cons e l ih =>
    cases e <;> simp [failWrites, ih]
    split_ifs <;> simp

theorem segCalls_driver (l : List Event) (h : ∀ e ∈ l, e.driver = true) : segCalls l = [] := by
  induction l with
  | nil => rfl
  | cons e l ih =>
    have he := h e (List.mem_cons_self _ _)
    have hl := ih (fun x hx => h x (List.mem_cons_of_mem _ hx))
    cases e <;> simp_all [segCalls, Event.driver]

theorem entryCalls_driver (l : List Event) (h : ∀ e ∈ l, e.driver = true) :
    entryCalls l = [] := by
  induction l with
  | nil => rfl
  | cons e l ih =>
    have he := h e (List.mem_cons_self _ _)
    have hl := ih (fun x hx => h x (List.mem_cons_of_mem _ hx))
    cases e <;> simp_all [entryCalls, Event.driver]

theorem failWrites_driver (l : List Event) (h : ∀ e ∈ l, e.driver = true) :
    failWrites l = [] := by
  induction l with
  | nil => rfl
  | cons e l ih =>
    have he := h e (List.mem_cons_self _ _)
    have hl := ih (fun x hx => h x (List.mem_cons_of_mem _ hx))
    cases e <;> simp_all [failWrites, Event.driver]

theorem secnos_insl (l : List Nat) (p : Nat) (f g : Nat → Nat) :
    secnos (l.map (fun k => Event.insl p (f k) (g k))) = [] := by
  induction l with
  | nil => rfl
  | cons k l ih => simp [secnos, ih]

theorem sectEvents_secnos (d : Disk) (dst secno : Nat) :
    secnos (sectEvents d dst secno) = [secno] := by
  unfold sectEvents
  rw [secnos_append, secnos_insl]
  rfl

theorem sectEvents_driver (d : Disk) (dst secno : Nat) :
    ∀ e ∈ sectEvents d dst secno, e.driver = true := by
  intro e he
  unfold sectEvents at he
  rw [List.mem_append] at he
  rcases he with he | he
  · simp only [List.mem_cons, List.mem_singleton, List.not_mem_nil, or_false] at he
    rcases he with h | h | h | h | h | h | h | h | h <;> subst h <;> rfl
  · rw [List.mem_map] at he
    obtain ⟨k, _, rfl⟩ := he
    rfl

theorem written_append (l1 l2 : List Event) (a : Nat) :
    written (l1 ++ l2) a = (written l1 a || written l2 a) := by
  simp [written]

theorem written_insl (l : List Nat) (p : Nat) (f g : Nat → Nat) (a : Nat) :
    written (l.map (fun k => Event.insl p (f k) (g k))) a = true ↔
      ∃ k ∈ l, a < WORD ∧ (a + WORD - f k % WORD) % WORD < 4 := by
  induction l with
  | nil => simp [written]
  | cons k l ih =>
    unfold written at ih ⊢
    rw [List.map_cons, List.any_cons, Bool.or_eq_true, ih]
    simp [Event.writes]

theorem sectEvents_written (d : Disk) (dst secno a : Nat) :
    written (sectEvents d dst secno) a = true ↔
      a < WORD ∧ (a + WORD - dst % WORD) % WORD < 512 := by
  unfold sectEvents
  rw [written_append, Bool.or_eq_true, written_insl]
  have h0 : written [Event.readsect dst secno, Event.inb 0x1F7 (d.status d.polls % 256),
      Event.outb 0x1F2 1, Event.outb 0x1F3 (secno &&& 0xFF),
      Event.outb 0x1F4 ((secno >>> 8) &&& 0xFF), Event.outb 0x1F5 ((secno >>> 16) &&& 0xFF),
      Event.outb 0x1F6 (((secno >>> 24) &&& 0xF) ||| 0xE0), Event.outb 0x1F7 0x20,
      Event.inb 0x1F7 (d.status (d.polls + 1) % 256)] a = false := rfl
  rw [h0]
  simp only [Bool.false_eq_true, false_or, List.mem_range, SECTSIZE]
  unfold WORD
  constructor
  · rintro ⟨k, hk, h1, h2⟩
    norm_num at hk
    omega
  · rintro ⟨h1, h2⟩
    refine ⟨(a + 4294967296 - dst % 4294967296) % 4294967296 / 4, ?_, h1, ?_⟩
    · norm_num; omega
    · omega

theorem sectSteps_trace (n : Nat) : ∀ (va secno : Nat) (m : Machine), va + 512 * n ≤ WORD →
    ∃ evs, (sectSteps n va secno m).trace = m.trace ++ evs ∧
      secnos evs = List.range' secno n ∧
      (∀ a, written evs a = true ↔ va ≤ a ∧ a < va + 512 * n) ∧
      (∀ e ∈ evs, e.driver = true) := by
  induction n with
  | zero =>
    intro va secno m _
    refine ⟨[], by simp [sectSteps], rfl, ?_, by simp⟩
    intro a
    simp [written]
  | succ n ih =>
    intro va secno m h
    unfold WORD at h
    obtain ⟨evs, h1, h2, h3, h4⟩ := ih (va + SECTSIZE) (secno + 1) (sectStep va secno m)
      (by unfold SECTSIZE WORD; omega)
    refine ⟨sectEvents m.disk va secno ++ evs, ?_, ?_, ?_, ?_⟩
    · rw [sectSteps, h1, sectStep_trace _ _ _ (by unfold WORD; omega), List.append_assoc]
    · rw [secnos_append, sectEvents_secnos, h2]
      rfl
    · intro a
      rw [written_append, Bool.or_eq_true, h3, sectEvents_written]
      unfold SECTSIZE WORD
      omega
    · intro e he
      rw [List.mem_append] at he
      rcases he with he | he
      · exact sectEvents_driver _ _ _ e he
      · exact h4 e he

theorem sectSteps_served (n : Nat) : ∀ (va secno : Nat) (m : Machine),
    (sectSteps n va secno m).disk.served =
      m.disk.served ++ (List.range' secno n).map (fun s => s % 268435456) := by
  induction n with
  | zero => intro va secno m; simp [sectSteps]
  | succ n ih =>
    intro va secno m
    rw [sectSteps, ih, sectStep_disk]
    simp [List.range'_succ]

/-- What a run of `waitdisk` may change: the poll counter and the trace (status reads only). -/
theorem waitdisk_reached (F : Nat) : ∀ (m : Machine),
    ∃ evs, (reached (waitdisk F m)).trace = m.trace ++ evs ∧
      (∀ e ∈ evs, e.driver = true) ∧
      (reached (waitdisk F m)).disk.served = m.disk.served ∧
      (reached (waitdisk F m)).mem = m.mem := by
  induction F with
  | zero => intro m; exact ⟨[], by simp [waitdisk, reached], by simp, rfl, rfl⟩
  | succ F ih =>
    intro m
    rw [waitdisk]
    split_ifs with h
    · obtain ⟨evs, h1, h2, h3, h4⟩ := ih (inb 0x1F7 m).2
      refine ⟨Event.inb 0x1F7 (m.disk.inb 0x1F7).1 :: evs, ?_, ?_, ?_, ?_⟩
      · rw [h1]; simp [inb]
      · intro e he
        rcases List.mem_cons.1 he with rfl | he
        · rfl
        · exact h2 e he
      · rw [h3]; simp [inb]
      · rw [h4]; rfl
    · refine ⟨[Event.inb 0x1F7 (m.disk.inb 0x1F7).1], ?_, ?_, ?_, ?_⟩
      · simp [reached, inb]
      · intro e he
        rcases List.mem_singleton.1 he with rfl
        rfl
      · simp [reached, inb]
      · rfl

theorem waitdisk_mono (F : Nat) : ∀ (G : Nat) (m m1 : Machine), F ≤ G →
    waitdisk F m = Except.ok m1 → waitdisk G m = Except.ok m1 := by
  induction F with
  | zero => intro G m m1 _ h; simp [waitdisk] at h
  | succ F ih =>
    intro G m m1 hG h
    obtain ⟨G, rfl⟩ : ∃ K, G = K + 1 := ⟨G - 1, by omega⟩
    rw [waitdisk] at h ⊢
    split_ifs at h ⊢ with c
    · exact ih G _ _ (by omega) h
    · exact h

theorem insl_driver (cnt : Nat) : ∀ (addr : Nat) (m : Machine),
    ∃ evs, (insl 0x1F0 addr cnt m).trace = m.trace ++ evs ∧ ∀ e ∈ evs, e.driver = true := by
  induction cnt with
  | zero => intro addr m; exact ⟨[], by simp [insl], by simp⟩
  | succ n ih =>
    intro addr m
    rw [insl]
    obtain ⟨evs, h1, h2⟩ := ih ((addr + 4) % WORD)
      { mem := store32 m.mem addr (m.disk.inl 0x1F0).1, disk := (m.disk.inl 0x1F0).2,
        trace := m.trace ++ [Event.insl 0x1F0 addr (m.disk.inl 0x1F0).1] }
    refine ⟨Event.insl 0x1F0 addr (m.disk.inl 0x1F0).1 :: evs, ?_, ?_⟩
    · rw [h1]; simp
    · intro e he
      rcases List.mem_cons.1 he with rfl | he
      · rfl
      · exact h2 e he

theorem cmdEvents_driver (secno : Nat) : ∀ e ∈ cmdEvents secno, e.driver = true := by
  intro e he
  simp only [cmdEvents, List.mem_cons, List.mem_singleton, List.not_mem_nil, or_false] at he
  rcases he with h | h | h | h | h | h <;> subst h <;> rfl

/-- The six register writes of `readsect`: their trace, and the block the disk is told to read. -/
theorem command_effect (secno : Nat) (m : Machine) :
    (outb 0x1F7 0x20 (outb 0x1F6 (((secno >>> 24) &&& 0xF) ||| 0xE0)
      (outb 0x1F5 ((secno >>> 16) &&& 0xFF) (outb 0x1F4 ((secno >>> 8) &&& 0xFF)
        (outb 0x1F3 (secno &&& 0xFF) (outb 0x1F2 1 m)))))).trace = m.trace ++ cmdEvents secno ∧
    (outb 0x1F7 0x20 (outb 0x1F6 (((secno >>> 24) &&& 0xF) ||| 0xE0)
      (outb 0x1F5 ((secno >>> 16) &&& 0xFF) (outb 0x1F4 ((secno >>> 8) &&& 0xFF)
        (outb 0x1F3 (secno &&& 0xFF) (outb 0x1F2 1 m)))))).disk.served =
      m.disk.served ++ [secno % 268435456] := by
  constructor
  · simp [outb, cmdEvents]
  · simp [outb, Disk.outb, lba_decode]

/-- What a run of `readsect` adds to the trace and to the list of blocks the disk served. -/
theorem readsect_reached (F dst secno : Nat) (m : Machine) :
    ∃ evs, (reached (readsect F dst secno m)).trace = m.trace ++ evs ∧
      (∀ e ∈ evs, e.driver = true) ∧
      ((reached (readsect F dst secno m)).disk.served = m.disk.served ∨
       (reached (readsect F dst secno m)).disk.served = m.disk.served ++ [secno % 268435456]) := by
  unfold readsect
  obtain ⟨evs1, h1, d1, s1, -⟩ := waitdisk_reached F (m.log (Event.readsect dst secno))
  cases hw1 : waitdisk F (m.log (Event.readsect dst secno)) with
  | error m1 =>
    rw [hw1] at h1 s1
    simp only [reached] at h1 s1
    refine ⟨Event.readsect dst secno :: evs1, ?_, ?_, Or.inl ?_⟩
    · simp only [bind, Except.bind, reached, h1, Machine.log, List.append_assoc,
        List.singleton_append]
    · intro e he
      rcases List.mem_cons.1 he with rfl | he
      · rfl
      · exact d1 e he
    · simp only [bind, Except.bind, reached, s1, Machine.log]
  | ok m1 =>
    rw [hw1] at h1 s1
    simp only [reached, Machine.log] at h1 s1
    simp only [bind, Except.bind, pure, Except.pure]
    obtain ⟨t7, s7⟩ := command_effect secno m1
    generalize outb 0x1F7 0x20 _ = m7 at t7 s7 ⊢
    have d7 : ∀ e ∈ Event.readsect dst secno :: (evs1 ++ cmdEvents secno), e.driver = true := by
      intro e he
      rcases List.mem_cons.1 he with rfl | he
      · rfl
      · rcases List.mem_append.1 he with he | he
        · exact d1 e he
        · exact cmdEvents_driver secno e he
    obtain ⟨evs2, h2, d2, s2, -⟩ := waitdisk_reached F m7
    cases hw2 : waitdisk F m7 with
    | error m8 =>
      rw [hw2] at h2 s2
      simp only [reached] at h2 s2
      refine ⟨Event.readsect dst secno :: (evs1 ++ cmdEvents secno) ++ evs2, ?_, ?_, Or.inr ?_⟩
      · simp only [reached, h2, t7, h1, List.append_assoc, List.singleton_append, List.nil_append,
          List.cons_append]
      · intro e he
        rcases List.mem_append.1 he with he | he
        · exact d7 e he
        · exact d2 e he
      · simp only [reached, s2, s7, s1]
    | ok m8 =>
      rw [hw2] at h2 s2
      simp only [reached] at h2 s2
      obtain ⟨evs3, h3, d3⟩ := insl_driver (SECTSIZE / 4) dst m8
      refine ⟨Event.readsect dst secno :: (evs1 ++ cmdEvents secno) ++ evs2 ++ evs3, ?_, ?_,
        Or.inr ?_⟩
      · simp only [reached, h3, h2, t7, h1, List.append_assoc, List.singleton_append, List.nil_append,
          List.cons_append]
      · intro e he
        rcases List.mem_append.1 he with he | he
        · rcases List.mem_append.1 he with he | he
          · exact d7 e he
          · exact d2 e he
        · exact d3 e he
      · simp only [reached, insl_disk, s2, s7, s1]

theorem readsect_mono (F G dst secno : Nat) (m m1 : Machine) (hG : F ≤ G)
    (h : readsect F dst secno m = Except.ok m1) : readsect G dst secno m = Except.ok m1 := by
  unfold readsect at h ⊢
  cases hw1 : waitdisk F (m.log (Event.readsect dst secno)) with
  | error e => rw [hw1] at h; simp [bind, Except.bind] at h
  | ok a =>
    rw [hw1] at h
    rw [waitdisk_mono F G _ _ hG hw1]
    simp only [bind, Except.bind, pure, Except.pure] at h ⊢
    generalize outb 0x1F7 0x20 _ = m7 at h ⊢
    cases hw2 : waitdisk F m7 with
    | error e => rw [hw2] at h; simp at h
    | ok b =>
      rw [hw2] at h
      rw [waitdisk_mono F G _ _ hG hw2]
      exact h

theorem readsegLoop_mono (P Q : Nat) (hQ : P ≤ Q) (F : Nat) :
    ∀ (G va end_va secno : Nat) (m m1 : Machine), F ≤ G →
    readsegLoop P F va end_va secno m = Except.ok m1 →
    readsegLoop Q G va end_va secno m = Except.ok m1 := by
  induction F with
  | zero => intro G va end_va secno m m1 _ h; simp [readsegLoop] at h
  | succ F ih =>
    intro G va end_va secno m m1 hG h
    obtain ⟨G, rfl⟩ : ∃ K, G = K + 1 := ⟨G - 1, by omega⟩
    rw [readsegLoop] at h ⊢
    split_ifs at h ⊢ with c
    · cases hs : readsect P va secno m with
      | error e => rw [hs] at h; simp [bind, Except.bind] at h
      | ok a =>
        rw [hs] at h
        rw [readsect_mono P Q _ _ _ _ hQ hs]
        simp only [bind, Except.bind] at h ⊢
        exact ih G _ _ _ _ _ (by omega) h
    · exact h

theorem readseg_mono (P Q F G va count offset : Nat) (m m1 : Machine) (hQ : P ≤ Q) (hG : F ≤ G)
    (h : readseg P F va count offset m = Except.ok m1) :
    readseg Q G va count offset m = Except.ok m1 :=
  readsegLoop_mono P Q hQ F G _ _ _ _ _ hG h

/-- What a run of the loop of `readseg` adds to the trace and to the blocks served. -/
theorem readsegLoop_reached (P : Nat) (F : Nat) : ∀ (va end_va secno : Nat) (m : Machine),
    ∃ evs bs, (reached (readsegLoop P F va end_va secno m)).trace = m.trace ++ evs ∧
      (∀ e ∈ evs, e.driver = true) ∧
      (reached (readsegLoop P F va end_va secno m)).disk.served = m.disk.served ++ bs ∧
      (1 ≤ secno → secno + F ≤ 268435456 → ∀ b ∈ bs, 1 ≤ b) := by
  induction F with
  | zero =>
    intro va end_va secno m
    exact ⟨[], [], by simp [readsegLoop, reached], by simp, by simp [readsegLoop, reached],
      by simp⟩
  | succ F ih =>
    intro va end_va secno m
    rw [readsegLoop]
    split_ifs with c
    · obtain ⟨evs1, t1, d1, s1⟩ := readsect_reached P va secno m
      have hb : 1 ≤ secno → secno + (F + 1) ≤ 268435456 → 1 ≤ secno % 268435456 := by
        intro _ _; omega
      cases hs : readsect P va secno m with
      | error e =>
        rw [hs] at t1 s1
        simp only [reached] at t1 s1
        simp only [bind, Except.bind, reached]
        rcases s1 with s1 | s1
        · exact ⟨evs1, [], t1, d1, by simp [s1], by simp⟩
        · refine ⟨evs1, [secno % 268435456], t1, d1, s1, ?_⟩
          intro h1 h2 b hb1
          rw [List.mem_singleton.1 hb1]
          exact hb h1 h2
      | ok a =>
        rw [hs] at t1 s1
        simp only [reached] at t1 s1
        simp only [bind, Except.bind]
        obtain ⟨evs2, bs2, t2, d2, s2, b2⟩ :=
          ih ((va + SECTSIZE) % WORD) end_va ((secno + 1) % WORD) a
        have hb2 : 1 ≤ secno → secno + (F + 1) ≤ 268435456 → ∀ b ∈ bs2, 1 ≤ b := by
          intro h1 h2
          exact b2 (by unfold WORD; omega) (by unfold WORD; omega)
        have hd : ∀ e ∈ evs1 ++ evs2, e.driver = true := by
          intro e he
          rcases List.mem_append.1 he with he | he
          · exact d1 e he
          · exact d2 e he
        rcases s1 with s1 | s1
        · exact ⟨evs1 ++ evs2, bs2, by rw [t2, t1, List.append_assoc], hd, by rw [s2, s1], hb2⟩
        · refine ⟨evs1 ++ evs2, secno % 268435456 :: bs2, by rw [t2, t1, List.append_assoc], hd,
            by rw [s2, s1]; simp, ?_⟩
          intro h1 h2 b hb1
          rcases List.mem_cons.1 hb1 with rfl | hb1
          · exact hb h1 h2
          · exact hb2 h1 h2 b hb1
    · exact ⟨[], [], by simp [reached], by simp, by simp [reached], by simp⟩

/-- What a run of `readseg` adds to the trace and to the blocks served. -/
theorem readseg_reached (P : Nat) (F va count offset : Nat) (m : Machine) :
    ∃ evs bs, (reached (readseg P F va count offset m)).trace =
        m.trace ++ Event.readseg va count offset :: evs ∧
      (∀ e ∈ evs, e.driver = true) ∧
      (reached (readseg P F va count offset m)).disk.served = m.disk.served ++ bs ∧
      (offset < WORD → F ≤ 260046848 → ∀ b ∈ bs, 1 ≤ b) := by
  unfold readseg
  obtain ⟨evs, bs, t, d, s, b⟩ := readsegLoop_reached P F
    ((va + WORD - offset % SECTSIZE) % WORD) ((va + count) % WORD)
    ((offset / SECTSIZE + 1) % WORD) (m.log (Event.readseg va count offset))
  refine ⟨evs, bs, by rw [t]; simp [Machine.log], d, by rw [s]; rfl, ?_⟩
  intro h1 h2
  unfold WORD at h1
  exact b (by unfold WORD SECTSIZE; omega) (by unfold WORD SECTSIZE; omega)

theorem load8_lt (mem : Nat → Nat) (a : Nat) : load8 mem a < 256 := Nat.mod_lt _ (by decide)

theorem load32_lt (mem : Nat → Nat) (a : Nat) : load32 mem a < WORD := by
  have h0 := load8_lt mem a
  have h1 := load8_lt mem (a + 1)
  have h2 := load8_lt mem (a + 2)
  have h3 := load8_lt mem (a + 3)
  unfold load32 WORD
  omega

theorem load16_lt (mem : Nat → Nat) (a : Nat) : load16 mem a < 65536 := by
  have h0 := load8_lt mem a
  have h1 := load8_lt mem (a + 1)
  unfold load16
  omega

theorem bootmain_header_error (P : Nat) (L : Layout) (entry : Nat → Machine → Option Machine)
    (F : Nat) (m e : Machine) (h : readseg P F ELFHDR (SECTSIZE * 8) 0 m = Except.error e) :
    bootmain L entry P F m = Except.error e := by
  unfold bootmain
  rw [h]
  rfl

theorem bootmain_at_bad (P : Nat) (L : Layout) (entry : Nat → Machine → Option Machine)
    (F : Nat) (m m1 : Machine) (h : readseg P F ELFHDR (SECTSIZE * 8) 0 m = Except.ok m1)
    (hm : load32 m1.mem (ELFHDR + L.e_magic) ≠ L.ELF_MAGIC) :
    bootmain L entry P F m = Except.ok (bad m1) := by
  unfold bootmain
  rw [h]
  simp only [bind, Except.bind]
  rw [if_pos hm]
  rfl

theorem bootmain_segment_error (P : Nat) (L : Layout) (entry : Nat → Machine → Option Machine)
    (F : Nat) (m m1 e : Machine) (h : readseg P F ELFHDR (SECTSIZE * 8) 0 m = Except.ok m1)
    (hm : load32 m1.mem (ELFHDR + L.e_magic) = L.ELF_MAGIC)
    (hs : segLoop L P F ((ELFHDR + load32 m1.mem (ELFHDR + L.e_phoff)) % WORD)
      (((ELFHDR + load32 m1.mem (ELFHDR + L.e_phoff)) % WORD
        + L.phsize * load16 m1.mem (ELFHDR + L.e_phnum)) % WORD) m1 = Except.error e) :
    bootmain L entry P F m = Except.error e := by
  unfold bootmain
  rw [h]
  simp only [bind, Except.bind]
  rw [if_neg (by simpa using hm), hs]

theorem bootmain_jump (P : Nat) (L : Layout) (entry : Nat → Machine → Option Machine)
    (F : Nat) (m m1 m2 : Machine) (h : readseg P F ELFHDR (SECTSIZE * 8) 0 m = Except.ok m1)
    (hm : load32 m1.mem (ELFHDR + L.e_magic) = L.ELF_MAGIC)
    (hs : segLoop L P F ((ELFHDR + load32 m1.mem (ELFHDR + L.e_phoff)) % WORD)
      (((ELFHDR + load32 m1.mem (ELFHDR + L.e_phoff)) % WORD
        + L.phsize * load16 m1.mem (ELFHDR + L.e_phnum)) % WORD) m1 = Except.ok m2) :
    bootmain L entry P F m =
      Except.ok (enter entry (load32 m2.mem (ELFHDR + L.e_entry) &&& 0xFFFFFF) m2) := by
  unfold bootmain
  rw [h]
  simp only [bind, Except.bind]
  rw [if_neg (by simpa using hm), hs]
  rfl

/-- What a run of the segment loop of `bootmain` adds to the trace and to the blocks served. -/
theorem segLoop_reached (P : Nat) (L : Layout) (F : Nat) : ∀ (ph eph : Nat) (m : Machine),
    ∃ evs bs, (reached (segLoop L P F ph eph m)).trace = m.trace ++ evs ∧
      entryCalls evs = [] ∧ failWrites evs = [] ∧
      (reached (segLoop L P F ph eph m)).disk.served = m.disk.served ++ bs ∧
      (F ≤ 260046848 → ∀ b ∈ bs, 1 ≤ b) := by
  induction F with
  | zero =>
    intro ph eph m
    exact ⟨[], [], by simp [segLoop, reached], rfl, rfl, by simp [segLoop, reached], by simp⟩
  | succ F ih =>
    intro ph eph m
    rw [segLoop]
    split_ifs with c
    · obtain ⟨evs1, bs1, t1, d1, s1, b1⟩ := readseg_reached P F (segArgs L m.mem ph).1
        (segArgs L m.mem ph).2.1 (segArgs L m.mem ph).2.2 m
      have hb1 : F + 1 ≤ 260046848 → ∀ b ∈ bs1, 1 ≤ b := fun hF =>
        b1 (load32_lt _ _) (by omega)
      have e1 : entryCalls (Event.readseg (segArgs L m.mem ph).1 (segArgs L m.mem ph).2.1
          (segArgs L m.mem ph).2.2 :: evs1) = [] := by
        show entryCalls evs1 = []
        exact entryCalls_driver _ d1
      have f1 : failWrites (Event.readseg (segArgs L m.mem ph).1 (segArgs L m.mem ph).2.1
          (segArgs L m.mem ph).2.2 :: evs1) = [] := by
        show failWrites evs1 = []
        exact failWrites_driver _ d1
      cases hs : readseg P F (segArgs L m.mem ph).1 (segArgs L m.mem ph).2.1
          (segArgs L m.mem ph).2.2 m with
      | error e =>
        rw [hs] at t1 s1
        simp only [reached] at t1 s1
        simp only [bind, Except.bind, reached]
        exact ⟨_, bs1, t1, e1, f1, s1, hb1⟩
      | ok a =>
        rw [hs] at t1 s1
        simp only [reached] at t1 s1
        simp only [bind, Except.bind]
        obtain ⟨evs2, bs2, t2, e2, f2, s2, b2⟩ := ih ((ph + L.phsize) % WORD) eph a
        refine ⟨(Event.readseg (segArgs L m.mem ph).1 (segArgs L m.mem ph).2.1
          (segArgs L m.mem ph).2.2 :: evs1) ++ evs2, bs1 ++ bs2,
          by rw [t2, t1, List.append_assoc], ?_, ?_,
          by rw [s2, s1, List.append_assoc], ?_⟩
        · rw [entryCalls_append, e1, e2]; rfl
        · rw [failWrites_append, f1, f2]; rfl
        · intro hF b hb
          rcases List.mem_append.1 hb with hb | hb
          · exact hb1 hF b hb
          · exact b2 (by omega) b hb
    · exact ⟨[], [], by simp [reached], rfl, rfl, by simp [reached], by simp⟩

theorem ready_diskOf (f : Nat → Nat) (fill : Nat) : Ready (diskOf f fill) := by
  intro n
  show (64 % 256) &&& 0xC0 = 0x40
  decide

theorem readseg_ready (P : Nat) (F dst count offset : Nat) (m : Machine) (hr : Ready m.disk)
    (ho : offset < WORD) (h1 : offset % 512 ≤ dst) (h2 : dst + count + 512 ≤ WORD)
    (hF : count / 512 + 3 ≤ F) :
    readseg (P + 1) F dst count offset m =
      Except.ok (sectSteps ((count + offset % 512 + 511) / 512) (dst - offset % 512)
        (offset / 512 + 1) (m.log (Event.readseg dst count offset))) := by
  unfold WORD at ho h2
  have e1 : (dst + WORD - offset % SECTSIZE) % WORD = dst - offset % 512 := by
    unfold WORD SECTSIZE; omega
  have e2 : (dst + count) % WORD = dst + count := by unfold WORD; omega
  have e3 : (offset / SECTSIZE + 1) % WORD = offset / 512 + 1 := by
    unfold WORD SECTSIZE; omega
  unfold readseg
  rw [e1, e2, e3]
  exact readsegLoop_ready P _ _ _ _ _ _ hr (by omega) (by omega) (by omega)
    (by unfold WORD; omega) (by unfold WORD; omega)

theorem header_readseg (P : Nat) (F : Nat) (m : Machine) (hr : Ready m.disk) (hF : 11 ≤ F) :
    readseg (P + 1) F ELFHDR (SECTSIZE * 8) 0 m =
      Except.ok (sectSteps 8 ELFHDR 1 (m.log (Event.readseg ELFHDR (SECTSIZE * 8) 0))) :=
  readseg_ready P F ELFHDR (SECTSIZE * 8) 0 m hr (by decide) (by decide) (by decide)
    (by unfold SECTSIZE; omega)

theorem headerLoad_eq (m : Machine) (hr : Ready m.disk) :
    headerLoad m = sectSteps 8 ELFHDR 1 (m.log (Event.readseg ELFHDR (SECTSIZE * 8) 0)) := by
  unfold headerLoad
  rw [header_readseg 0 11 m hr (le_refl _)]
  rfl

theorem header_returns (P : Nat) (F : Nat) (m : Machine) (hr : Ready m.disk) (hF : 11 ≤ F) :
    readseg (P + 1) F ELFHDR (SECTSIZE * 8) 0 m = Except.ok (headerLoad m) := by
  rw [headerLoad_eq m hr]
  exact header_readseg P F m hr hF

theorem headerLoad_ready (m : Machine) (hr : Ready m.disk) : Ready (headerLoad m).disk := by
  rw [headerLoad_eq m hr]
  exact sectSteps_ready _ _ _ _ hr

theorem headerLoad_byte (m : Machine) (hr : Ready m.disk) (k j : Nat) :
    (headerLoad m).disk.byte k j = m.disk.byte k j := by
  rw [headerLoad_eq m hr, sectSteps_byte]
  rfl

theorem headerLoad_mem (m : Machine) (hr : Ready m.disk) (a : Nat) :
    (headerLoad m).mem a =
      if ELFHDR ≤ a ∧ a < ELFHDR + 4096 then image m.disk (a - ELFHDR) else m.mem a := by
  rw [headerLoad_eq m hr, sectSteps_mem _ _ _ _ _ (by decide) (by decide)]
  unfold ELFHDR image SECTSIZE
  by_cases c : 65536 ≤ a ∧ a < 65536 + 4096
  · rw [if_pos (by omega), if_pos c]
    have e : 1 + (a - 65536) / 512 = (a - 65536) / 512 + 1 := by omega
    rw [e]
    rfl
  · rw [if_neg (by omega), if_neg c]
    rfl

theorem image_lt (d : Disk) (i : Nat) : image d i < 256 := byte_lt _ _ _

theorem load8_header (m : Machine) (hr : Ready m.disk) (off : Nat) (h : off < 4096) :
    load8 (headerLoad m).mem (ELFHDR + off) = image m.disk off := by
  unfold load8
  have e : (ELFHDR + off) % WORD = ELFHDR + off := by unfold ELFHDR WORD; omega
  rw [e, headerLoad_mem m hr, if_pos (by omega), Nat.add_sub_cancel_left,
    Nat.mod_eq_of_lt (image_lt _ _)]

theorem load32_header (m : Machine) (hr : Ready m.disk) (off : Nat) (h : off + 4 ≤ 4096) :
    load32 (headerLoad m).mem (ELFHDR + off) =
      image m.disk off + 256 * image m.disk (off + 1) + 65536 * image m.disk (off + 2)
        + 16777216 * image m.disk (off + 3) := by
  unfold load32
  rw [Nat.add_assoc ELFHDR off 1, Nat.add_assoc ELFHDR off 2, Nat.add_assoc ELFHDR off 3,
    load8_header m hr _ (by omega), load8_header m hr _ (by omega),
    load8_header m hr _ (by omega), load8_header m hr _ (by omega)]

theorem load16_header (m : Machine) (hr : Ready m.disk) (off : Nat) (h : off + 2 ≤ 4096) :
    load16 (headerLoad m).mem (ELFHDR + off) = image m.disk off + 256 * image m.disk (off + 1) := by
  unfold load16
  rw [Nat.add_assoc ELFHDR off 1, load8_header m hr _ (by omega), load8_header m hr _ (by omega)]

/-- The segment loop of `bootmain` when the table does not wrap around and every segment
load returns: `ms i` is the machine before the `i`-th load. -/
theorem segLoop_run (L : Layout) (P Q : Nat) (hQ : Q ≤ P) (G : Nat) (n : Nat) :
    ∀ (F ph : Nat) (ms : Nat → Machine),
    ph + L.phsize * n < WORD → G + n + 1 ≤ F →
    (∀ i, i < n → readseg Q G (segArgs L (ms i).mem (ph + L.phsize * i)).1
        (segArgs L (ms i).mem (ph + L.phsize * i)).2.1
        (segArgs L (ms i).mem (ph + L.phsize * i)).2.2 (ms i) = Except.ok (ms (i + 1))) →
    segLoop L P F ph (ph + L.phsize * n) (ms 0) = Except.ok (ms n) := by
  induction n with
  | zero =>
    intro F ph ms _ hF _
    obtain ⟨F, rfl⟩ : ∃ K, F = K + 1 := ⟨F - 1, by omega⟩
    rw [segLoop, if_neg (by omega)]
  | succ n ih =>
    intro F ph ms hw hF hs
    obtain ⟨F, rfl⟩ : ∃ K, F = K + 1 := ⟨F - 1, by omega⟩
    have hp := L.phsize_pos
    have hmul : L.phsize * (n + 1) = L.phsize + L.phsize * n := by ring
    rw [hmul] at hw ⊢
    have h0 := hs 0 (by omega)
    rw [Nat.mul_zero, Nat.add_zero] at h0
    rw [segLoop, if_pos (by omega), readseg_mono Q P G F _ _ _ _ _ hQ (by omega) h0]
    simp only [bind, Except.bind]
    have e : (ph + L.phsize) % WORD = ph + L.phsize := Nat.mod_eq_of_lt (by omega)
    rw [e, ← Nat.add_assoc]
    refine ih F (ph + L.phsize) (fun i => ms (i + 1)) (by omega) (by omega) ?_
    intro i hi
    have h1 := hs (i + 1) (by omega)
    have e2 : ph + L.phsize * (i + 1) = ph + L.phsize + L.phsize * i := by ring
    rw [e2] at h1
    exact h1

/-- The `readseg` calls of the segment loop: one per descriptor, in table order. -/
theorem segLoop_calls (L : Layout) (Q G : Nat) (n : Nat) :
    ∀ (ph : Nat) (ms : Nat → Machine),
    (∀ i, i < n → readseg Q G (segArgs L (ms i).mem (ph + L.phsize * i)).1
        (segArgs L (ms i).mem (ph + L.phsize * i)).2.1
        (segArgs L (ms i).mem (ph + L.phsize * i)).2.2 (ms i) = Except.ok (ms (i + 1))) →
    ∃ evs, (ms n).trace = (ms 0).trace ++ evs ∧
      segCalls evs = (List.range n).map (fun i => segArgs L (ms i).mem (ph + L.phsize * i)) ∧
      entryCalls evs = [] ∧ failWrites evs = [] := by
  induction n with
  | zero => intro ph ms _; exact ⟨[], by simp, rfl, rfl, rfl⟩
  | succ n ih =>
    intro ph ms hs
    obtain ⟨evs, t, c, e, f⟩ := ih ph ms (fun i hi => hs i (by omega))
    obtain ⟨evs1, -, t1, d1, -, -⟩ := readseg_reached Q G
      (segArgs L (ms n).mem (ph + L.phsize * n)).1
      (segArgs L (ms n).mem (ph + L.phsize * n)).2.1
      (segArgs L (ms n).mem (ph + L.phsize * n)).2.2 (ms n)
    rw [hs n (by omega)] at t1
    simp only [reached] at t1
    refine ⟨evs ++ Event.readseg (segArgs L (ms n).mem (ph + L.phsize * n)).1
      (segArgs L (ms n).mem (ph + L.phsize * n)).2.1
      (segArgs L (ms n).mem (ph + L.phsize * n)).2.2 :: evs1, ?_, ?_, ?_, ?_⟩
    · rw [t1, t, List.append_assoc]
    · rw [segCalls_append, c, List.range_succ, List.map_append]
      congr 1
      show _ :: segCalls evs1 = _
      rw [segCalls_driver _ d1]
      rfl
    · rw [entryCalls_append, e]
      show entryCalls evs1 = []
      exact entryCalls_driver _ d1
    · rw [failWrites_append, f]
      show failWrites evs1 = []
      exact failWrites_driver _ d1

/-- The bytes `readseg` stores on a ready disk when the destination pointer does not wrap. -/
theorem readseg_written (P : Nat) (F dst count offset : Nat) (m : Machine) (hr : Ready m.disk)
    (ho : offset < WORD) (h1 : offset % 512 ≤ dst) (h2 : dst + count + 512 ≤ WORD)
    (hF : count / 512 + 3 ≤ F) :
    ∃ m1 evs, readseg (P + 1) F dst count offset m = Except.ok m1 ∧
      m1.trace = m.trace ++ evs ∧
      ∀ a, written evs a = true ↔
        dst - offset % 512 ≤ a ∧
          a < dst - offset % 512 + 512 * ((count + offset % 512 + 511) / 512) := by
  unfold WORD at ho h2
  obtain ⟨evs, e1, -, e2, -⟩ := sectSteps_trace ((count + offset % 512 + 511) / 512)
    (dst - offset % 512) (offset / 512 + 1) (m.log (Event.readseg dst count offset))
    (by unfold WORD; omega)
  refine ⟨_, Event.readseg dst count offset :: evs,
    readseg_ready P F dst count offset m hr ho h1 h2 hF, ?_, ?_⟩
  · rw [e1]; simp [Machine.log]
  · intro a
    rw [← e2 a]
    rfl

theorem machine0_magic :
    load32 (headerLoad machine0).mem (ELFHDR + elf32.e_magic) ≠ elf32.ELF_MAGIC := by
  rw [load32_header machine0 (ready_diskOf _ _) _ (by decide)]
  decide

theorem emptyKernel_magic :
    load32 (headerLoad emptyKernelMachine).mem (ELFHDR + elf32.e_magic) = elf32.ELF_MAGIC := by
  rw [load32_header emptyKernelMachine (ready_diskOf _ _) _ (by decide)]
  decide

theorem emptyKernel_phnum :
    load16 (headerLoad emptyKernelMachine).mem (ELFHDR + elf32.e_phnum) = 0 := by
  rw [load16_header emptyKernelMachine (ready_diskOf _ _) _ (by decide)]
  decide

theorem emptyKernel_entry :
    load32 (headerLoad emptyKernelMachine).mem (ELFHDR + elf32.e_entry) &&& 0xFFFFFF
      = 0x100000 := by
  rw [load32_header emptyKernelMachine (ready_diskOf _ _) _ (by decide)]
  decide

/-- Where a run of `bootmain` stands before the entry call or the failure writes: it ran out
of fuel, or it is at the label `bad`, or it is about to call the entry function. Up to there
the trace holds no entry call and no write to the failure port. -/
theorem bootmain_reached (P : Nat) (L : Layout) (entry : Nat → Machine → Option Machine) (F : Nat)
    (m : Machine) :
    ∃ mp evs bs, mp.trace = m.trace ++ evs ∧ entryCalls evs = [] ∧ failWrites evs = [] ∧
      mp.disk.served = m.disk.served ++ bs ∧ (F ≤ 260046848 → ∀ b ∈ bs, 1 ≤ b) ∧
      (bootmain L entry P F m = Except.error mp ∨ bootmain L entry P F m = Except.ok (bad mp) ∨
        ∃ t, bootmain L entry P F m = Except.ok (enter entry t mp)) := by
  obtain ⟨evs1, bs1, t1, d1, s1, b1⟩ := readseg_reached P F ELFHDR (SECTSIZE * 8) 0 m
  have e1 : entryCalls (Event.readseg ELFHDR (SECTSIZE * 8) 0 :: evs1) = [] := by
    show entryCalls evs1 = []
    exact entryCalls_driver _ d1
  have f1 : failWrites (Event.readseg ELFHDR (SECTSIZE * 8) 0 :: evs1) = [] := by
    show failWrites evs1 = []
    exact failWrites_driver _ d1
  have hb1 : F ≤ 260046848 → ∀ b ∈ bs1, 1 ≤ b := b1 (by decide)
  cases h : readseg P F ELFHDR (SECTSIZE * 8) 0 m with
  | error e =>
    rw [h] at t1 s1
    exact ⟨e, _, bs1, t1, e1, f1, s1, hb1, Or.inl (bootmain_header_error P L entry F m e h)⟩
  | ok m1 =>
    rw [h] at t1 s1
    simp only [reached] at t1 s1
    by_cases hm : load32 m1.mem (ELFHDR + L.e_magic) = L.ELF_MAGIC
    · obtain ⟨evs2, bs2, t2, e2, f2, s2, b2⟩ := segLoop_reached P L F
        ((ELFHDR + load32 m1.mem (ELFHDR + L.e_phoff)) % WORD)
        (((ELFHDR + load32 m1.mem (ELFHDR + L.e_phoff)) % WORD
          + L.phsize * load16 m1.mem (ELFHDR + L.e_phnum)) % WORD) m1
      have hb : F ≤ 260046848 → ∀ b ∈ bs1 ++ bs2, 1 ≤ b := by
        intro hF b hb
        rcases List.mem_append.1 hb with hb | hb
        · exact hb1 hF b hb
        · exact b2 hF b hb
      have e12 : entryCalls (Event.readseg ELFHDR (SECTSIZE * 8) 0 :: evs1 ++ evs2) = [] := by
        rw [entryCalls_append, e1, e2]; rfl
      have f12 : failWrites (Event.readseg ELFHDR (SECTSIZE * 8) 0 :: evs1 ++ evs2) = [] := by
        rw [failWrites_append, f1, f2]; rfl
      cases hs : segLoop L P F ((ELFHDR + load32 m1.mem (ELFHDR + L.e_phoff)) % WORD)
        (((ELFHDR + load32 m1.mem (ELFHDR + L.e_phoff)) % WORD
          + L.phsize * load16 m1.mem (ELFHDR + L.e_phnum)) % WORD) m1 with
      | error e =>
        rw [hs] at t2 s2
        simp only [reached] at t2 s2
        exact ⟨e, _, bs1 ++ bs2, by rw [t2, t1, List.append_assoc], e12, f12,
          by rw [s2, s1, List.append_assoc], hb,
          Or.inl (bootmain_segment_error P L entry F m m1 e h hm hs)⟩
      | ok m2 =>
        rw [hs] at t2 s2
        simp only [reached] at t2 s2
        exact ⟨m2, _, bs1 ++ bs2, by rw [t2, t1, List.append_assoc], e12, f12,
          by rw [s2, s1, List.append_assoc], hb,
          Or.inr (Or.inr ⟨_, bootmain_jump P L entry F m m1 m2 h hm hs⟩)⟩
    · exact ⟨m1, _, bs1, t1, e1, f1, s1, hb1, Or.inr (Or.inl (bootmain_at_bad P L entry F m m1 h hm))⟩

/-- A loop of `readseg` that starts on a sector boundary with `end_va = 0xFFFFFFFF` never
ends: `va` stays a multiple of 512 and so stays below `end_va`, also when it wraps around. -/
theorem readsegLoop_diverges (P : Nat) (F : Nat) : ∀ (va secno : Nat) (m : Machine),
    va % 512 = 0 → va < WORD →
    ∃ e, readsegLoop P F va 0xFFFFFFFF secno m = Except.error e := by
  induction F with
  | zero => intro va secno m _ _; exact ⟨m, rfl⟩
  | succ F ih =>
    intro va secno m h1 h2
    unfold WORD at h2
    rw [readsegLoop, if_pos (by omega)]
    cases hs : readsect P va secno m with
    | error e => exact ⟨e, rfl⟩
    | ok a =>
      simp only [bind, Except.bind]
      exact ih _ _ _ (by unfold SECTSIZE WORD; omega) (Nat.mod_lt _ (by decide))

theorem load32_congr (mem1 mem2 : Nat → Nat) (a : Nat)
    (h : ∀ k, k < 4 → mem1 ((a + k) % WORD) = mem2 ((a + k) % WORD)) :
    load32 mem1 a = load32 mem2 a := by
  unfold load32 load8
  rw [h 1 (by decide), h 2 (by decide), h 3 (by decide)]
  have h0 := h 0 (by decide)
  rw [Nat.add_zero] at h0
  rw [h0]

theorem log_mem (m : Machine) (e : Event) : (m.log e).mem = m.mem := rfl

theorem log_disk (m : Machine) (e : Event) : (m.log e).disk = m.disk := rfl

theorem log_trace (m : Machine) (e : Event) : (m.log e).trace = m.trace ++ [e] := rfl

theorem kernel_magic :
    load32 (headerLoad kernelMachine).mem (ELFHDR + elf32.e_magic) = elf32.ELF_MAGIC := by
  rw [load32_header kernelMachine (ready_diskOf _ _) _ (by decide)]
  decide

theorem kernel_phoff :
    load32 (headerLoad kernelMachine).mem (ELFHDR + elf32.e_phoff) = 52 := by
  rw [load32_header kernelMachine (ready_diskOf _ _) _ (by decide)]
  decide

theorem kernel_phnum :
    load16 (headerLoad kernelMachine).mem (ELFHDR + elf32.e_phnum) = 1 := by
  rw [load16_header kernelMachine (ready_diskOf _ _) _ (by decide)]
  decide

/-- The arguments of a segment load, read from a descriptor in the loaded header region. -/
theorem segArgs_header (m : Machine) (hr : Ready m.disk) (off : Nat) (h : off + 32 ≤ 4096) :
    segArgs elf32 (headerLoad m).mem (ELFHDR + off) =
      ((image m.disk (off + 8) + 256 * image m.disk (off + 8 + 1)
          + 65536 * image m.disk (off + 8 + 2) + 16777216 * image m.disk (off + 8 + 3))
          &&& 0xFFFFFF,
       image m.disk (off + 20) + 256 * image m.disk (off + 20 + 1)
          + 65536 * image m.disk (off + 20 + 2) + 16777216 * image m.disk (off + 20 + 3),
       image m.disk (off + 4) + 256 * image m.disk (off + 4 + 1)
          + 65536 * image m.disk (off + 4 + 2) + 16777216 * image m.disk (off + 4 + 3)) := by
  unfold segArgs
  simp only [elf32]
  rw [Nat.add_assoc ELFHDR off 8, Nat.add_assoc ELFHDR off 20, Nat.add_assoc ELFHDR off 4,
    load32_header m hr _ (by omega), load32_header m hr _ (by omega),
    load32_header m hr _ (by omega)]

theorem kernel_segArgs :
    segArgs elf32 (headerLoad kernelMachine).mem (ELFHDR + 52) = (0x100000, 512, 512) := by
  rw [segArgs_header kernelMachine (ready_diskOf _ _) 52 (by decide)]
  decide

/-- The machine after the segment load of the end-to-end scenario. -/
theorem kernel_segment :
    readseg 1 4 0x100000 512 512 (headerLoad kernelMachine) =
      Except.ok (sectSteps 1 0x100000 2
        ((headerLoad kernelMachine).log (Event.readseg 0x100000 512 512))) :=
  readseg_ready 0 4 0x100000 512 512 _ (headerLoad_ready _ (ready_diskOf _ _)) (by decide)
    (by decide) (by decide) (by decide)

/-- A segment loaded outside the scratch region leaves the header fields as they were. -/
theorem load32_after_segment (m : Machine) (n va secno va0 count offset off : Nat)
    (h1 : va + 512 * n ≤ WORD) (h2 : secno + n ≤ 268435456) (h3 : off + 4 ≤ 4096)
    (h4 : ELFHDR + 4096 ≤ va) :
    load32 (sectSteps n va secno (m.log (Event.readseg va0 count offset))).mem (ELFHDR + off)
      = load32 m.mem (ELFHDR + off) := by
  apply load32_congr
  intro k hk
  have e : (ELFHDR + off + k) % WORD = ELFHDR + off + k := by
    unfold ELFHDR WORD; omega
  rw [sectSteps_mem _ _ _ _ _ h1 h2, e, if_neg (by omega), log_mem]

theorem kernel_entry :
    load32 (sectSteps 1 0x100000 2
      ((headerLoad kernelMachine).log (Event.readseg 0x100000 512 512))).mem
        (ELFHDR + elf32.e_entry) &&& 0xFFFFFF = 0x100000 := by
  rw [load32_after_segment _ _ _ _ _ _ _ _ (by decide) (by decide) (by decide) (by decide),
    load32_header kernelMachine (ready_diskOf _ _) _ (by decide)]
  decide

theorem kernelStates_step : ∀ i, i < 1 →
    readseg 1 4 (segArgs elf32 (kernelStates i).mem (ELFHDR + 52 + elf32.phsize * i)).1
      (segArgs elf32 (kernelStates i).mem (ELFHDR + 52 + elf32.phsize * i)).2.1
      (segArgs elf32 (kernelStates i).mem (ELFHDR + 52 + elf32.phsize * i)).2.2
      (kernelStates i) = Except.ok (kernelStates (i + 1)) := by
  intro i hi
  obtain rfl : i = 0 := by omega
  have e0 : kernelStates 0 = headerLoad kernelMachine := if_pos rfl
  have e1 : kernelStates (0 + 1) = sectSteps 1 0x100000 2
      ((headerLoad kernelMachine).log (Event.readseg 0x100000 512 512)) := if_neg (by decide)
  rw [e0, e1, Nat.mul_zero, Nat.add_zero, kernel_segArgs]
  exact kernel_segment

/-- The descriptor of the kernel with the huge segment, as loaded. -/
theorem hugeKernel_facts :
    load32 (headerLoad hugeKernelMachine).mem (ELFHDR + elf32.e_magic) = elf32.ELF_MAGIC ∧
      load32 (headerLoad hugeKernelMachine).mem (ELFHDR + elf32.e_phoff) = 52 ∧
      load16 (headerLoad hugeKernelMachine).mem (ELFHDR + elf32.e_phnum) = 1 ∧
      segArgs elf32 (headerLoad hugeKernelMachine).mem (ELFHDR + 52) = (0, 0xFFFFFFFF, 0) := by
  refine ⟨?_, ?_, ?_, ?_⟩
  · rw [load32_header hugeKernelMachine (ready_diskOf _ _) _ (by decide)]
    decide
  · rw [load32_header hugeKernelMachine (ready_diskOf _ _) _ (by decide)]
    decide
  · rw [load16_header hugeKernelMachine (ready_diskOf _ _) _ (by decide)]
    decide
  · rw [segArgs_header hugeKernelMachine (ready_diskOf _ _) 52 (by decide)]
    decide

/-- The call `readseg(0, 0xFFFFFFFF, 0)` never returns. -/
theorem readseg_huge_diverges (P : Nat) (F : Nat) (m : Machine) :
    ∃ e, readseg P F 0 0xFFFFFFFF 0 m = Except.error e := by
  unfold readseg
  have e1 : (0 + WORD - 0 % SECTSIZE) % WORD = 0 := by decide
  have e2 : (0 + 0xFFFFFFFF) % WORD = 0xFFFFFFFF := by decide
  rw [e1, e2]
  exact readsegLoop_diverges P F 0 _ _ (by decide) (by decide)

/-- With the huge segment `bootmain` runs out of any amount of fuel. -/
theorem hugeKernel_diverges (P : Nat) (entry : Nat → Machine → Option Machine) (F : Nat) :
    ∃ e, bootmain elf32 entry P F hugeKernelMachine = Except.error e := by
  obtain ⟨hm, hp, hn, ha⟩ := hugeKernel_facts
  cases h : readseg P F ELFHDR (SECTSIZE * 8) 0 hugeKernelMachine with
  | error e => exact ⟨e, bootmain_header_error P _ _ _ _ _ h⟩
  | ok m1 =>
    have h1 := readseg_mono P (P + 1) F (F + 11) _ _ _ _ _ (by omega) (by omega) h
    rw [header_returns P (F + 11) hugeKernelMachine (ready_diskOf _ _) (by omega)] at h1
    obtain rfl : headerLoad hugeKernelMachine = m1 := by injection h1
    have hs : ∃ e, segLoop elf32 P F
        ((ELFHDR + load32 (headerLoad hugeKernelMachine).mem (ELFHDR + elf32.e_phoff)) % WORD)
        (((ELFHDR + load32 (headerLoad hugeKernelMachine).mem (ELFHDR + elf32.e_phoff)) % WORD
          + elf32.phsize * load16 (headerLoad hugeKernelMachine).mem (ELFHDR + elf32.e_phnum))
            % WORD) (headerLoad hugeKernelMachine) = Except.error e := by
      rw [hp, hn]
      cases F with
      | zero => exact ⟨_, rfl⟩
      | succ F =>
        have e1 : (ELFHDR + 52) % WORD = ELFHDR + 52 := by decide
        have e2 : (ELFHDR + 52 + elf32.phsize * 1) % WORD = ELFHDR + 52 + 32 := by decide
        rw [e1, e2, segLoop, if_pos (by decide), ha]
        obtain ⟨e, he⟩ := readseg_huge_diverges P F (headerLoad hugeKernelMachine)
        simp only
        rw [he]
        exact ⟨e, rfl⟩
    obtain ⟨e, he⟩ := hs
    exact ⟨e, bootmain_segment_error P _ _ _ _ _ _ h hm he⟩

/-- With `e_phnum = 0` the segment loop of `bootmain` does nothing. -/
theorem bootmain_phnum_zero (P : Nat) (L : Layout) (entry : Nat → Machine → Option Machine) (F : Nat)
    (m : Machine) (hr : Ready m.disk) (hF : 11 ≤ F)
    (hm : load32 (headerLoad m).mem (ELFHDR + L.e_magic) = L.ELF_MAGIC)
    (hn : load16 (headerLoad m).mem (ELFHDR + L.e_phnum) = 0) :
    bootmain L entry (P + 1) F m =
      Except.ok (enter entry (load32 (headerLoad m).mem (ELFHDR + L.e_entry) &&& 0xFFFFFF)
        (headerLoad m)) := by
  refine bootmain_jump (P + 1) L entry F m _ _ (header_returns P F m hr hF) hm ?_
  obtain ⟨F, rfl⟩ : ∃ K, F = K + 1 := ⟨F - 1, by omega⟩
  rw [hn]
  simp only [Nat.mul_zero, Nat.add_zero, Nat.mod_mod]
  rw [segLoop, if_neg (lt_irrefl _)]

/-- On a ready disk a never-ending loop of `readseg` gets to every sector number. -/
theorem readsegLoop_serves (P : Nat) (n : Nat) : ∀ (F va secno : Nat) (m : Machine), Ready m.disk →
    va % 512 = 0 → va < WORD → secno < WORD → n + 2 ≤ F →
    ∃ e, readsegLoop (P + 1) F va 0xFFFFFFFF secno m = Except.error e ∧
      (secno + n) % WORD % 268435456 ∈ e.disk.served := by
  induction n with
  | zero =>
    intro F va secno m hr h1 h2 h3 hF
    obtain ⟨F, rfl⟩ : ∃ K, F = K + 1 := ⟨F - 1, by omega⟩
    obtain ⟨F, rfl⟩ : ∃ K, F = K + 1 := ⟨F - 1, by omega⟩
    unfold WORD at h2 h3
    rw [readsegLoop, if_pos (by omega), readsect_ready _ _ _ _ hr]
    simp only [bind, Except.bind]
    obtain ⟨e, he⟩ := readsegLoop_diverges (P + 1) (F + 1) ((va + SECTSIZE) % WORD)
      ((secno + 1) % WORD)
      (sectStep va secno m) (by unfold SECTSIZE WORD; omega) (Nat.mod_lt _ (by decide))
    obtain ⟨-, bs, -, -, s, -⟩ := readsegLoop_reached (P + 1) (F + 1) ((va + SECTSIZE) % WORD)
      0xFFFFFFFF
      ((secno + 1) % WORD) (sectStep va secno m)
    rw [he] at s
    simp only [reached] at s
    refine ⟨e, he, ?_⟩
    rw [s, sectStep_disk]
    have e0 : (secno + 0) % WORD % 268435456 = secno % 268435456 := by unfold WORD; omega
    rw [e0]
    simp
  | succ n ih =>
    intro F va secno m hr h1 h2 h3 hF
    obtain ⟨F, rfl⟩ : ∃ K, F = K + 1 := ⟨F - 1, by omega⟩
    obtain ⟨F, rfl⟩ : ∃ K, F = K + 1 := ⟨F - 1, by omega⟩
    unfold WORD at h2 h3
    rw [readsegLoop, if_pos (by omega), readsect_ready _ _ _ _ hr]
    simp only [bind, Except.bind]
    obtain ⟨e, he, hs⟩ := ih (F + 1) ((va + SECTSIZE) % WORD) ((secno + 1) % WORD)
      (sectStep va secno m) (sectStep_ready _ _ _ hr) (by unfold SECTSIZE WORD; omega)
      (Nat.mod_lt _ (by decide)) (Nat.mod_lt _ (by decide)) (by omega)
    refine ⟨e, he, ?_⟩
    have e0 : (secno + (n + 1)) % WORD % 268435456 = ((secno + 1) % WORD + n) % WORD % 268435456 := by
      unfold WORD; omega
    rw [e0]
    exact hs

/-- The kernel with the huge segment makes `bootmain` read block 0. -/
theorem hugeKernel_block0 :
    ∃ e, bootmain elf32 neverReturns 1 268435458 hugeKernelMachine = Except.error e ∧
      0 ∈ e.disk.served := by
  obtain ⟨hm, hp, hn, ha⟩ := hugeKernel_facts
  have h1 := header_returns 0 268435458 hugeKernelMachine (ready_diskOf _ _) (by decide)
  have e1 : (0 + WORD - 0 % SECTSIZE) % WORD = 0 := by decide
  have e2 : (0 + 0xFFFFFFFF) % WORD = 0xFFFFFFFF := by decide
  have e3 : (0 / SECTSIZE + 1) % WORD = 1 := by decide
  have hrd : Ready ((headerLoad hugeKernelMachine).log (Event.readseg 0 0xFFFFFFFF 0)).disk := by
    rw [log_disk]
    exact headerLoad_ready _ (ready_diskOf _ _)
  obtain ⟨e, he, hs⟩ := readsegLoop_serves 0 268435455 268435457 0 1
    ((headerLoad hugeKernelMachine).log (Event.readseg 0 0xFFFFFFFF 0))
    hrd (by decide) (by decide) (by decide) (by decide)
  have hr : readseg 1 268435457 0 0xFFFFFFFF 0 (headerLoad hugeKernelMachine)
      = Except.error e := by
    unfold readseg
    rw [e1, e2, e3]
    exact he
  refine ⟨e, bootmain_segment_error (0 + 1) _ _ _ _ _ _ h1 hm ?_, hs⟩
  rw [hp, hn]
  have e4 : (ELFHDR + 52) % WORD = ELFHDR + 52 := by decide
  have e5 : (ELFHDR + 52 + elf32.phsize * 1) % WORD = ELFHDR + 52 + 32 := by decide
  rw [e4, e5, segLoop, if_pos (by decide), ha]
  simp only
  rw [hr]
  rfl

theorem polled_zero (m : Machine) : polled m 0 = m := by
  simp [polled, pollEvents]

theorem pollEvents_succ (d : Disk) (n : Nat) :
    pollEvents d (n + 1) =
      Event.inb 0x1F7 (d.status d.polls % 256) :: pollEvents { d with polls := d.polls + 1 } n := by
  simp only [pollEvents, List.range_succ_eq_map, List.map_cons, List.map_map, Nat.add_zero]
  congr 1
  apply List.map_congr_left
  intro i _
  simp only [Function.comp]
  rw [show d.polls + Nat.succ i = d.polls + 1 + i by omega]

theorem polled_succ (m : Machine) (n : Nat) :
    polled (inb 0x1F7 m).2 n = polled m (n + 1) := by
  simp only [polled, pollEvents_succ, inb, Disk.inb, if_true, List.append_assoc,
    List.singleton_append]
  congr 2
  omega

theorem readyAt_succ (m : Machine) (i : Nat) :
    readyAt (inb 0x1F7 m).2.disk i = readyAt m.disk (i + 1) := by
  simp only [readyAt, inb, Disk.inb, if_true]
  rw [show m.disk.polls + 1 + i = m.disk.polls + (i + 1) by omega]

theorem waitdisk_step (P : Nat) (m : Machine) :
    waitdisk (P + 1) m =
      if readyAt m.disk 0 = true then Except.ok (inb 0x1F7 m).2
      else waitdisk P (inb 0x1F7 m).2 := by
  rw [waitdisk]
  have e : (inb 0x1F7 m).1 = m.disk.status (m.disk.polls + 0) % 256 := by
    simp [inb, Disk.inb]
  by_cases h : readyAt m.disk 0 = true
  · rw [if_pos h, if_neg]
    rw [e]
    exact not_not.2 (of_decide_eq_true h)
  · rw [if_neg h, if_pos]
    rw [e]
    exact fun c => h (decide_eq_true c)

/-- A call of `waitdisk` that is cut off after `P` status reads, none of which was ready. -/
theorem waitdisk_error_of (P : Nat) : ∀ (m : Machine), (∀ i, i < P → readyAt m.disk i = false) →
    waitdisk P m = Except.error (polled m P) := by
  induction P with
  | zero => intro m _; rw [polled_zero]; rfl
  | succ P ih =>
    intro m h
    rw [waitdisk_step, if_neg (by rw [h 0 (by omega)]; decide), ih, polled_succ]
    intro i hi
    rw [readyAt_succ]
    exact h (i + 1) (by omega)

/-- A call of `waitdisk` returns at the first ready status, after `k + 1` status reads. -/
theorem waitdisk_ok_of (k : Nat) : ∀ (P : Nat) (m : Machine),
    (∀ i, i < k → readyAt m.disk i = false) → readyAt m.disk k = true → k + 1 ≤ P →
    waitdisk P m = Except.ok (polled m (k + 1)) := by
  induction k with
  | zero =>
    intro P m _ h0 hP
    obtain ⟨P, rfl⟩ : ∃ K, P = K + 1 := ⟨P - 1, by omega⟩
    rw [waitdisk_step, if_pos h0, ← polled_succ, polled_zero]
  | succ k ih =>
    intro P m h hk hP
    obtain ⟨P, rfl⟩ : ∃ K, P = K + 1 := ⟨P - 1, by omega⟩
    rw [waitdisk_step, if_neg (by rw [h 0 (by omega)]; decide),
      ih P _ ?_ ((readyAt_succ m k).trans hk) (by omega), polled_succ]
    intro i hi
    rw [readyAt_succ]
    exact h (i + 1) (by omega)

/-- Every call of `waitdisk` either returns at the first ready status or is cut off. -/
theorem waitdisk_cases (P : Nat) (m : Machine) :
    (∃ k, k < P ∧ (∀ i, i < k → readyAt m.disk i = false) ∧ readyAt m.disk k = true ∧
      waitdisk P m = Except.ok (polled m (k + 1))) ∨
    ((∀ i, i < P → readyAt m.disk i = false) ∧ waitdisk P m = Except.error (polled m P)) := by
  by_cases h : ∃ k, k < P ∧ readyAt m.disk k = true
  · left
    have hmin : ∀ i, i < Nat.find h → readyAt m.disk i = false := by
      intro i hi
      cases hr : readyAt m.disk i with
      | false => rfl
      | true => exact absurd ⟨lt_trans hi (Nat.find_spec h).1, hr⟩ (Nat.find_min h hi)
    exact ⟨Nat.find h, (Nat.find_spec h).1, hmin, (Nat.find_spec h).2,
      waitdisk_ok_of _ P m hmin (Nat.find_spec h).2 (Nat.find_spec h).1⟩
  · right
    have hall : ∀ i, i < P → readyAt m.disk i = false := by
      intro i hi
      cases hr : readyAt m.disk i with
      | false => rfl
      | true => exact absurd ⟨i, hi, hr⟩ h
    exact ⟨hall, waitdisk_error_of P m hall⟩

theorem command_trace (secno : Nat) (m : Machine) :
    (command secno m).trace = m.trace ++ cmdEvents secno := (command_effect secno m).1

theorem command_mem (secno : Nat) (m : Machine) : (command secno m).mem = m.mem := rfl

theorem command_disk (secno : Nat) (m : Machine) :
    (command secno m).disk =
      { m.disk with
        nsect := 1, lba0 := (secno &&& 0xFF) % 256,
        lba1 := ((secno >>> 8) &&& 0xFF) % 256, lba2 := ((secno >>> 16) &&& 0xFF) % 256,
        drive := (((secno >>> 24) &&& 0xF) ||| 0xE0) % 256,
        cur := secno % 268435456, pos := 0,
        served := m.disk.served ++ [secno % 268435456] } := by
  simp [command, outb, Disk.outb, lba_decode]

theorem readyAt_command (secno : Nat) (m : Machine) (n i : Nat) :
    readyAt (command secno (polled m n)).disk i = readyAt m.disk (n + i) := by
  rw [command_disk]
  simp only [readyAt, polled, Nat.add_assoc]

theorem pollEvents_command (secno : Nat) (m : Machine) (n k : Nat) :
    pollEvents (command secno (polled m n)).disk k = pollEvents (m.disk.after n) k := by
  rw [command_disk]
  rfl

/-- The three ways a call of `readsect` can go: cut off in the first wait, cut off in the
second wait, or returning after the data transfer. -/
theorem readsect_first_wait (P dst secno : Nat) (m : Machine)
    (h : ∀ i, i < P → readyAt m.disk i = false) :
    readsect P dst secno m = Except.error (polled (m.log (Event.readsect dst secno)) P) := by
  unfold readsect
  rw [waitdisk_error_of P (m.log (Event.readsect dst secno)) h]
  rfl

theorem readsect_second_wait (P dst secno k1 : Nat) (m : Machine)
    (h1 : ∀ i, i < k1 → readyAt m.disk i = false) (h2 : readyAt m.disk k1 = true)
    (hk : k1 < P) (h3 : ∀ i, i < P → readyAt m.disk (k1 + 1 + i) = false) :
    readsect P dst secno m =
      Except.error (polled (command secno
        (polled (m.log (Event.readsect dst secno)) (k1 + 1))) P) := by
  unfold readsect
  rw [waitdisk_ok_of k1 P (m.log (Event.readsect dst secno)) h1 h2 hk]
  simp only [bind, Except.bind]
  have e := waitdisk_error_of P
    (command secno (polled (m.log (Event.readsect dst secno)) (k1 + 1)))
    (fun i hi => by rw [readyAt_command]; exact h3 i hi)
  unfold command at e
  rw [e]
  rfl

theorem readsect_returns (P dst secno k1 k2 : Nat) (m : Machine)
    (h1 : ∀ i, i < k1 → readyAt m.disk i = false) (h2 : readyAt m.disk k1 = true)
    (hk1 : k1 < P) (h3 : ∀ i, i < k2 → readyAt m.disk (k1 + 1 + i) = false)
    (h4 : readyAt m.disk (k1 + 1 + k2) = true) (hk2 : k2 < P) :
    readsect P dst secno m =
      Except.ok (insl 0x1F0 dst (SECTSIZE / 4) (polled (command secno
        (polled (m.log (Event.readsect dst secno)) (k1 + 1))) (k2 + 1))) := by
  unfold readsect
  rw [waitdisk_ok_of k1 P (m.log (Event.readsect dst secno)) h1 h2 hk1]
  simp only [bind, Except.bind]
  have e := waitdisk_ok_of k2 P
    (command secno (polled (m.log (Event.readsect dst secno)) (k1 + 1)))
    (fun i hi => by rw [readyAt_command]; exact h3 i hi)
    (by rw [readyAt_command]; exact h4) hk2
  unfold command at e
  rw [e]
  rfl

theorem readsect_cases (P dst secno : Nat) (m : Machine) :
    ((∀ i, i < P → readyAt m.disk i = false) ∧
      readsect P dst secno m = Except.error (polled (m.log (Event.readsect dst secno)) P)) ∨
    (∃ k1, (∀ i, i < k1 → readyAt m.disk i = false) ∧ readyAt m.disk k1 = true ∧ k1 < P ∧
      (((∀ i, i < P → readyAt m.disk (k1 + 1 + i) = false) ∧
        readsect P dst secno m =
          Except.error (polled (command secno
            (polled (m.log (Event.readsect dst secno)) (k1 + 1))) P)) ∨
       (∃ k2, (∀ i, i < k2 → readyAt m.disk (k1 + 1 + i) = false) ∧
        readyAt m.disk (k1 + 1 + k2) = true ∧ k2 < P ∧
        readsect P dst secno m =
          Except.ok (insl 0x1F0 dst (SECTSIZE / 4) (polled (command secno
            (polled (m.log (Event.readsect dst secno)) (k1 + 1))) (k2 + 1)))))) := by
  rcases waitdisk_cases P (m.log (Event.readsect dst secno)) with ⟨k1, hk1, h1, h2, -⟩ | ⟨h, -⟩
  · right
    refine ⟨k1, h1, h2, hk1, ?_⟩
    rcases waitdisk_cases P (command secno (polled (m.log (Event.readsect dst secno)) (k1 + 1)))
      with ⟨k2, hk2, h3, h4, -⟩ | ⟨h3, -⟩
    · right
      have h3' : ∀ i, i < k2 → readyAt m.disk (k1 + 1 + i) = false := by
        intro i hi
        have := h3 i hi
        rwa [readyAt_command] at this
      have h4' : readyAt m.disk (k1 + 1 + k2) = true := by
        rwa [readyAt_command] at h4
      exact ⟨k2, h3', h4', hk2, readsect_returns P dst secno k1 k2 m h1 h2 hk1 h3' h4' hk2⟩
    · left
      have h3' : ∀ i, i < P → readyAt m.disk (k1 + 1 + i) = false := by
        intro i hi
        have := h3 i hi
        rwa [readyAt_command] at this
      exact ⟨h3', readsect_second_wait P dst secno k1 m h1 h2 hk1 h3'⟩
  · left
    exact ⟨h, readsect_first_wait P dst secno m h⟩

theorem polled_trace (m : Machine) (n : Nat) :
    (polled m n).trace = m.trace ++ pollEvents m.disk n := rfl

theorem polled_mem (m : Machine) (n : Nat) : (polled m n).mem = m.mem := rfl

/-- The trace of a call of `readsect` that returns. -/
theorem readsect_returns_trace (dst secno k1 k2 : Nat) (m : Machine) (hd : dst < WORD) :
    (insl 0x1F0 dst (SECTSIZE / 4) (polled (command secno
        (polled (m.log (Event.readsect dst secno)) (k1 + 1))) (k2 + 1))).trace =
      m.trace ++ Event.readsect dst secno :: (pollEvents m.disk (k1 + 1) ++ (cmdEvents secno ++
        (pollEvents (m.disk.after (k1 + 1)) (k2 + 1) ++ dataEvents m.disk dst secno))) := by
  have e : (List.range (SECTSIZE / 4)).map (fun k => Event.insl 0x1F0 ((dst + 4 * k) % WORD)
      ((polled (command secno (polled (m.log (Event.readsect dst secno)) (k1 + 1)))
        (k2 + 1)).disk.word k)) = dataEvents m.disk dst secno := by
    unfold dataEvents
    apply List.map_congr_left
    intro k _
    simp only [Disk.word, polled, command_disk, Disk.byte, log_disk, Nat.zero_add]
  rw [insl_trace _ _ _ hd, e, polled_trace, command_trace, polled_trace, pollEvents_command,
    log_trace]
  simp only [List.append_assoc, List.singleton_append, List.cons_append, List.nil_append, log_disk]

theorem pollEvents_readOnly (d : Disk) (n : Nat) : ∀ e ∈ pollEvents d n, e.readOnly = true := by
  intro e he
  obtain ⟨i, -, rfl⟩ := List.mem_map.1 he
  rfl

theorem cmdEvents_readOnly (secno : Nat) : ∀ e ∈ cmdEvents secno, e.readOnly = true := by
  intro e he
  simp only [cmdEvents, List.mem_cons, List.mem_singleton, List.not_mem_nil, or_false] at he
  rcases he with h | h | h | h | h | h <;> subst h <;> simp [Event.readOnly]

theorem dataEvents_readOnly (d : Disk) (dst secno : Nat) :
    ∀ e ∈ dataEvents d dst secno, e.readOnly = true := by
  intro e he
  obtain ⟨i, -, rfl⟩ := List.mem_map.1 he
  rfl

theorem pollEvents_written (d : Disk) (n a : Nat) : written (pollEvents d n) a = false := by
  unfold written pollEvents
  rw [List.any_eq_false]
  intro e he
  obtain ⟨i, -, rfl⟩ := List.mem_map.1 he
  simp [Event.writes]

theorem cmdEvents_written (secno a : Nat) : written (cmdEvents secno) a = false := rfl

theorem dataEvents_written (d : Disk) (dst secno a : Nat) :
    written (dataEvents d dst secno) a = true ↔
      a < WORD ∧ (a + WORD - dst % WORD) % WORD < 512 := by
  unfold dataEvents
  rw [written_insl]
  simp only [List.mem_range, SECTSIZE]
  unfold WORD
  constructor
  · rintro ⟨k, hk, h1, h2⟩
    norm_num at hk
    omega
  · rintro ⟨h1, h2⟩
    refine ⟨(a + 4294967296 - dst % 4294967296) % 4294967296 / 4, ?_, h1, ?_⟩
    · norm_num; omega
    · omega

theorem written_cons_readsect (dst secno : Nat) (l : List Event) (a : Nat) :
    written (Event.readsect dst secno :: l) a = written l a := rfl

theorem written_cons_readseg (va count offset : Nat) (l : List Event) (a : Nat) :
    written (Event.readseg va count offset :: l) a = written l a := rfl

/-- What a run of `readsect`, complete or cut off, adds to the trace, and what it leaves
alone: every event is read-only, and a byte changes only if the trace says it was stored. -/
theorem readsect_effects (P dst secno : Nat) (m : Machine) (hd : dst < WORD) :
    ∃ evs, (reached (readsect P dst secno m)).trace = m.trace ++ evs ∧
      (∀ e ∈ evs, e.readOnly = true) ∧
      (∀ a, written evs a = false → (reached (readsect P dst secno m)).mem a = m.mem a) := by
  rcases readsect_cases P dst secno m with ⟨-, h⟩ | ⟨k1, -, -, -, ⟨-, h⟩ | ⟨k2, -, -, -, h⟩⟩
  · rw [h]
    refine ⟨Event.readsect dst secno :: pollEvents m.disk P, ?_, ?_, fun _ _ => rfl⟩
    · simp only [reached, polled_trace, log_trace, log_disk, List.append_assoc,
        List.singleton_append]
    · intro e he
      rcases List.mem_cons.1 he with rfl | he
      · rfl
      · exact pollEvents_readOnly _ _ e he
  · rw [h]
    refine ⟨Event.readsect dst secno :: (pollEvents m.disk (k1 + 1) ++ (cmdEvents secno ++
      pollEvents (m.disk.after (k1 + 1)) P)), ?_, ?_, fun _ _ => rfl⟩
    · simp only [reached, polled_trace, command_trace, pollEvents_command, log_trace, log_disk,
        List.append_assoc, List.singleton_append, List.cons_append, List.nil_append]
    · intro e he
      rcases List.mem_cons.1 he with rfl | he
      · rfl
      · rcases List.mem_append.1 he with he | he
        · exact pollEvents_readOnly _ _ e he
        · rcases List.mem_append.1 he with he | he
          · exact cmdEvents_readOnly _ e he
          · exact pollEvents_readOnly _ _ e he
  · rw [h]
    refine ⟨_, readsect_returns_trace dst secno k1 k2 m hd, ?_, ?_⟩
    · intro e he
      rcases List.mem_cons.1 he with rfl | he
      · rfl
      · rcases List.mem_append.1 he with he | he
        · exact pollEvents_readOnly _ _ e he
        · rcases List.mem_append.1 he with he | he
          · exact cmdEvents_readOnly _ e he
          · rcases List.mem_append.1 he with he | he
            · exact pollEvents_readOnly _ _ e he
            · exact dataEvents_readOnly _ _ _ e he
    · intro a ha
      rw [written_cons_readsect, written_append, written_append, written_append,
        pollEvents_written, cmdEvents_written, pollEvents_written, Bool.false_or, Bool.false_or,
        Bool.false_or] at ha
      have hn : ¬ (a < WORD ∧ (a + WORD - dst % WORD) % WORD < 512) := by
        intro c
        rw [(dataEvents_written m.disk dst secno a).2 c] at ha
        exact Bool.noConfusion ha
      simp only [reached]
      rw [insl_mem _ _ _ _ (by decide)]
      have e4 : 4 * (SECTSIZE / 4) = 512 := by decide
      rw [e4, if_neg hn]
      rfl

theorem written_append_false (l1 l2 : List Event) (a : Nat)
    (h : written (l1 ++ l2) a = false) : written l1 a = false ∧ written l2 a = false := by
  rw [written_append, Bool.or_eq_false_iff] at h
  exact h

/-- What a run of the loop of `readseg`, complete or cut off, adds to the trace, and what it
leaves alone. -/
theorem readsegLoop_effects (P F : Nat) : ∀ (va end_va secno : Nat) (m : Machine), va < WORD →
    ∃ evs, (reached (readsegLoop P F va end_va secno m)).trace = m.trace ++ evs ∧
      (∀ e ∈ evs, e.readOnly = true) ∧
      (∀ a, written evs a = false →
        (reached (readsegLoop P F va end_va secno m)).mem a = m.mem a) := by
  induction F with
  | zero =>
    intro va end_va secno m _
    exact ⟨[], by simp [readsegLoop, reached], by simp, fun _ _ => rfl⟩
  | succ F ih =>
    intro va end_va secno m hva
    rw [readsegLoop]
    split_ifs with c
    · obtain ⟨evs1, t1, r1, f1⟩ := readsect_effects P va secno m hva
      cases hs : readsect P va secno m with
      | error e =>
        rw [hs] at t1 f1
        exact ⟨evs1, t1, r1, f1⟩
      | ok m1 =>
        rw [hs] at t1 f1
        simp only [reached] at t1 f1
        simp only [bind, Except.bind]
        obtain ⟨evs2, t2, r2, f2⟩ := ih ((va + SECTSIZE) % WORD) end_va ((secno + 1) % WORD) m1
          (Nat.mod_lt _ (by decide))
        refine ⟨evs1 ++ evs2, by rw [t2, t1, List.append_assoc], ?_, ?_⟩
        · intro e he
          rcases List.mem_append.1 he with he | he
          · exact r1 e he
          · exact r2 e he
        · intro a ha
          obtain ⟨h1, h2⟩ := written_append_false _ _ _ ha
          rw [f2 a h2, f1 a h1]
    · exact ⟨[], by simp [reached], by simp, fun _ _ => rfl⟩

/-- What a run of `readseg`, complete or cut off, adds to the trace, and what it leaves
alone. -/
theorem readseg_effects (P F va count offset : Nat) (m : Machine) :
    ∃ evs, (reached (readseg P F va count offset m)).trace =
        m.trace ++ Event.readseg va count offset :: evs ∧
      (∀ e ∈ evs, e.readOnly = true) ∧
      (∀ a, written evs a = false → (reached (readseg P F va count offset m)).mem a = m.mem a) := by
  unfold readseg
  obtain ⟨evs, t, r, f⟩ := readsegLoop_effects P F ((va + WORD - offset % SECTSIZE) % WORD)
    ((va + count) % WORD) ((offset / SECTSIZE + 1) % WORD) (m.log (Event.readseg va count offset))
    (Nat.mod_lt _ (by decide))
  refine ⟨evs, ?_, r, ?_⟩
  · rw [t, log_trace, List.append_assoc]
    rfl
  · intro a ha
    rw [f a ha, log_mem]

/-- Every event of the segment loop of `bootmain` is read-only. -/
theorem segLoop_readOnly (L : Layout) (P F : Nat) : ∀ (ph eph : Nat) (m : Machine),
    ∃ evs, (reached (segLoop L P F ph eph m)).trace = m.trace ++ evs ∧
      ∀ e ∈ evs, e.readOnly = true := by
  induction F with
  | zero =>
    intro ph eph m
    exact ⟨[], by simp [segLoop, reached], by simp⟩
  | succ F ih =>
    intro ph eph m
    rw [segLoop]
    split_ifs with c
    · obtain ⟨evs1, t1, r1, -⟩ := readseg_effects P F (segArgs L m.mem ph).1
        (segArgs L m.mem ph).2.1 (segArgs L m.mem ph).2.2 m
      have r1' : ∀ e ∈ Event.readseg (segArgs L m.mem ph).1 (segArgs L m.mem ph).2.1
          (segArgs L m.mem ph).2.2 :: evs1, e.readOnly = true := by
        intro e he
        rcases List.mem_cons.1 he with rfl | he
        · rfl
        · exact r1 e he
      cases hs : readseg P F (segArgs L m.mem ph).1 (segArgs L m.mem ph).2.1
          (segArgs L m.mem ph).2.2 m with
      | error e =>
        rw [hs] at t1
        exact ⟨_, t1, r1'⟩
      | ok m1 =>
        rw [hs] at t1
        simp only [reached] at t1
        simp only [bind, Except.bind]
        obtain ⟨evs2, t2, r2⟩ := ih ((ph + L.phsize) % WORD) eph m1
        refine ⟨(Event.readseg (segArgs L m.mem ph).1 (segArgs L m.mem ph).2.1
          (segArgs L m.mem ph).2.2 :: evs1) ++ evs2, by rw [t2, t1, List.append_assoc], ?_⟩
        intro e he
        rcases List.mem_append.1 he with he | he
        · exact r1' e he
        · exact r2 e he
    · exact ⟨[], by simp [reached], by simp⟩

theorem sectCalls_append (l1 l2 : List Event) :
    sectCalls (l1 ++ l2) = sectCalls l1 ++ sectCalls l2 := by
  induction l1 with
  | nil => rfl
  | cons e l ih => cases e <;> simp [sectCalls, ih]

theorem sectCalls_insl (l : List Nat) (p : Nat) (f g : Nat → Nat) :
    sectCalls (l.map (fun k => Event.insl p (f k) (g k))) = [] := by
  induction l with
  | nil => rfl
  | cons k l ih => simp [sectCalls, ih]

theorem sectEvents_sectCalls (d : Disk) (dst secno : Nat) :
    sectCalls (sectEvents d dst secno) = [(dst, secno)] := by
  unfold sectEvents
  rw [sectCalls_append, sectCalls_insl]
  rfl

/-- The calls of `readsect` and the bytes stored in `n` iterations of the loop of `readseg`. -/
theorem sectSteps_calls (n : Nat) : ∀ (va secno : Nat) (m : Machine), va + 512 * n ≤ WORD →
    ∃ evs, (sectSteps n va secno m).trace = m.trace ++ evs ∧
      sectCalls evs = (List.range n).map (fun i => (va + 512 * i, secno + i)) ∧
      (∀ a, written evs a = true ↔ va ≤ a ∧ a < va + 512 * n) := by
  induction n with
  | zero =>
    intro va secno m _
    refine ⟨[], by simp [sectSteps], rfl, ?_⟩
    intro a
    simp [written]
  | succ n ih =>
    intro va secno m h
    unfold WORD at h
    obtain ⟨evs, h1, h2, h3⟩ := ih (va + SECTSIZE) (secno + 1) (sectStep va secno m)
      (by unfold SECTSIZE WORD; omega)
    refine ⟨sectEvents m.disk va secno ++ evs, ?_, ?_, ?_⟩
    · rw [sectSteps, h1, sectStep_trace _ _ _ (by unfold WORD; omega), List.append_assoc]
    · rw [sectCalls_append, sectEvents_sectCalls, h2, List.range_succ_eq_map, List.map_cons,
        List.map_map]
      simp only [List.singleton_append, Nat.mul_zero, Nat.add_zero, List.cons.injEq, true_and]
      apply List.map_congr_left
      intro i _
      simp only [Function.comp, SECTSIZE, Prod.mk.injEq]
      constructor <;> omega
    · intro a
      rw [written_append, Bool.or_eq_true, h3, sectEvents_written]
      unfold SECTSIZE WORD
      omega

theorem second_wait_trace (secno k1 n : Nat) (m : Machine) (e : Event) :
    (polled (command secno (polled (m.log e) (k1 + 1))) n).trace =
      m.trace ++ e :: (pollEvents m.disk (k1 + 1) ++ (cmdEvents secno ++
        pollEvents (m.disk.after (k1 + 1)) n)) := by
  rw [polled_trace, command_trace, polled_trace, pollEvents_command, log_trace]
  simp only [List.append_assoc, List.singleton_append, List.cons_append, List.nil_append,
    log_disk]

/-- A run of `readseg`, complete or cut off: its trace, and the memory it leaves alone. -/
theorem readseg_frame (P F va count offset : Nat) (m : Machine) :
    ∃ evs, (reached (readseg P F va count offset m)).trace =
        m.trace ++ Event.readseg va count offset :: evs ∧
      segCalls evs = [] ∧
      (∀ a, written evs a = false → (reached (readseg P F va count offset m)).mem a = m.mem a) := by
  obtain ⟨evs, t, -, f⟩ := readseg_effects P F va count offset m
  obtain ⟨evs1, -, t1, d1, -, -⟩ := readseg_reached P F va count offset m
  have e : evs = evs1 := by
    rw [t] at t1
    exact (List.cons.inj (List.append_cancel_left t1)).2
  subst e
  exact ⟨evs, t, segCalls_driver _ d1, f⟩

/-- Fields inside the scratch region are read alike in memories that agree on it. -/
theorem load32_scratch (mem mem0 : Nat → Nat) (off : Nat) (h : off + 4 ≤ 4096)
    (hs : ∀ a, 0x10000 ≤ a → a < 0x11000 → mem a = mem0 a) :
    load32 mem (ELFHDR + off) = load32 mem0 (ELFHDR + off) := by
  apply load32_congr
  intro k hk
  have e : (ELFHDR + off + k) % WORD = ELFHDR + off + k := by unfold ELFHDR WORD; omega
  rw [e]
  exact hs _ (by unfold ELFHDR; omega) (by unfold ELFHDR; omega)

theorem segArgs_scratch (mem mem0 : Nat → Nat) (off : Nat) (h : off + 32 ≤ 4096)
    (hs : ∀ a, 0x10000 ≤ a → a < 0x11000 → mem a = mem0 a) :
    segArgs elf32 mem (ELFHDR + off) = segArgs elf32 mem0 (ELFHDR + off) := by
  unfold segArgs
  simp only [elf32]
  rw [Nat.add_assoc ELFHDR off 8, Nat.add_assoc ELFHDR off 20, Nat.add_assoc ELFHDR off 4,
    load32_scratch mem mem0 _ (by omega) hs, load32_scratch mem mem0 _ (by omega) hs,
    load32_scratch mem mem0 _ (by omega) hs]

/-- The segment loop of `bootmain` over a table inside the scratch region: as long as no
segment load stores into the scratch region, the region keeps its content `mem0` and the
descriptors are read as they are in `mem0`. -/
theorem segLoop_scratch (P : Nat) (mem0 : Nat → Nat) (phoff n : Nat)
    (hn : phoff + 32 * n ≤ 4096) :
    ∀ (F j : Nat) (m : Machine) (evs : List Event), j ≤ n →
    (∀ a, 0x10000 ≤ a → a < 0x11000 → m.mem a = mem0 a) →
    (reached (segLoop elf32 P F (ELFHDR + phoff + 32 * j) (ELFHDR + phoff + 32 * n) m)).trace
      = m.trace ++ evs →
    (∀ a, 0x10000 ≤ a → a < 0x11000 → written evs a = false) →
    (∀ a, 0x10000 ≤ a → a < 0x11000 →
      (reached (segLoop elf32 P F (ELFHDR + phoff + 32 * j) (ELFHDR + phoff + 32 * n) m)).mem a
        = mem0 a) ∧
    ∃ k, j + k ≤ n ∧
      segCalls evs = (List.range k).map
        (fun i => segArgs elf32 mem0 (ELFHDR + (phoff + 32 * (j + i)))) ∧
      (∀ m2, segLoop elf32 P F (ELFHDR + phoff + 32 * j) (ELFHDR + phoff + 32 * n) m
        = Except.ok m2 → j + k = n) := by
  intro F
  induction F with
  | zero =>
    intro j m evs hj hs t hw
    simp only [segLoop, reached] at t ⊢
    have e : evs = [] := List.self_eq_append_right.1 t
    subst e
    exact ⟨hs, 0, by omega, rfl, fun m2 h => by cases h⟩
  | succ F ih =>
    intro j m evs hj hs t hw
    rw [segLoop] at t ⊢
    by_cases c : ELFHDR + phoff + 32 * j < ELFHDR + phoff + 32 * n
    · rw [if_pos c] at t ⊢
      have hjn : j < n := by omega
      have ea : segArgs elf32 m.mem (ELFHDR + phoff + 32 * j)
          = segArgs elf32 mem0 (ELFHDR + (phoff + 32 * j)) := by
        rw [Nat.add_assoc ELFHDR phoff (32 * j)]
        exact segArgs_scratch m.mem mem0 _ (by omega) hs
      obtain ⟨evs1, t1, c1, f1⟩ := readseg_frame P F
        (segArgs elf32 m.mem (ELFHDR + phoff + 32 * j)).1
        (segArgs elf32 m.mem (ELFHDR + phoff + 32 * j)).2.1
        (segArgs elf32 m.mem (ELFHDR + phoff + 32 * j)).2.2 m
      cases hr : readseg P F (segArgs elf32 m.mem (ELFHDR + phoff + 32 * j)).1
          (segArgs elf32 m.mem (ELFHDR + phoff + 32 * j)).2.1
          (segArgs elf32 m.mem (ELFHDR + phoff + 32 * j)).2.2 m with
      | error e =>
        rw [hr] at t1 f1
        rw [hr] at t
        simp only [reached, bind, Except.bind] at t t1 f1 ⊢
        have ee : evs = Event.readseg (segArgs elf32 m.mem (ELFHDR + phoff + 32 * j)).1
            (segArgs elf32 m.mem (ELFHDR + phoff + 32 * j)).2.1
            (segArgs elf32 m.mem (ELFHDR + phoff + 32 * j)).2.2 :: evs1 := by
          rw [t1] at t
          exact (List.append_cancel_left t).symm
        subst ee
        refine ⟨fun a h1 h2 => by rw [f1 a (hw a h1 h2)]; exact hs a h1 h2, 1, by omega, ?_,
          fun m2 h => by cases h⟩
        show _ :: segCalls evs1 = _
        rw [c1, ea]
        rfl
      | ok m1 =>
        rw [hr] at t1 f1
        rw [hr] at t
        simp only [reached] at t1 f1
        simp only [bind, Except.bind] at t ⊢
        have en : (ELFHDR + phoff + 32 * j + elf32.phsize) % WORD
            = ELFHDR + phoff + 32 * (j + 1) := by
          show (ELFHDR + phoff + 32 * j + 32) % WORD = _
          unfold ELFHDR WORD
          omega
        rw [en] at t ⊢
        obtain ⟨evs2, -, t2, -⟩ := segLoop_reached P elf32 F (ELFHDR + phoff + 32 * (j + 1))
          (ELFHDR + phoff + 32 * n) m1
        have ee : evs = (Event.readseg (segArgs elf32 m.mem (ELFHDR + phoff + 32 * j)).1
            (segArgs elf32 m.mem (ELFHDR + phoff + 32 * j)).2.1
            (segArgs elf32 m.mem (ELFHDR + phoff + 32 * j)).2.2 :: evs1) ++ evs2 := by
          rw [t2, t1, List.append_assoc] at t
          exact (List.append_cancel_left t).symm
        subst ee
        have hw1 : ∀ a, 0x10000 ≤ a → a < 0x11000 → written evs1 a = false :=
          fun a h1 h2 => (written_append_false _ _ a (hw a h1 h2)).1
        have hw2 : ∀ a, 0x10000 ≤ a → a < 0x11000 → written evs2 a = false :=
          fun a h1 h2 => (written_append_false _ _ a (hw a h1 h2)).2
        have hs1 : ∀ a, 0x10000 ≤ a → a < 0x11000 → m1.mem a = mem0 a :=
          fun a h1 h2 => by rw [f1 a (hw1 a h1 h2)]; exact hs a h1 h2
        obtain ⟨hs2, k, hk, c2, o2⟩ := ih (j + 1) m1 evs2 (by omega) hs1 t2 hw2
        refine ⟨hs2, k + 1, by omega, ?_, fun m2 h => by have := o2 m2 h; omega⟩
        rw [segCalls_append]
        show (_ :: segCalls evs1) ++ segCalls evs2 = _
        rw [c1, c2, ea, List.range_succ_eq_map, List.map_cons, List.map_map]
        simp only [List.singleton_append, List.cons_append, List.nil_append, Nat.add_zero,
          List.cons.injEq, true_and]
        apply List.map_congr_left
        intro i _
        simp only [Function.comp]
        rw [show j + 1 + i = j + Nat.succ i by omega]
    · rw [if_neg c] at t ⊢
      simp only [reached] at t ⊢
      have e : evs = [] := List.self_eq_append_right.1 t
      subst e
      exact ⟨hs, 0, by omega, rfl, fun m2 _ => by omega⟩

theorem diskArgs_header (m : Machine) (hr : Ready m.disk) (i : Nat)
    (h : image32 m.disk 28 + 32 * i + 32 ≤ 4096) :
    segArgs elf32 (headerLoad m).mem (ELFHDR + (image32 m.disk 28 + 32 * i))
      = diskArgs elf32 m.disk i := by
  rw [segArgs_header m hr _ h]
  rfl

/-- The segment loop of `bootmain` in any run, complete or cut off, on a ready disk whose image
has the right magic number and a segment table inside the loaded header region: `evs` are the
events of the loop. If none of them stores into `[0x10000, 0x11000)`, the `readseg` calls in
`evs` are those of the first `k` descriptors on the disk, and if the entry call is reached,
`k = e_phnum` and the target is the on-disk `e_entry & 0xFFFFFF`. -/
theorem bootmain_scratch_run (entry : Nat → Machine → Option Machine) (P F : Nat)
    (m : Machine) (hr : Ready m.disk) (hP : 0 < P) (hF : 11 ≤ F)
    (hmagic : image32 m.disk 0 = 0x464C457F)
    (htab : image32 m.disk 28 + 32 * image16 m.disk 44 ≤ 4096) :
    ∃ mp evs, mp.trace = (headerLoad m).trace ++ evs ∧
      (bootmain elf32 entry P F m = Except.error mp ∨
        ∃ t, bootmain elf32 entry P F m = Except.ok (enter entry t mp) ∧
          ((∀ a, 0x10000 ≤ a → a < 0x11000 → written evs a = false) →
            segCalls evs = (List.range (image16 m.disk 44)).map (diskArgs elf32 m.disk) ∧
            t = image32 m.disk 24 &&& 0xFFFFFF)) ∧
      ((∀ a, 0x10000 ≤ a → a < 0x11000 → written evs a = false) →
        ∃ k, k ≤ image16 m.disk 44 ∧
          segCalls evs = (List.range k).map (diskArgs elf32 m.disk)) := by
  obtain ⟨P, rfl⟩ : ∃ K, P = K + 1 := ⟨P - 1, by omega⟩
  have hh := header_returns P F m hr hF
  have hm : load32 (headerLoad m).mem (ELFHDR + elf32.e_magic) = elf32.ELF_MAGIC := by
    show load32 (headerLoad m).mem (ELFHDR + 0) = 0x464C457F
    rw [load32_header m hr 0 (by decide)]
    exact hmagic
  have hoff : load32 (headerLoad m).mem (ELFHDR + elf32.e_phoff) = image32 m.disk 28 :=
    load32_header m hr 28 (by decide)
  have hnum : load16 (headerLoad m).mem (ELFHDR + elf32.e_phnum) = image16 m.disk 44 :=
    load16_header m hr 44 (by decide)
  have hph : (ELFHDR + image32 m.disk 28) % WORD = ELFHDR + image32 m.disk 28 + 32 * 0 := by
    unfold ELFHDR WORD
    omega
  have heph : (ELFHDR + image32 m.disk 28 + 32 * 0 + elf32.phsize * image16 m.disk 44) % WORD
      = ELFHDR + image32 m.disk 28 + 32 * image16 m.disk 44 := by
    show (ELFHDR + image32 m.disk 28 + 32 * 0 + 32 * image16 m.disk 44) % WORD = _
    unfold ELFHDR WORD
    omega
  obtain ⟨evs, -, t, -⟩ := segLoop_reached (P + 1) elf32 F
    (ELFHDR + image32 m.disk 28 + 32 * 0)
    (ELFHDR + image32 m.disk 28 + 32 * image16 m.disk 44) (headerLoad m)
  have key := segLoop_scratch (P + 1) (headerLoad m).mem (image32 m.disk 28)
    (image16 m.disk 44) htab F 0 (headerLoad m) evs (Nat.zero_le _) (fun _ _ _ => rfl) t
  have hargs : ∀ k, k ≤ image16 m.disk 44 →
      (List.range k).map
        (fun i => segArgs elf32 (headerLoad m).mem (ELFHDR + (image32 m.disk 28 + 32 * (0 + i))))
      = (List.range k).map (diskArgs elf32 m.disk) := by
    intro k hk
    apply List.map_congr_left
    intro i hi
    rw [List.mem_range] at hi
    rw [Nat.zero_add]
    exact diskArgs_header m hr i (by omega)
  have hsafe : (∀ a, 0x10000 ≤ a → a < 0x11000 → written evs a = false) →
      ∃ k, k ≤ image16 m.disk 44 ∧
        segCalls evs = (List.range k).map (diskArgs elf32 m.disk) := by
    intro hw
    obtain ⟨-, k, hk, c, -⟩ := key hw
    exact ⟨k, by omega, by rw [c, hargs k (by omega)]⟩
  cases hs : segLoop elf32 (P + 1) F (ELFHDR + image32 m.disk 28 + 32 * 0)
      (ELFHDR + image32 m.disk 28 + 32 * image16 m.disk 44) (headerLoad m) with
  | error e =>
    rw [hs] at t
    refine ⟨e, evs, t, Or.inl ?_, hsafe⟩
    refine bootmain_segment_error (P + 1) elf32 entry F m (headerLoad m) e hh hm ?_
    rw [hoff, hnum, hph, heph]
    exact hs
  | ok m2 =>
    rw [hs] at t key
    refine ⟨m2, evs, t, Or.inr ⟨load32 m2.mem (ELFHDR + elf32.e_entry) &&& 0xFFFFFF, ?_, ?_⟩,
      hsafe⟩
    · refine bootmain_jump (P + 1) elf32 entry F m (headerLoad m) m2 hh hm ?_
      rw [hoff, hnum, hph, heph]
      exact hs
    · intro hw
      obtain ⟨inv, k, hk, c, o⟩ := key hw
      have ek : k = image16 m.disk 44 := by
        have := o m2 rfl
        omega
      subst ek
      refine ⟨by rw [c, hargs _ (le_refl _)], ?_⟩
      have e1 : load32 m2.mem (ELFHDR + elf32.e_entry)
          = load32 (headerLoad m).mem (ELFHDR + elf32.e_entry) :=
        load32_scratch m2.mem (headerLoad m).mem 24 (by decide) inv
      rw [e1]
      show load32 (headerLoad m).mem (ELFHDR + 24) &&& 0xFFFFFF = _
      rw [load32_header m hr 24 (by decide)]
      rfl

/-- When every segment load returns and none stores into the scratch region, the region is
before each load (and after the last) as the header load left it. -/
theorem scratch_kept (Q G n ph : Nat) (m0 : Machine) (ms : Nat → Machine) (h0 : ms 0 = m0)
    (hs : ∀ i, i < n → readseg Q G (segArgs elf32 (ms i).mem (ph + 32 * i)).1
        (segArgs elf32 (ms i).mem (ph + 32 * i)).2.1
        (segArgs elf32 (ms i).mem (ph + 32 * i)).2.2 (ms i) = Except.ok (ms (i + 1)))
    (hw : ∀ i, i < n → ∀ evs, (ms (i + 1)).trace = (ms i).trace ++ evs →
      ∀ a, 0x10000 ≤ a → a < 0x11000 → written evs a = false) :
    ∀ i, i ≤ n → ∀ a, 0x10000 ≤ a → a < 0x11000 → (ms i).mem a = m0.mem a := by
  intro i
  induction i with
  | zero => intro _ a _ _; rw [h0]
  | succ i ih =>
    intro hi a h1 h2
    obtain ⟨evs, t, -, f⟩ := readseg_frame Q G (segArgs elf32 (ms i).mem (ph + 32 * i)).1
      (segArgs elf32 (ms i).mem (ph + 32 * i)).2.1
      (segArgs elf32 (ms i).mem (ph + 32 * i)).2.2 (ms i)
    rw [hs i (by omega)] at t f
    simp only [reached] at t f
    rw [f a (hw i (by omega) _ t a h1 h2), ih (by omega) a h1 h2]

/-- The run of `bootmain` on the kernel whose segment overwrites the header. -/
theorem clobber_run :
    bootmain elf32 neverReturns 1 11 clobberMachine =
      Except.ok (Final.jumped ((sectSteps 1 0x10000 2
        ((headerLoad clobberMachine).log (Event.readseg 0x10000 512 512))).log
          (Event.call 0xAAAAAA))) := by
  have hr : Ready clobberMachine.disk := ready_diskOf _ _
  have hm : load32 (headerLoad clobberMachine).mem (ELFHDR + elf32.e_magic) = elf32.ELF_MAGIC := by
    rw [load32_header clobberMachine hr _ (by decide)]
    decide
  have hoff : load32 (headerLoad clobberMachine).mem (ELFHDR + elf32.e_phoff) = 52 := by
    rw [load32_header clobberMachine hr _ (by decide)]
    decide
  have hnum : load16 (headerLoad clobberMachine).mem (ELFHDR + elf32.e_phnum) = 1 := by
    rw [load16_header clobberMachine hr _ (by decide)]
    decide
  have hargs : segArgs elf32 (headerLoad clobberMachine).mem (ELFHDR + 52)
      = (0x10000, 512, 512) := by
    rw [segArgs_header clobberMachine hr 52 (by decide)]
    decide
  have hseg : readseg 1 4 0x10000 512 512 (headerLoad clobberMachine) =
      Except.ok (sectSteps 1 0x10000 2
        ((headerLoad clobberMachine).log (Event.readseg 0x10000 512 512))) :=
    readseg_ready 0 4 0x10000 512 512 _ (headerLoad_ready _ hr) (by decide) (by decide)
      (by decide) (by decide)
  have hloop := segLoop_run elf32 1 1 (le_refl _) 4 1 11 (ELFHDR + 52)
    (fun i => if i = 0 then headerLoad clobberMachine
      else sectSteps 1 0x10000 2
        ((headerLoad clobberMachine).log (Event.readseg 0x10000 512 512)))
    (by decide) (by decide)
    (by
      intro i hi
      obtain rfl : i = 0 := by omega
      simp only [if_true, Nat.mul_zero, Nat.add_zero, hargs]
      exact hseg)
  have hentry : load32 (sectSteps 1 0x10000 2
      ((headerLoad clobberMachine).log (Event.readseg 0x10000 512 512))).mem
        (ELFHDR + 24) &&& 0xFFFFFF = 0xAAAAAA := by
    have hb : ∀ k, k < 4 → load8 (sectSteps 1 0x10000 2
        ((headerLoad clobberMachine).log (Event.readseg 0x10000 512 512))).mem
          (ELFHDR + 24 + k) = 0xAA := by
      intro k hk
      unfold load8
      have e : (ELFHDR + 24 + k) % WORD = ELFHDR + 24 + k := by unfold ELFHDR WORD; omega
      rw [e, sectSteps_mem _ _ _ _ _ (by decide) (by decide),
        if_pos (by unfold ELFHDR; omega), log_disk, headerLoad_byte _ hr]
      have e2 : 2 + (ELFHDR + 24 + k - 65536) / 512 = 2 := by unfold ELFHDR; omega
      rw [e2]
      rfl
    unfold load32
    have h0 := hb 0 (by decide)
    rw [Nat.add_zero] at h0
    rw [h0, hb 1 (by decide), hb 2 (by decide), hb 3 (by decide)]
    decide
  have h := bootmain_jump 1 elf32 neverReturns 11 clobberMachine (headerLoad clobberMachine)
    (sectSteps 1 0x10000 2 ((headerLoad clobberMachine).log (Event.readseg 0x10000 512 512)))
    (header_returns 0 11 _ hr (le_refl _)) hm
    (by
      rw [hoff, hnum]
      exact hloop)
  have e24 : ELFHDR + elf32.e_entry = ELFHDR + 24 := rfl
  rw [e24, hentry] at h
  rw [h]
  rfl

/-- The segment load of the end-to-end scenario stores nothing into the scratch region. -/
theorem kernelStates_scratch : ∀ i, i < 1 → ∀ evs,
    (kernelStates (i + 1)).trace = (kernelStates i).trace ++ evs →
    ∀ a, 0x10000 ≤ a → a < 0x11000 → written evs a = false := by
  intro i hi evs t a h1 h2
  obtain rfl : i = 0 := by omega
  have e0 : kernelStates 0 = headerLoad kernelMachine := if_pos rfl
  have e1 : kernelStates (0 + 1) = sectSteps 1 0x100000 2
      ((headerLoad kernelMachine).log (Event.readseg 0x100000 512 512)) := if_neg (by decide)
  obtain ⟨evs1, t1, -, w1, -⟩ := sectSteps_trace 1 0x100000 2
    ((headerLoad kernelMachine).log (Event.readseg 0x100000 512 512)) (by decide)
  rw [e0, e1, t1, log_trace, List.append_assoc] at t
  rw [← List.append_cancel_left t]
  show written evs1 a = false
  rw [← Bool.not_eq_true, w1]
  omega

/-! ### The claims -/

/-- C1 (as amended): on a ready disk, for 32-bit arguments whose destination pointer does not
wrap around (`offset % 512 ≤ dst` and `dst + count + 512 ≤ 2^32`), `readseg(dst, count, offset)`
returns, and the set of sector numbers it passes to `readsect` is exactly
`{ k + 1 | floor(offset/512) ≤ k < ceil((offset + count)/512) }`. -/
theorem readseg_blocks (P F dst count offset : Nat) (m : Machine) (hr : Ready m.disk)
    (hP : 0 < P) (ho : offset < WORD) (h1 : offset % 512 ≤ dst)
    (h2 : dst + count + 512 ≤ WORD) (hF : count / 512 + 3 ≤ F) :
    ∃ m1 evs, readseg P F dst count offset m = Except.ok m1 ∧ m1.trace = m.trace ++ evs ∧
      ∀ b, b ∈ secnos evs ↔
        ∃ k, b = k + 1 ∧ offset / 512 ≤ k ∧ k < (offset + count + 511) / 512 := by
  obtain ⟨P, rfl⟩ : ∃ K, P = K + 1 := ⟨P - 1, by omega⟩
  unfold WORD at ho h2
  obtain ⟨evs, e1, e2, -, -⟩ := sectSteps_trace ((count + offset % 512 + 511) / 512)
    (dst - offset % 512) (offset / 512 + 1) (m.log (Event.readseg dst count offset))
    (by unfold WORD; omega)
  refine ⟨_, Event.readseg dst count offset :: evs,
    readseg_ready P F dst count offset m hr ho h1 h2 hF, ?_, ?_⟩
  · rw [e1]; simp [Machine.log]
  · intro b
    have e3 : secnos (Event.readseg dst count offset :: evs) = secnos evs := rfl
    rw [e3, e2, List.mem_range'_1]
    constructor
    · rintro ⟨h3, h4⟩
      exact ⟨b - 1, by omega, by omega, by omega⟩
    · rintro ⟨k, rfl, h3, h4⟩
      omega

/-- Witness for C1: a one-sector read at file offset 512 into `0x100000`. -/
theorem readseg_blocks_witness :
    Ready machine0.disk ∧ 0 < 1 ∧ 512 < WORD ∧ 512 % 512 ≤ 0x100000 ∧
      0x100000 + 512 + 512 ≤ WORD ∧ 512 / 512 + 3 ≤ 4 ∧
      ∃ m1 evs, readseg 1 4 0x100000 512 512 machine0 = Except.ok m1 ∧
        m1.trace = machine0.trace ++ evs ∧
        ∀ b, b ∈ secnos evs ↔ ∃ k, b = k + 1 ∧ 512 / 512 ≤ k ∧ k < (512 + 512 + 511) / 512 :=
  ⟨ready_diskOf _ _, by decide, by decide, by decide, by decide, by decide,
    readseg_blocks 1 4 0x100000 512 512 machine0 (ready_diskOf _ _) (by decide) (by decide)
      (by decide) (by decide) (by decide)⟩

/-- Counterexample to C1 as stated: `readseg(0, 10, 1)` on a ready disk. The destination
pointer `0 - 1` wraps around to `0xFFFFFFFF`, the loop condition fails at once, and no block
is read, although block 1 covers the bytes asked for. -/
theorem readseg_blocks_counterexample :
    Ready machine0.disk ∧
      (∀ P F, readseg P (F + 1) 0 10 1 machine0
        = Except.ok (machine0.log (Event.readseg 0 10 1))) ∧
      secnos (machine0.log (Event.readseg 0 10 1)).trace = [] ∧
      ¬ (∀ b, b ∈ secnos (machine0.log (Event.readseg 0 10 1)).trace ↔
          ∃ k, b = k + 1 ∧ 1 / 512 ≤ k ∧ k < (1 + 10 + 511) / 512) := by
  refine ⟨ready_diskOf _ _, fun P F => rfl, rfl, ?_⟩
  intro h
  have h1 := (h 1).2 ⟨0, rfl, by decide, by decide⟩
  have h2 : secnos (machine0.log (Event.readseg 0 10 1)).trace = [] := rfl
  rw [h2] at h1
  exact List.not_mem_nil _ h1

/-- C2 (as amended): on a ready disk, for 32-bit arguments whose destination pointer does not
wrap around (`offset % 512 ≤ dst` and `dst + count + 512 ≤ 2^32`), `readseg(dst, count, offset)`
returns and then `mem[dst + i] = image[offset + i]` for every `i < count`. -/
theorem readseg_copies (P F dst count offset : Nat) (m : Machine) (hr : Ready m.disk)
    (hP : 0 < P) (ho : offset < WORD) (h1 : offset % 512 ≤ dst)
    (h2 : dst + count + 512 ≤ WORD) (hF : count / 512 + 3 ≤ F) :
    ∃ m1, readseg P F dst count offset m = Except.ok m1 ∧
      ∀ i, i < count → m1.mem (dst + i) = image m.disk (offset + i) := by
  obtain ⟨P, rfl⟩ : ∃ K, P = K + 1 := ⟨P - 1, by omega⟩
  refine ⟨_, readseg_ready P F dst count offset m hr ho h1 h2 hF, ?_⟩
  intro i hi
  unfold WORD at ho h2
  rw [sectSteps_mem _ _ _ _ _ (by unfold WORD; omega) (by omega), if_pos (by omega)]
  unfold image SECTSIZE
  have e1 : offset / 512 + 1 + (dst + i - (dst - offset % 512)) / 512 = (offset + i) / 512 + 1 := by
    omega
  have e2 : (dst + i - (dst - offset % 512)) % 512 = (offset + i) % 512 := by omega
  rw [e1, e2]
  rfl

/-- Witness for C2: 700 bytes at file offset 1000 into `0x100000`. -/
theorem readseg_copies_witness :
    Ready machine0.disk ∧ 0 < 1 ∧ 1000 < WORD ∧ 1000 % 512 ≤ 0x100000 ∧
      0x100000 + 700 + 512 ≤ WORD ∧ 700 / 512 + 3 ≤ 4 ∧
      ∃ m1, readseg 1 4 0x100000 700 1000 machine0 = Except.ok m1 ∧
        ∀ i, i < 700 → m1.mem (0x100000 + i) = image machine0.disk (1000 + i) :=
  ⟨ready_diskOf _ _, by decide, by decide, by decide, by decide, by decide,
    readseg_copies 1 4 0x100000 700 1000 machine0 (ready_diskOf _ _) (by decide) (by decide)
      (by decide) (by decide) (by decide)⟩

/-- Counterexample to C2 as stated: `readseg(0, 10, 1)` on a ready disk returns without
reading anything, so `mem[0]` keeps its old value 0 while `image[1]` is 1. -/
theorem readseg_copies_counterexample :
    Ready machine0.disk ∧
      (∀ P F, readseg P (F + 1) 0 10 1 machine0
        = Except.ok (machine0.log (Event.readseg 0 10 1))) ∧
      ¬ (∀ i, i < 10 →
          (machine0.log (Event.readseg 0 10 1)).mem (0 + i) = image machine0.disk (1 + i)) := by
  refine ⟨ready_diskOf _ _, fun P F => rfl, ?_⟩
  intro h
  have h1 := h 0 (by decide)
  have h2 : (machine0.log (Event.readseg 0 10 1)).mem (0 + 0) = 0 := rfl
  have h3 : image machine0.disk (1 + 0) = 1 := by decide
  rw [h2, h3] at h1
  exact absurd h1 (by decide)

/-- C3: on a ready disk whose loaded header has a wrong magic number, `bootmain` loads the
header region, writes `0x8A00` and then `0x8E00` to port `0x8A00` and halts in `while (1)`;
after the header load nothing else happens: no `readseg` or `readsect` call, no entry call. -/
theorem bootmain_bad_magic (L : Layout) (entry : Nat → Machine → Option Machine) (P F : Nat)
    (m : Machine) (hr : Ready m.disk) (hP : 0 < P) (hF : 11 ≤ F)
    (hm : load32 (headerLoad m).mem (ELFHDR + L.e_magic) ≠ L.ELF_MAGIC) :
    readseg P F ELFHDR (SECTSIZE * 8) 0 m = Except.ok (headerLoad m) ∧
    ∃ m2, bootmain L entry P F m = Except.ok (Final.halt m2) ∧
      m2.trace = (headerLoad m).trace ++ [Event.outw 0x8A00 0x8A00, Event.outw 0x8A00 0x8E00] ∧
      m2.mem = (headerLoad m).mem ∧ m2.disk = (headerLoad m).disk ∧
      ∃ evs, m2.trace = m.trace ++ evs ∧ segCalls evs = [(ELFHDR, SECTSIZE * 8, 0)] ∧
        entryCalls evs = [] ∧ failWrites evs = [0x8A00, 0x8E00] := by
  obtain ⟨P, rfl⟩ : ∃ K, P = K + 1 := ⟨P - 1, by omega⟩
  have h1 := header_returns P F m hr hF
  refine ⟨h1, _, bootmain_at_bad (P + 1) L entry F m _ h1 hm, by simp [outw], rfl, rfl, ?_⟩
  obtain ⟨evs, -, t, d, -, -⟩ := readseg_reached (P + 1) F ELFHDR (SECTSIZE * 8) 0 m
  rw [h1] at t
  simp only [reached] at t
  refine ⟨Event.readseg ELFHDR (SECTSIZE * 8) 0 :: evs
    ++ [Event.outw 0x8A00 0x8A00, Event.outw 0x8A00 0x8E00], by simp [outw, t], ?_, ?_, ?_⟩
  · rw [segCalls_append]
    show (_ :: segCalls evs) ++ _ = _
    rw [segCalls_driver _ d]
    rfl
  · rw [entryCalls_append]
    show entryCalls evs ++ _ = _
    rw [entryCalls_driver _ d]
    rfl
  · rw [failWrites_append]
    show failWrites evs ++ _ = _
    rw [failWrites_driver _ d]
    rfl

/-- Witness for C3: the disk that holds the byte 1 everywhere. -/
theorem bootmain_bad_magic_witness :
    Ready machine0.disk ∧ 0 < 1 ∧ 11 ≤ 11 ∧
      load32 (headerLoad machine0).mem (ELFHDR + elf32.e_magic) ≠ elf32.ELF_MAGIC ∧
      ∃ m2, bootmain elf32 neverReturns 1 11 machine0 = Except.ok (Final.halt m2) ∧
        m2.trace = (headerLoad machine0).trace
          ++ [Event.outw 0x8A00 0x8A00, Event.outw 0x8A00 0x8E00] :=
  ⟨ready_diskOf _ _, by decide, le_refl _, machine0_magic,
    (bootmain_bad_magic elf32 neverReturns 1 11 machine0 (ready_diskOf _ _) (by decide)
      (le_refl _) machine0_magic).2.imp (fun _ h => ⟨h.1, h.2.1⟩)⟩

/-- C4 (as amended): on a ready disk whose loaded header has the right magic number, if the
segment table does not wrap around the address space (`0x10000 + e_phoff + phsize * e_phnum`
is below `2^32`) and every segment load returns, then `bootmain` makes exactly one call
`readseg(p_va & 0xFFFFFF, p_memsz, p_offset)` per descriptor, in table order, each descriptor
read from scratch memory when it is used (`ms i` is the machine before the `i`-th load), and
then calls `e_entry & 0xFFFFFF`, read after the last load, once: up to that call the trace
holds no entry call. -/
theorem bootmain_loads_segments (L : Layout) (entry : Nat → Machine → Option Machine)
    (P Q F G n ph : Nat) (m : Machine) (ms : Nat → Machine)
    (hr : Ready m.disk) (hP : 0 < P) (hQ : Q ≤ P) (hF : 11 ≤ F) (hG : G + n + 1 ≤ F)
    (hm : load32 (headerLoad m).mem (ELFHDR + L.e_magic) = L.ELF_MAGIC)
    (hph : ph = ELFHDR + load32 (headerLoad m).mem (ELFHDR + L.e_phoff))
    (hn : n = load16 (headerLoad m).mem (ELFHDR + L.e_phnum))
    (hw : ph + L.phsize * n < WORD)
    (h0 : ms 0 = headerLoad m)
    (hs : ∀ i, i < n → readseg Q G (segArgs L (ms i).mem (ph + L.phsize * i)).1
        (segArgs L (ms i).mem (ph + L.phsize * i)).2.1
        (segArgs L (ms i).mem (ph + L.phsize * i)).2.2 (ms i) = Except.ok (ms (i + 1))) :
    bootmain L entry P F m =
      Except.ok (enter entry (load32 (ms n).mem (ELFHDR + L.e_entry) &&& 0xFFFFFF) (ms n)) ∧
    ∃ evs, (ms n).trace = (headerLoad m).trace ++ evs ∧
      segCalls evs = (List.range n).map (fun i => segArgs L (ms i).mem (ph + L.phsize * i)) ∧
      entryCalls evs = [] ∧ failWrites evs = [] := by
  obtain ⟨P, rfl⟩ : ∃ K, P = K + 1 := ⟨P - 1, by omega⟩
  have h1 := header_returns P F m hr hF
  have hrun := segLoop_run L (P + 1) Q hQ G n F ph ms hw hG hs
  rw [h0] at hrun
  constructor
  · refine bootmain_jump (P + 1) L entry F m _ _ h1 hm ?_
    rw [← hph, ← hn, Nat.mod_eq_of_lt (show ph < WORD by omega), Nat.mod_eq_of_lt hw]
    exact hrun
  · rw [← h0]
    exact segLoop_calls L Q G n ph ms hs

/-- Witness for C4, the end-to-end scenario of the specification: one descriptor with
destination `0x100000`, size 512 and file offset 512. The loader makes the one call
`readseg(0x100000, 512, 512)`, which reads device block 2 to address `0x100000`, and then
calls the entry point `0x100000`. -/
theorem bootmain_loads_segments_witness :
    Ready kernelMachine.disk ∧
      load32 (headerLoad kernelMachine).mem (ELFHDR + elf32.e_magic) = elf32.ELF_MAGIC ∧
      ELFHDR + 52 + elf32.phsize * 1 < WORD ∧
      (∀ i, i < 1 →
        readseg 1 4 (segArgs elf32 (kernelStates i).mem (ELFHDR + 52 + elf32.phsize * i)).1
          (segArgs elf32 (kernelStates i).mem (ELFHDR + 52 + elf32.phsize * i)).2.1
          (segArgs elf32 (kernelStates i).mem (ELFHDR + 52 + elf32.phsize * i)).2.2
          (kernelStates i) = Except.ok (kernelStates (i + 1))) ∧
      bootmain elf32 neverReturns 1 11 kernelMachine =
        Except.ok (Final.jumped ((kernelStates 1).log (Event.call 0x100000))) ∧
      (∃ evs, (kernelStates 1).trace = (headerLoad kernelMachine).trace ++ evs ∧
        segCalls evs = [(0x100000, 512, 512)] ∧ secnos evs = [2] ∧ entryCalls evs = [] ∧
        failWrites evs = []) ∧
      ∀ i, i < 512 → (kernelStates 1).mem (0x100000 + i) = kernelMachine.disk.byte 2 i := by
  have e1 : kernelStates 1 = sectSteps 1 0x100000 2
      ((headerLoad kernelMachine).log (Event.readseg 0x100000 512 512)) := if_neg (by decide)
  have h := bootmain_loads_segments elf32 neverReturns 1 1 11 4 1 (ELFHDR + 52) kernelMachine
    kernelStates (ready_diskOf _ _) (by decide) (le_refl _) (by decide) (by decide) kernel_magic
    (by rw [kernel_phoff]) (by rw [kernel_phnum]) (by decide) (if_pos rfl) kernelStates_step
  refine ⟨ready_diskOf _ _, kernel_magic, by decide, kernelStates_step, ?_, ?_, ?_⟩
  · have h1 := h.1
    rw [e1, kernel_entry] at h1
    rw [e1]
    exact h1
  · obtain ⟨evs, t, c, e, f⟩ := h.2
    refine ⟨evs, t, ?_, ?_, e, f⟩
    · rw [c]
      have e0 : kernelStates 0 = headerLoad kernelMachine := if_pos rfl
      simp only [List.range_succ, List.range_zero, List.nil_append, List.map_cons, List.map_nil,
        Nat.mul_zero, Nat.add_zero, e0, kernel_segArgs]
    · obtain ⟨evs1, t1, s1, -, -⟩ := sectSteps_trace 1 0x100000 2
        ((headerLoad kernelMachine).log (Event.readseg 0x100000 512 512)) (by decide)
      rw [e1, t1, log_trace, List.append_assoc] at t
      rw [← List.append_cancel_left t, secnos_append, s1]
      rfl
  · intro i hi
    rw [e1, sectSteps_mem _ _ _ _ _ (by decide) (by decide), if_pos (by omega), log_disk,
      headerLoad_byte _ (ready_diskOf _ _)]
    have e2 : 2 + (1048576 + i - 1048576) / 512 = 2 := by omega
    have e3 : (1048576 + i - 1048576) % 512 = i := by omega
    rw [e2, e3]

/-- Counterexample to C4 as stated: a ready disk whose header has the right magic number and
one descriptor with `p_va = 0`, `p_memsz = 0xFFFFFFFF`, `p_offset = 0`. The loop of
`readseg(0, 0xFFFFFFFF, 0)` never ends (`va` wraps around from `0xFFFFFE00` to 0 and stays below
`end_va`), so with any amount of fuel `bootmain` is still loading and has made no entry call. -/
theorem bootmain_loads_segments_counterexample :
    Ready hugeKernelMachine.disk ∧
      load32 (headerLoad hugeKernelMachine).mem (ELFHDR + elf32.e_magic) = elf32.ELF_MAGIC ∧
      load16 (headerLoad hugeKernelMachine).mem (ELFHDR + elf32.e_phnum) = 1 ∧
      ∀ P F, ∃ e, bootmain elf32 neverReturns P F hugeKernelMachine = Except.error e ∧
        entryCalls e.trace = [] := by
  refine ⟨ready_diskOf _ _, hugeKernel_facts.1, hugeKernel_facts.2.2.1, ?_⟩
  intro P F
  obtain ⟨e, he⟩ := hugeKernel_diverges P neverReturns F
  refine ⟨e, he, ?_⟩
  obtain ⟨mp, evs, bs, t, c, -, -, -, h⟩ := bootmain_reached P elf32 neverReturns F hugeKernelMachine
  rw [he] at h
  rcases h with h | h | ⟨_, h⟩
  · injection h with h
    rw [h, t, entryCalls_append, c]
    rfl
  · cases h
  · cases h

/-- C5: on a ready disk, `readsect(dst, secno)` with `secno < 2^28` returns; afterwards the 512
bytes at `dst .. dst + 511` (addresses modulo `2^32`) are the bytes of block `secno`, every
other byte of memory is unchanged, and the trace is that of one sector read: the data arrive
as 128 32-bit reads of port `0x1F0`. -/
theorem readsect_block (P dst secno : Nat) (m : Machine) (hr : Ready m.disk)
    (hs : secno < 268435456) (hd : dst < WORD) (hP : 0 < P) :
    ∃ m1, readsect P dst secno m = Except.ok m1 ∧
      (∀ i, i < 512 → m1.mem ((dst + i) % WORD) = m.disk.byte secno i) ∧
      (∀ a, (∀ i, i < 512 → a ≠ (dst + i) % WORD) → m1.mem a = m.mem a) ∧
      m1.trace = m.trace ++ sectEvents m.disk dst secno ∧
      (sectEvents m.disk dst secno).length = 9 + 128 := by
  obtain ⟨P, rfl⟩ : ∃ K, P = K + 1 := ⟨P - 1, by omega⟩
  refine ⟨_, readsect_ready P dst secno m hr, ?_, ?_, sectStep_trace dst secno m hd, ?_⟩
  · intro i hi
    unfold WORD at hd
    have c : (dst + i) % WORD < WORD ∧ ((dst + i) % WORD + WORD - dst % WORD) % WORD < 512 := by
      unfold WORD; omega
    have e : ((dst + i) % WORD + WORD - dst % WORD) % WORD = i := by unfold WORD; omega
    rw [sectStep_mem, if_pos c, e, Nat.mod_eq_of_lt hs]
  · intro a ha
    rw [sectStep_mem]
    by_cases c : a < WORD ∧ (a + WORD - dst % WORD) % WORD < 512
    · exfalso
      refine ha ((a + WORD - dst % WORD) % WORD) c.2 ?_
      have c1 := c.1
      have c2 := c.2
      unfold WORD at hd c1 c2 ⊢
      omega
    · rw [if_neg c]
  · simp [sectEvents, SECTSIZE]

/-- Witness for C5: block 2 read to `0x100000`. -/
theorem readsect_block_witness :
    Ready machine0.disk ∧ 2 < 268435456 ∧ 0x100000 < WORD ∧ 0 < 1 ∧
      ∃ m1, readsect 1 0x100000 2 machine0 = Except.ok m1 ∧
        (∀ i, i < 512 → m1.mem ((0x100000 + i) % WORD) = machine0.disk.byte 2 i) ∧
        (∀ a, (∀ i, i < 512 → a ≠ (0x100000 + i) % WORD) → m1.mem a = machine0.mem a) ∧
        m1.trace = machine0.trace ++ sectEvents machine0.disk 0x100000 2 ∧
        (sectEvents machine0.disk 0x100000 2).length = 9 + 128 :=
  ⟨ready_diskOf _ _, by decide, by decide, by decide,
    readsect_block 1 0x100000 2 machine0 (ready_diskOf _ _) (by decide) (by decide) (by decide)⟩

/-- C6: on a ready disk, `readsect(dst, secno)` with `secno < 2^28` writes 1 to port `0x1F2`
and four bytes `b3 .. b6` to ports `0x1F3 .. 0x1F6` with
`b3 + 2^8 b4 + 2^16 b5 + 2^24 (b6 & 0x0F) = secno`, each below 256, and `b6 & 0xF0 = 0xE0`;
these, the command `0x20` and the status reads are its only port accesses before the data. -/
theorem readsect_lba_bytes (P dst secno : Nat) (m : Machine) (hr : Ready m.disk)
    (hs : secno < 268435456) (hd : dst < WORD) (hP : 0 < P) :
    ∃ m1 s1 s2 b3 b4 b5 b6 ins, readsect P dst secno m = Except.ok m1 ∧
      m1.trace = m.trace ++
        ([Event.readsect dst secno, Event.inb 0x1F7 s1, Event.outb 0x1F2 1, Event.outb 0x1F3 b3,
          Event.outb 0x1F4 b4, Event.outb 0x1F5 b5, Event.outb 0x1F6 b6, Event.outb 0x1F7 0x20,
          Event.inb 0x1F7 s2] ++ ins) ∧
      (∀ e ∈ ins, ∃ addr val, e = Event.insl 0x1F0 addr val) ∧
      b3 + 256 * b4 + 65536 * b5 + 16777216 * (b6 &&& 0x0F) = secno ∧
      b3 < 256 ∧ b4 < 256 ∧ b5 < 256 ∧ b6 < 256 ∧ b6 &&& 0xF0 = 0xE0 := by
  obtain ⟨P, rfl⟩ : ∃ K, P = K + 1 := ⟨P - 1, by omega⟩
  have hb := Nat.mod_lt (secno / 16777216) (show 0 < 16 by decide)
  refine ⟨_, _, _, secno &&& 0xFF, (secno >>> 8) &&& 0xFF, (secno >>> 16) &&& 0xFF,
    ((secno >>> 24) &&& 0xF) ||| 0xE0, _, readsect_ready P dst secno m hr,
    sectStep_trace dst secno m hd, ?_, ?_, ?_, ?_, ?_, ?_, ?_⟩
  · intro e he
    obtain ⟨k, -, rfl⟩ := List.mem_map.1 he
    exact ⟨_, _, rfl⟩
  · rw [drive_byte, and_0F _ hb, and_255, and_255, and_255, shr_8, shr_16]
    omega
  · rw [and_255]; omega
  · rw [and_255]; omega
  · rw [and_255]; omega
  · rw [drive_byte]; omega
  · rw [drive_byte, and_F0 _ hb]

/-- Witness for C6: sector `0x1234567`. -/
theorem readsect_lba_bytes_witness :
    Ready machine0.disk ∧ 0x1234567 < 268435456 ∧ 0x100000 < WORD ∧ 0 < 1 ∧
      ∃ m1 s1 s2 b3 b4 b5 b6 ins, readsect 1 0x100000 0x1234567 machine0 = Except.ok m1 ∧
        m1.trace = machine0.trace ++
          ([Event.readsect 0x100000 0x1234567, Event.inb 0x1F7 s1, Event.outb 0x1F2 1,
            Event.outb 0x1F3 b3, Event.outb 0x1F4 b4, Event.outb 0x1F5 b5, Event.outb 0x1F6 b6,
            Event.outb 0x1F7 0x20, Event.inb 0x1F7 s2] ++ ins) ∧
        (∀ e ∈ ins, ∃ addr val, e = Event.insl 0x1F0 addr val) ∧
        b3 + 256 * b4 + 65536 * b5 + 16777216 * (b6 &&& 0x0F) = 0x1234567 ∧
        b3 < 256 ∧ b4 < 256 ∧ b5 < 256 ∧ b6 < 256 ∧ b6 &&& 0xF0 = 0xE0 :=
  ⟨ready_diskOf _ _, by decide, by decide, by decide,
    readsect_lba_bytes 1 0x100000 0x1234567 machine0 (ready_diskOf _ _) (by decide) (by decide)
      (by decide)⟩

/-- C7 (as amended): on a ready disk, when the destination pointer does not wrap around
(`offset % 512 ≤ dst` and `dst + count + 512 ≤ 2^32`), every byte `readseg(dst, count, offset)`
stores lies in `[dst - offset % 512, dst + count + 511)`: outside the requested range it
stores at most the `offset % 512` bytes just below `dst` and fewer than 512 bytes from
`dst + count` on; nothing below `dst` when `offset` is a multiple of 512. -/
theorem readseg_overwrite (P F dst count offset : Nat) (m : Machine) (hr : Ready m.disk)
    (hP : 0 < P) (ho : offset < WORD) (h1 : offset % 512 ≤ dst)
    (h2 : dst + count + 512 ≤ WORD) (hF : count / 512 + 3 ≤ F) :
    ∃ m1 evs, readseg P F dst count offset m = Except.ok m1 ∧ m1.trace = m.trace ++ evs ∧
      (∀ a, written evs a = true → dst - offset % 512 ≤ a ∧ a < dst + count + 511) ∧
      (∀ a, written evs a = true → offset % 512 = 0 → dst ≤ a) := by
  obtain ⟨P, rfl⟩ : ∃ K, P = K + 1 := ⟨P - 1, by omega⟩
  obtain ⟨m1, evs, e1, e2, e3⟩ := readseg_written P F dst count offset m hr ho h1 h2 hF
  refine ⟨m1, evs, e1, e2, ?_, ?_⟩
  · intro a ha
    have h := (e3 a).1 ha
    omega
  · intro a ha h0
    have h := (e3 a).1 ha
    omega

/-- Witness for C7: 10 bytes at file offset 1 into `0x1000`. -/
theorem readseg_overwrite_witness :
    Ready machine0.disk ∧ 0 < 1 ∧ 1 < WORD ∧ 1 % 512 ≤ 0x1000 ∧ 0x1000 + 10 + 512 ≤ WORD ∧
      10 / 512 + 3 ≤ 4 ∧
      ∃ m1 evs, readseg 1 4 0x1000 10 1 machine0 = Except.ok m1 ∧
        m1.trace = machine0.trace ++ evs ∧
        (∀ a, written evs a = true → 0x1000 - 1 % 512 ≤ a ∧ a < 0x1000 + 10 + 511) ∧
        (∀ a, written evs a = true → 1 % 512 = 0 → 0x1000 ≤ a) :=
  ⟨ready_diskOf _ _, by decide, by decide, by decide, by decide, by decide,
    readseg_overwrite 1 4 0x1000 10 1 machine0 (ready_diskOf _ _) (by decide) (by decide)
      (by decide) (by decide) (by decide)⟩

/-- Counterexample to C7 as stated: `readseg(0x1000, 10, 1)` on a ready disk stores the byte
at `0xFFF`, which lies below `dst = 0x1000` and is not a trailing byte. -/
theorem readseg_overwrite_counterexample :
    Ready machine0.disk ∧
      ∃ m1 evs, readseg 1 4 0x1000 10 1 machine0 = Except.ok m1 ∧
        m1.trace = machine0.trace ++ evs ∧ written evs 0xFFF = true ∧
        0xFFF < 0x1000 ∧ ¬ (0x1000 + 10 ≤ 0xFFF) := by
  obtain ⟨m1, evs, e1, e2, e3⟩ := readseg_written 0 4 0x1000 10 1 machine0 (ready_diskOf _ _)
    (by decide) (by decide) (by decide) (by decide)
  exact ⟨ready_diskOf _ _, m1, evs, e1, e2, (e3 0xFFF).2 (by decide), by decide, by decide⟩

/-- C8: on a ready disk whose loaded header has the right magic number and `e_phnum = 0`,
`bootmain` goes from the header-region load straight to the call of `e_entry & 0xFFFFFF`,
whatever `e_phoff`: the entry call is made in the machine the header load left, so when the
entry function does not return the run ends with the trace of the header load followed by
the call event. -/
theorem bootmain_no_segments (L : Layout) (entry : Nat → Machine → Option Machine) (P F : Nat)
    (m : Machine) (hr : Ready m.disk) (hP : 0 < P) (hF : 11 ≤ F)
    (hm : load32 (headerLoad m).mem (ELFHDR + L.e_magic) = L.ELF_MAGIC)
    (hn : load16 (headerLoad m).mem (ELFHDR + L.e_phnum) = 0) :
    readseg P F ELFHDR (SECTSIZE * 8) 0 m = Except.ok (headerLoad m) ∧
    bootmain L entry P F m =
      Except.ok (enter entry (load32 (headerLoad m).mem (ELFHDR + L.e_entry) &&& 0xFFFFFF)
        (headerLoad m)) ∧
    (entry (load32 (headerLoad m).mem (ELFHDR + L.e_entry) &&& 0xFFFFFF)
        ((headerLoad m).log
          (Event.call (load32 (headerLoad m).mem (ELFHDR + L.e_entry) &&& 0xFFFFFF))) = none →
      bootmain L entry P F m =
        Except.ok (Final.jumped ((headerLoad m).log
          (Event.call (load32 (headerLoad m).mem (ELFHDR + L.e_entry) &&& 0xFFFFFF))))) := by
  obtain ⟨P, rfl⟩ : ∃ K, P = K + 1 := ⟨P - 1, by omega⟩
  have h2 := bootmain_phnum_zero P L entry F m hr hF hm hn
  refine ⟨header_returns P F m hr hF, h2, ?_⟩
  intro he
  rw [h2]
  unfold enter
  rw [he]

/-- Witness for C8: a kernel without segments and with entry `0x100000`. -/
theorem bootmain_no_segments_witness :
    Ready emptyKernelMachine.disk ∧ 0 < 1 ∧ 11 ≤ 11 ∧
      load32 (headerLoad emptyKernelMachine).mem (ELFHDR + elf32.e_magic) = elf32.ELF_MAGIC ∧
      load16 (headerLoad emptyKernelMachine).mem (ELFHDR + elf32.e_phnum) = 0 ∧
      bootmain elf32 neverReturns 1 11 emptyKernelMachine =
        Except.ok (Final.jumped ((headerLoad emptyKernelMachine).log (Event.call 0x100000))) := by
  have h := (bootmain_no_segments elf32 neverReturns 1 11 emptyKernelMachine (ready_diskOf _ _)
    (by decide) (le_refl _) emptyKernel_magic emptyKernel_phnum).2.2 rfl
  rw [emptyKernel_entry] at h
  exact ⟨ready_diskOf _ _, by decide, le_refl _, emptyKernel_magic, emptyKernel_phnum, h⟩

/-- C9 (as amended): when the entry function does not return, HALT and JUMP are terminal and
mutually exclusive: no run of `bootmain`, complete or cut off, on any disk, contains both an
entry call and a write to the failure port, and an entry call is the last event of the run.
(When the entry function returns, control falls through to the label `bad`.) -/
theorem halt_jump_exclusive (L : Layout) (entry : Nat → Machine → Option Machine) (P F : Nat)
    (m : Machine) (hent : ∀ t s, entry t s = none) :
    ∃ evs, (reachedFinal (bootmain L entry P F m)).trace = m.trace ++ evs ∧
      (entryCalls evs = [] ∨ failWrites evs = []) ∧
      ∀ t, t ∈ entryCalls evs →
        ∃ pre, evs = pre ++ [Event.call t] ∧ entryCalls pre = [] ∧ failWrites pre = [] := by
  obtain ⟨mp, evs, bs, t, c, f, -, -, h⟩ := bootmain_reached P L entry F m
  rcases h with h | h | ⟨tg, h⟩
  · refine ⟨evs, by rw [h]; exact t, Or.inl c, ?_⟩
    intro x hx
    rw [c] at hx
    exact absurd hx (List.not_mem_nil _)
  · have c2 : entryCalls (evs ++ [Event.outw 0x8A00 0x8A00, Event.outw 0x8A00 0x8E00]) = [] := by
      rw [entryCalls_append, c]; rfl
    refine ⟨evs ++ [Event.outw 0x8A00 0x8A00, Event.outw 0x8A00 0x8E00], ?_, Or.inl c2, ?_⟩
    · rw [h]
      simp [reachedFinal, bad, Final.machine, outw, t]
    · intro x hx
      rw [c2] at hx
      exact absurd hx (List.not_mem_nil _)
  · have he : enter entry tg mp = Final.jumped (mp.log (Event.call tg)) := by
      unfold enter
      rw [hent]
    refine ⟨evs ++ [Event.call tg], ?_, Or.inr ?_, ?_⟩
    · rw [h, he]
      simp [reachedFinal, Final.machine, Machine.log, t]
    · rw [failWrites_append, f]; rfl
    · intro x hx
      rw [entryCalls_append, c] at hx
      have hx2 : x = tg := by simpa [entryCalls] using hx
      rw [hx2]
      exact ⟨evs, rfl, c, f⟩

/-- Witness for C9: the end-to-end scenario with an entry function that never returns. -/
theorem halt_jump_exclusive_witness :
    (∀ t s, neverReturns t s = none) ∧
      ∃ evs, (reachedFinal (bootmain elf32 neverReturns 1 11 kernelMachine)).trace
          = kernelMachine.trace ++ evs ∧
        (entryCalls evs = [] ∨ failWrites evs = []) ∧
        ∀ t, t ∈ entryCalls evs →
          ∃ pre, evs = pre ++ [Event.call t] ∧ entryCalls pre = [] ∧ failWrites pre = [] :=
  ⟨fun _ _ => rfl, halt_jump_exclusive elf32 neverReturns 1 11 kernelMachine (fun _ _ => rfl)⟩

/-- Counterexample to C9 as stated: a kernel without segments whose entry function returns.
Control falls through to the label `bad`: the run contains the entry call and then the two
writes to the failure port. -/
theorem halt_jump_exclusive_counterexample :
    Ready emptyKernelMachine.disk ∧
      ∃ m2, bootmain elf32 returnsAtOnce 1 11 emptyKernelMachine = Except.ok (Final.halt m2) ∧
        m2.trace = (headerLoad emptyKernelMachine).trace
          ++ [Event.call 0x100000, Event.outw 0x8A00 0x8A00, Event.outw 0x8A00 0x8E00] ∧
        entryCalls m2.trace ≠ [] ∧ failWrites m2.trace ≠ [] := by
  have h := bootmain_phnum_zero 0 elf32 returnsAtOnce 11 emptyKernelMachine (ready_diskOf _ _)
    (le_refl _) emptyKernel_magic emptyKernel_phnum
  rw [emptyKernel_entry] at h
  have t : (outw 0x8A00 0x8E00 (outw 0x8A00 0x8A00
      ((headerLoad emptyKernelMachine).log (Event.call 0x100000)))).trace =
      (headerLoad emptyKernelMachine).trace
        ++ [Event.call 0x100000, Event.outw 0x8A00 0x8A00, Event.outw 0x8A00 0x8E00] := by
    simp [outw, Machine.log]
  refine ⟨ready_diskOf _ _, _, h, t, ?_, ?_⟩
  · rw [t, entryCalls_append]
    intro h0
    have h1 : entryCalls [Event.call 0x100000, Event.outw 0x8A00 0x8A00,
        Event.outw 0x8A00 0x8E00] = [] := (List.append_eq_nil.1 h0).2
    cases h1
  · rw [t, failWrites_append]
    intro h0
    have h1 : failWrites [Event.call 0x100000, Event.outw 0x8A00 0x8A00,
        Event.outw 0x8A00 0x8E00] = [] := (List.append_eq_nil.1 h0).2
    cases h1

/-- C10 (as amended): in every run of `readseg` (with a 32-bit `offset`) and of `bootmain`,
complete or cut off, on any disk and with any number of status polls, in which no loop of
`readseg` or `bootmain` has made more than `2^28 - 2^23` iterations, every block the disk is
told to read has an LBA of at least 1. (An entry function that returns is taken not to have
used the disk.) -/
theorem block0_not_read (L : Layout) (entry : Nat → Machine → Option Machine)
    (P F va count offset : Nat) (m : Machine) (hF : F ≤ 260046848) (ho : offset < WORD)
    (hent : ∀ t s s1, entry t s = some s1 → s1.disk.served = s.disk.served) :
    (∃ bs, (reached (readseg P F va count offset m)).disk.served = m.disk.served ++ bs ∧
      ∀ b ∈ bs, 1 ≤ b) ∧
    (∃ bs, (reachedFinal (bootmain L entry P F m)).disk.served = m.disk.served ++ bs ∧
      ∀ b ∈ bs, 1 ≤ b) := by
  constructor
  · obtain ⟨-, bs, -, -, s, b⟩ := readseg_reached P F va count offset m
    exact ⟨bs, s, b ho hF⟩
  · obtain ⟨mp, evs, bs, -, -, -, s, b, h⟩ := bootmain_reached P L entry F m
    refine ⟨bs, ?_, b hF⟩
    rcases h with h | h | ⟨tg, h⟩
    · rw [h]; exact s
    · rw [h]; exact s
    · rw [h]
      unfold enter
      cases he : entry tg (mp.log (Event.call tg)) with
      | none => exact s
      | some m3 =>
        have := hent _ _ _ he
        simp only [reachedFinal, bad, Final.machine, outw]
        rw [this]
        exact s

/-- Witness for C10: the end-to-end scenario, and a one-sector read. -/
theorem block0_not_read_witness :
    11 ≤ 260046848 ∧ 512 < WORD ∧
      (∀ t s s1, neverReturns t s = some s1 → s1.disk.served = s.disk.served) ∧
      (∃ bs, (reached (readseg 1 11 0x100000 512 512 kernelMachine)).disk.served
          = kernelMachine.disk.served ++ bs ∧ ∀ b ∈ bs, 1 ≤ b) ∧
      (∃ bs, (reachedFinal (bootmain elf32 neverReturns 1 11 kernelMachine)).disk.served
          = kernelMachine.disk.served ++ bs ∧ ∀ b ∈ bs, 1 ≤ b) :=
  ⟨by decide, by decide, fun _ _ _ h => (by cases h),
    block0_not_read elf32 neverReturns 1 11 0x100000 512 512 kernelMachine (by decide)
      (by decide)
      (fun _ _ _ h => (by cases h))⟩

/-- Counterexample to C10 as stated: `readseg(0, 0xFFFFFFFF, 0)` on a ready disk. Its loop
never ends, the sector number reaches `2^28`, and `readsect` then programs the 28-bit LBA 0:
cut off after `2^28 + 1` iterations, the run has told the disk to read block 0. The same
happens in the run of `bootmain` on the kernel whose only segment is that one. -/
theorem block0_not_read_counterexample :
    Ready machine0.disk ∧
      (∃ e, readseg 1 268435457 0 0xFFFFFFFF 0 machine0 = Except.error e ∧
        0 ∈ e.disk.served) ∧
      Ready hugeKernelMachine.disk ∧
      ∃ e, bootmain elf32 neverReturns 1 268435458 hugeKernelMachine = Except.error e ∧
        0 ∈ e.disk.served := by
  refine ⟨ready_diskOf _ _, ?_, ready_diskOf _ _, hugeKernel_block0⟩
  have e1 : (0 + WORD - 0 % SECTSIZE) % WORD = 0 := by decide
  have e2 : (0 + 0xFFFFFFFF) % WORD = 0xFFFFFFFF := by decide
  have e3 : (0 / SECTSIZE + 1) % WORD = 1 := by decide
  unfold readseg
  rw [e1, e2, e3]
  exact readsegLoop_serves 0 268435455 268435457 0 1 _ (ready_diskOf _ _) (by decide)
    (by decide) (by decide) (by decide)

/-- C11: in every run of `bootmain`, complete or cut off, on any disk, every event is
read-only: no write to the data port `0x1F0`, and every value written to the command port
`0x1F7` is the read command `0x20`. (The events of an entry function that returns, which is
not code of the boot loader, are taken to be read-only too.) -/
theorem bootmain_writes_nothing_back (L : Layout) (entry : Nat → Machine → Option Machine)
    (P F : Nat) (m : Machine)
    (hent : ∀ t s s1, entry t s = some s1 →
      ∃ evs, s1.trace = s.trace ++ evs ∧ ∀ e ∈ evs, e.readOnly = true) :
    ∃ evs, (reachedFinal (bootmain L entry P F m)).trace = m.trace ++ evs ∧
      ∀ e ∈ evs, e.readOnly = true := by
  obtain ⟨evs1, t1, r1, -⟩ := readseg_effects P F ELFHDR (SECTSIZE * 8) 0 m
  have r1' : ∀ e ∈ Event.readseg ELFHDR (SECTSIZE * 8) 0 :: evs1, e.readOnly = true := by
    intro e he
    rcases List.mem_cons.1 he with rfl | he
    · rfl
    · exact r1 e he
  have hbad : ∀ (s : Machine) (evs : List Event), s.trace = m.trace ++ evs →
      (∀ e ∈ evs, e.readOnly = true) →
      ∃ evs2, (bad s).machine.trace = m.trace ++ evs2 ∧ ∀ e ∈ evs2, e.readOnly = true := by
    intro s evs hs hr
    refine ⟨evs ++ [Event.outw 0x8A00 0x8A00, Event.outw 0x8A00 0x8E00], ?_, ?_⟩
    · simp [bad, Final.machine, outw, hs]
    · intro e he
      rcases List.mem_append.1 he with he | he
      · exact hr e he
      · simp only [List.mem_cons, List.mem_singleton, List.not_mem_nil, or_false] at he
        rcases he with h | h <;> subst h <;> decide
  cases h : readseg P F ELFHDR (SECTSIZE * 8) 0 m with
  | error e =>
    rw [h] at t1
    rw [bootmain_header_error P L entry F m e h]
    exact ⟨_, t1, r1'⟩
  | ok m1 =>
    rw [h] at t1
    simp only [reached] at t1
    by_cases hm : load32 m1.mem (ELFHDR + L.e_magic) = L.ELF_MAGIC
    · obtain ⟨evs2, t2, r2⟩ := segLoop_readOnly L P F
        ((ELFHDR + load32 m1.mem (ELFHDR + L.e_phoff)) % WORD)
        (((ELFHDR + load32 m1.mem (ELFHDR + L.e_phoff)) % WORD
          + L.phsize * load16 m1.mem (ELFHDR + L.e_phnum)) % WORD) m1
      have r12 : ∀ e ∈ (Event.readseg ELFHDR (SECTSIZE * 8) 0 :: evs1) ++ evs2,
          e.readOnly = true := by
        intro e he
        rcases List.mem_append.1 he with he | he
        · exact r1' e he
        · exact r2 e he
      cases hs : segLoop L P F ((ELFHDR + load32 m1.mem (ELFHDR + L.e_phoff)) % WORD)
        (((ELFHDR + load32 m1.mem (ELFHDR + L.e_phoff)) % WORD
          + L.phsize * load16 m1.mem (ELFHDR + L.e_phnum)) % WORD) m1 with
      | error e =>
        rw [hs] at t2
        simp only [reached] at t2
        rw [bootmain_segment_error P L entry F m m1 e h hm hs]
        exact ⟨_, by simp only [reachedFinal]; rw [t2, t1, List.append_assoc], r12⟩
      | ok m2 =>
        rw [hs] at t2
        simp only [reached] at t2
        rw [bootmain_jump P L entry F m m1 m2 h hm hs]
        have t12 : m2.trace = m.trace ++ ((Event.readseg ELFHDR (SECTSIZE * 8) 0 :: evs1) ++ evs2) := by
          rw [t2, t1, List.append_assoc]
        have r3 : ∀ e ∈ ((Event.readseg ELFHDR (SECTSIZE * 8) 0 :: evs1) ++ evs2) ++
            [Event.call (load32 m2.mem (ELFHDR + L.e_entry) &&& 0xFFFFFF)],
            e.readOnly = true := by
          intro e he
          rcases List.mem_append.1 he with he | he
          · exact r12 e he
          · rw [List.mem_singleton.1 he]; rfl
        have t3 : (m2.log (Event.call (load32 m2.mem (ELFHDR + L.e_entry) &&& 0xFFFFFF))).trace
            = m.trace ++ (((Event.readseg ELFHDR (SECTSIZE * 8) 0 :: evs1) ++ evs2) ++
              [Event.call (load32 m2.mem (ELFHDR + L.e_entry) &&& 0xFFFFFF)]) := by
          rw [log_trace, t12, List.append_assoc]
        unfold enter
        cases he : entry (load32 m2.mem (ELFHDR + L.e_entry) &&& 0xFFFFFF)
            (m2.log (Event.call (load32 m2.mem (ELFHDR + L.e_entry) &&& 0xFFFFFF))) with
        | none => exact ⟨_, t3, r3⟩
        | some m3 =>
          obtain ⟨evs4, t4, r4⟩ := hent _ _ _ he
          refine hbad m3 ((((Event.readseg ELFHDR (SECTSIZE * 8) 0 :: evs1) ++ evs2) ++
              [Event.call (load32 m2.mem (ELFHDR + L.e_entry) &&& 0xFFFFFF)]) ++ evs4)
            (by rw [t4, t3, List.append_assoc]) ?_
          intro e he
          rcases List.mem_append.1 he with he | he
          · exact r3 e he
          · exact r4 e he
    · rw [bootmain_at_bad P L entry F m m1 h hm]
      exact hbad m1 _ t1 r1'

/-- Witness for C11: the end-to-end scenario with an entry function that returns at once. -/
theorem bootmain_writes_nothing_back_witness :
    (∀ t s s1, returnsAtOnce t s = some s1 →
      ∃ evs, s1.trace = s.trace ++ evs ∧ ∀ e ∈ evs, e.readOnly = true) ∧
    ∃ evs, (reachedFinal (bootmain elf32 returnsAtOnce 1 11 kernelMachine)).trace
        = kernelMachine.trace ++ evs ∧ ∀ e ∈ evs, e.readOnly = true :=
  ⟨fun _ s s1 h => ⟨[], by cases h; simp, by simp⟩,
    bootmain_writes_nothing_back elf32 returnsAtOnce 1 11 kernelMachine
      (fun _ s s1 h => ⟨[], by cases h; simp, by simp⟩)⟩

/-- C12: on a ready disk of any content, the header-region load at the start of `bootmain`
returns; it calls `readsect(0x10000 + 512 * i, i + 1)` for `i = 0, ..., 7` in this order and
nothing else, the disk is told to read the blocks 1 to 8 in this order, and afterwards
`mem[0x10000 + i]` is byte `i` of the image for every `i < 4096`. The magic number is
compared in the memory this load has left, and everything else `bootmain` does comes after
it. -/
theorem header_load (L : Layout) (entry : Nat → Machine → Option Machine) (P F : Nat)
    (m : Machine) (hr : Ready m.disk) (hP : 0 < P) (hF : 11 ≤ F) :
    readseg P F ELFHDR (SECTSIZE * 8) 0 m = Except.ok (headerLoad m) ∧
    (∃ evs, (headerLoad m).trace = m.trace ++ Event.readseg ELFHDR (SECTSIZE * 8) 0 :: evs ∧
      sectCalls evs = (List.range 8).map (fun i => (0x10000 + 512 * i, 1 + i))) ∧
    (headerLoad m).disk.served = m.disk.served ++ [1, 2, 3, 4, 5, 6, 7, 8] ∧
    (∀ i, i < 4096 → (headerLoad m).mem (0x10000 + i) = image m.disk i) ∧
    bootmain L entry P F m =
      (if load32 (headerLoad m).mem (ELFHDR + L.e_magic) ≠ L.ELF_MAGIC then
        Except.ok (bad (headerLoad m))
      else
        (segLoop L P F ((ELFHDR + load32 (headerLoad m).mem (ELFHDR + L.e_phoff)) % WORD)
          (((ELFHDR + load32 (headerLoad m).mem (ELFHDR + L.e_phoff)) % WORD
            + L.phsize * load16 (headerLoad m).mem (ELFHDR + L.e_phnum)) % WORD)
          (headerLoad m)).bind
          (fun m2 => Except.ok
            (enter entry (load32 m2.mem (ELFHDR + L.e_entry) &&& 0xFFFFFF) m2))) := by
  obtain ⟨P, rfl⟩ : ∃ K, P = K + 1 := ⟨P - 1, by omega⟩
  have hh := header_returns P F m hr hF
  refine ⟨hh, ?_, ?_, ?_, ?_⟩
  · obtain ⟨evs, t, c, -⟩ := sectSteps_calls 8 ELFHDR 1
      (m.log (Event.readseg ELFHDR (SECTSIZE * 8) 0)) (by decide)
    refine ⟨evs, ?_, c⟩
    rw [headerLoad_eq m hr, t, log_trace, List.append_assoc]
    rfl
  · rw [headerLoad_eq m hr, sectSteps_served]
    rfl
  · intro i hi
    rw [headerLoad_mem m hr, if_pos (by unfold ELFHDR; omega)]
    unfold ELFHDR
    rw [Nat.add_sub_cancel_left]
  · unfold bootmain
    rw [hh]
    rfl

/-- Witness for C12: the end-to-end scenario. -/
theorem header_load_witness :
    Ready kernelMachine.disk ∧ 0 < 1 ∧ 11 ≤ 11 ∧
    readseg 1 11 ELFHDR (SECTSIZE * 8) 0 kernelMachine = Except.ok (headerLoad kernelMachine) ∧
    (headerLoad kernelMachine).disk.served
      = kernelMachine.disk.served ++ [1, 2, 3, 4, 5, 6, 7, 8] ∧
    (∀ i, i < 4096 → (headerLoad kernelMachine).mem (0x10000 + i) = image kernelMachine.disk i) :=
  ⟨ready_diskOf _ _, by decide, by decide,
    (header_load elf32 neverReturns 1 11 kernelMachine (ready_diskOf _ _) (by decide)
      (by decide)).1,
    (header_load elf32 neverReturns 1 11 kernelMachine (ready_diskOf _ _) (by decide)
      (by decide)).2.2.1,
    (header_load elf32 neverReturns 1 11 kernelMachine (ready_diskOf _ _) (by decide)
      (by decide)).2.2.2.1⟩

/-- C13: `waitdisk` returns exactly when a status read is ready. If the first ready status is
the `k`-th one from now (counting from 0), then with at least `k + 1` polls allowed `waitdisk`
returns after exactly `k + 1` reads of port `0x1F7`, having changed nothing but the poll
counter of the disk and the trace, and with at most `k` polls allowed it is cut off still
polling. If no status is ever ready, it is cut off whatever the number of polls allowed: it
never returns. -/
theorem waitdisk_exact (m : Machine) :
    (∀ k, (∀ i, i < k → readyAt m.disk i = false) → readyAt m.disk k = true →
      (∀ P, k + 1 ≤ P → waitdisk P m = Except.ok (polled m (k + 1))) ∧
      (∀ P, P ≤ k → waitdisk P m = Except.error (polled m P))) ∧
    ((∀ i, readyAt m.disk i = false) → ∀ P, waitdisk P m = Except.error (polled m P)) ∧
    (∀ n, (polled m n).mem = m.mem ∧
      (polled m n).disk = { m.disk with polls := m.disk.polls + n } ∧
      (polled m n).trace = m.trace ++
        (List.range n).map (fun i => Event.inb 0x1F7 (m.disk.status (m.disk.polls + i) % 256))) :=
  ⟨fun k h1 h2 => ⟨fun P hP => waitdisk_ok_of k P m h1 h2 hP,
      fun P hP => waitdisk_error_of P m (fun i hi => h1 i (by omega))⟩,
    fun h P => waitdisk_error_of P m (fun i _ => h i),
    fun _ => ⟨rfl, rfl, rfl⟩⟩

/-- Witness for C13: a disk that is ready at the third status read, and a disk that is never
ready. -/
theorem waitdisk_exact_witness :
    (∀ i, i < 2 → readyAt (machineOf slowDisk).disk i = false) ∧
    readyAt (machineOf slowDisk).disk 2 = true ∧
    waitdisk 3 (machineOf slowDisk) = Except.ok (polled (machineOf slowDisk) 3) ∧
    waitdisk 2 (machineOf slowDisk) = Except.error (polled (machineOf slowDisk) 2) ∧
    (∀ i, readyAt (machineOf deadDisk).disk i = false) ∧
    waitdisk 1000 (machineOf deadDisk) = Except.error (polled (machineOf deadDisk) 1000) :=
  ⟨by decide, by decide,
    ((waitdisk_exact (machineOf slowDisk)).1 2 (by decide) (by decide)).1 3 (by decide),
    ((waitdisk_exact (machineOf slowDisk)).1 2 (by decide) (by decide)).2 2 (by decide),
    fun _ => decide_eq_false (show ¬ ((0xD0 % 256) &&& 0xC0 = 0x40) by decide),
    (waitdisk_exact (machineOf deadDisk)).2.1
      (fun _ => decide_eq_false (show ¬ ((0xD0 % 256) &&& 0xC0 = 0x40) by decide)) 1000⟩

/-- C14: the trace of `readsect(dst, secno)` on any disk. If the first wait sees its first
ready status at poll `k1` and the second wait at poll `k2`, the call returns and its trace
is: `k1 + 1` status reads, the writes to `0x1F2`, ..., `0x1F6` and of `0x20` to `0x1F7`, `k2 + 1`
status reads, then the 128 reads of the data port `0x1F0`. If the second wait never sees a
ready status, the call is cut off in it and no data-port read has occurred; if the first wait
never does, the call is cut off in it and no register has been written. -/
theorem readsect_order (P dst secno : Nat) (m : Machine) (hd : dst < WORD) :
    (∀ k1 k2, (∀ i, i < k1 → readyAt m.disk i = false) → readyAt m.disk k1 = true → k1 < P →
      (∀ i, i < k2 → readyAt m.disk (k1 + 1 + i) = false) →
      readyAt m.disk (k1 + 1 + k2) = true → k2 < P →
      ∃ m1, readsect P dst secno m = Except.ok m1 ∧
        m1.trace = m.trace ++ Event.readsect dst secno ::
          (pollEvents m.disk (k1 + 1) ++ (cmdEvents secno ++
            (pollEvents (m.disk.after (k1 + 1)) (k2 + 1) ++ dataEvents m.disk dst secno)))) ∧
    (∀ k1, (∀ i, i < k1 → readyAt m.disk i = false) → readyAt m.disk k1 = true → k1 < P →
      (∀ i, i < P → readyAt m.disk (k1 + 1 + i) = false) →
      ∃ e, readsect P dst secno m = Except.error e ∧
        e.trace = m.trace ++ Event.readsect dst secno ::
          (pollEvents m.disk (k1 + 1) ++ (cmdEvents secno ++
            pollEvents (m.disk.after (k1 + 1)) P))) ∧
    ((∀ i, i < P → readyAt m.disk i = false) →
      ∃ e, readsect P dst secno m = Except.error e ∧
        e.trace = m.trace ++ Event.readsect dst secno :: pollEvents m.disk P) := by
  refine ⟨?_, ?_, ?_⟩
  · intro k1 k2 h1 h2 hk1 h3 h4 hk2
    exact ⟨_, readsect_returns P dst secno k1 k2 m h1 h2 hk1 h3 h4 hk2,
      readsect_returns_trace dst secno k1 k2 m hd⟩
  · intro k1 h1 h2 hk1 h3
    exact ⟨_, readsect_second_wait P dst secno k1 m h1 h2 hk1 h3,
      second_wait_trace secno k1 P m _⟩
  · intro h
    refine ⟨_, readsect_first_wait P dst secno m h, ?_⟩
    rw [polled_trace, log_trace, List.append_assoc]
    rfl

/-- Witness for C14: block 2 read to `0x100000` from a disk that is ready at every third
status read. -/
theorem readsect_order_witness :
    0x100000 < WORD ∧
    ∃ m1, readsect 3 0x100000 2 (machineOf slowDisk) = Except.ok m1 ∧
      m1.trace = (machineOf slowDisk).trace ++ Event.readsect 0x100000 2 ::
        (pollEvents slowDisk 3 ++ (cmdEvents 2 ++
          (pollEvents (slowDisk.after 3) 3 ++ dataEvents slowDisk 0x100000 2))) :=
  ⟨by decide,
    (readsect_order 3 0x100000 2 (machineOf slowDisk) (by decide)).1 2 2 (by decide)
      (by decide) (by decide) (by decide) (by decide) (by decide)⟩

/-- C15: on a ready disk, for a 32-bit `offset` with `r = offset mod 512`, `r ≤ dst` and
`dst + count + 512 ≤ 2^32`, `readseg(dst, count, offset)` returns after exactly
`n = ceil((count + r) / 512)` calls of `readsect`, the `i`-th being
`readsect(dst - r + 512 * i, offset / 512 + 1 + i)`, and the bytes it stores are exactly those
at the addresses `dst - r ≤ a < dst - r + 512 * n`. -/
theorem readseg_calls (P F dst count offset : Nat) (m : Machine) (hr : Ready m.disk)
    (hP : 0 < P) (ho : offset < WORD) (h1 : offset % 512 ≤ dst)
    (h2 : dst + count + 512 ≤ WORD) (hF : count / 512 + 3 ≤ F) :
    ∃ m1 evs, readseg P F dst count offset m = Except.ok m1 ∧
      m1.trace = m.trace ++ Event.readseg dst count offset :: evs ∧
      sectCalls evs = (List.range ((count + offset % 512 + 511) / 512)).map
        (fun i => (dst - offset % 512 + 512 * i, offset / 512 + 1 + i)) ∧
      ∀ a, written evs a = true ↔
        dst - offset % 512 ≤ a ∧
          a < dst - offset % 512 + 512 * ((count + offset % 512 + 511) / 512) := by
  obtain ⟨P, rfl⟩ : ∃ K, P = K + 1 := ⟨P - 1, by omega⟩
  unfold WORD at ho h2
  obtain ⟨evs, t, c, w⟩ := sectSteps_calls ((count + offset % 512 + 511) / 512)
    (dst - offset % 512) (offset / 512 + 1) (m.log (Event.readseg dst count offset))
    (by unfold WORD; omega)
  refine ⟨_, evs, readseg_ready P F dst count offset m hr (by unfold WORD; omega) h1
    (by unfold WORD; omega) hF, ?_, c, w⟩
  rw [t, log_trace, List.append_assoc]
  rfl

/-- Witness for C15: 700 bytes at file offset 1000 into `0x100000`: `r = 488`, three calls of
`readsect`, for the blocks 2, 3 and 4. -/
theorem readseg_calls_witness :
    Ready kernelMachine.disk ∧ 0 < 1 ∧ 1000 < WORD ∧ 1000 % 512 ≤ 0x100000 ∧
    0x100000 + 700 + 512 ≤ WORD ∧ 700 / 512 + 3 ≤ 4 ∧
    ∃ m1 evs, readseg 1 4 0x100000 700 1000 kernelMachine = Except.ok m1 ∧
      m1.trace = kernelMachine.trace ++ Event.readseg 0x100000 700 1000 :: evs ∧
      sectCalls evs = (List.range ((700 + 1000 % 512 + 511) / 512)).map
        (fun i => (0x100000 - 1000 % 512 + 512 * i, 1000 / 512 + 1 + i)) ∧
      ∀ a, written evs a = true ↔
        0x100000 - 1000 % 512 ≤ a ∧
          a < 0x100000 - 1000 % 512 + 512 * ((700 + 1000 % 512 + 511) / 512) :=
  ⟨ready_diskOf _ _, by decide, by decide, by decide, by decide, by decide,
    readseg_calls 1 4 0x100000 700 1000 kernelMachine (ready_diskOf _ _) (by decide)
      (by decide) (by decide) (by decide) (by decide)⟩

/-- C16: `bootmain` reads each segment descriptor and `e_entry` from scratch memory at the time
of use, so the values on the disk are used when no segment load stores into the scratch
region `[0x10000, 0x11000)`. On a ready disk whose image has the right magic number and a
segment table inside the loaded header region (`e_phoff + 32 * e_phnum ≤ 4096`, both as stored
on the disk):

* in every run, complete or cut off, with `evs` the events of the segment loop: if no event of
  `evs` stores into the scratch region, the `readseg` calls of `evs` are, in order, those the
  first `k` descriptors on the disk prescribe, and if the run reaches the entry call then
  `k = e_phnum` and the target is the on-disk `e_entry & 0xFFFFFF`;
* when every segment load returns (`ms i` is the machine before the `i`-th load), `bootmain`
  makes the `e_phnum` calls of `readseg`, the `i`-th with the arguments read from the memory
  of `ms i`, returns from the loop and calls the address read from the memory of
  `ms e_phnum`; if moreover no segment load stores into the scratch region, the arguments of
  the `i`-th call are those of the `i`-th descriptor on the disk for every `i < e_phnum`, and
  the call goes to the on-disk `e_entry & 0xFFFFFF`. -/
theorem bootmain_disk_values (entry : Nat → Machine → Option Machine) (P F : Nat)
    (m : Machine) (hr : Ready m.disk) (hP : 0 < P) (hF : 11 ≤ F)
    (hmagic : image32 m.disk 0 = 0x464C457F)
    (htab : image32 m.disk 28 + 32 * image16 m.disk 44 ≤ 4096) :
    (∃ mp evs, mp.trace = (headerLoad m).trace ++ evs ∧
      (bootmain elf32 entry P F m = Except.error mp ∨
        ∃ t, bootmain elf32 entry P F m = Except.ok (enter entry t mp) ∧
          ((∀ a, 0x10000 ≤ a → a < 0x11000 → written evs a = false) →
            segCalls evs = (List.range (image16 m.disk 44)).map (diskArgs elf32 m.disk) ∧
            t = image32 m.disk 24 &&& 0xFFFFFF)) ∧
      ((∀ a, 0x10000 ≤ a → a < 0x11000 → written evs a = false) →
        ∃ k, k ≤ image16 m.disk 44 ∧
          segCalls evs = (List.range k).map (diskArgs elf32 m.disk))) ∧
    (∀ (Q G : Nat) (ms : Nat → Machine), Q ≤ P → G + image16 m.disk 44 + 1 ≤ F →
      ms 0 = headerLoad m →
      (∀ i, i < image16 m.disk 44 →
        readseg Q G (segArgs elf32 (ms i).mem (ELFHDR + image32 m.disk 28 + 32 * i)).1
          (segArgs elf32 (ms i).mem (ELFHDR + image32 m.disk 28 + 32 * i)).2.1
          (segArgs elf32 (ms i).mem (ELFHDR + image32 m.disk 28 + 32 * i)).2.2 (ms i)
          = Except.ok (ms (i + 1))) →
      bootmain elf32 entry P F m =
        Except.ok (enter entry
          (load32 (ms (image16 m.disk 44)).mem (ELFHDR + elf32.e_entry) &&& 0xFFFFFF)
          (ms (image16 m.disk 44))) ∧
      (∃ evs, (ms (image16 m.disk 44)).trace = (headerLoad m).trace ++ evs ∧
        segCalls evs = (List.range (image16 m.disk 44)).map
          (fun i => segArgs elf32 (ms i).mem (ELFHDR + image32 m.disk 28 + 32 * i)) ∧
        entryCalls evs = []) ∧
      ((∀ i, i < image16 m.disk 44 → ∀ evs, (ms (i + 1)).trace = (ms i).trace ++ evs →
          ∀ a, 0x10000 ≤ a → a < 0x11000 → written evs a = false) →
        (∀ i, i < image16 m.disk 44 →
          segArgs elf32 (ms i).mem (ELFHDR + image32 m.disk 28 + 32 * i)
            = diskArgs elf32 m.disk i) ∧
        (∃ evs, (ms (image16 m.disk 44)).trace = (headerLoad m).trace ++ evs ∧
          segCalls evs = (List.range (image16 m.disk 44)).map (diskArgs elf32 m.disk) ∧
          entryCalls evs = []) ∧
        load32 (ms (image16 m.disk 44)).mem (ELFHDR + elf32.e_entry) = image32 m.disk 24 ∧
        bootmain elf32 entry P F m =
          Except.ok (enter entry (image32 m.disk 24 &&& 0xFFFFFF) (ms (image16 m.disk 44))) ∧
        (entry (image32 m.disk 24 &&& 0xFFFFFF)
            ((ms (image16 m.disk 44)).log (Event.call (image32 m.disk 24 &&& 0xFFFFFF))) = none →
          bootmain elf32 entry P F m =
            Except.ok (Final.jumped ((ms (image16 m.disk 44)).log
              (Event.call (image32 m.disk 24 &&& 0xFFFFFF))))))) := by
  refine ⟨bootmain_scratch_run entry P F m hr hP hF hmagic htab, ?_⟩
  intro Q G ms hQ hG h0 hs
  obtain ⟨P, rfl⟩ : ∃ K, P = K + 1 := ⟨P - 1, by omega⟩
  have hh := header_returns P F m hr hF
  have hm : load32 (headerLoad m).mem (ELFHDR + elf32.e_magic) = elf32.ELF_MAGIC := by
    show load32 (headerLoad m).mem (ELFHDR + 0) = 0x464C457F
    rw [load32_header m hr 0 (by decide)]
    exact hmagic
  have hoff : load32 (headerLoad m).mem (ELFHDR + elf32.e_phoff) = image32 m.disk 28 :=
    load32_header m hr 28 (by decide)
  have hnum : load16 (headerLoad m).mem (ELFHDR + elf32.e_phnum) = image16 m.disk 44 :=
    load16_header m hr 44 (by decide)
  have hph : (ELFHDR + image32 m.disk 28) % WORD = ELFHDR + image32 m.disk 28 := by
    unfold ELFHDR WORD
    omega
  have heph : (ELFHDR + image32 m.disk 28 + elf32.phsize * image16 m.disk 44) % WORD
      = ELFHDR + image32 m.disk 28 + elf32.phsize * image16 m.disk 44 := by
    show (ELFHDR + image32 m.disk 28 + 32 * image16 m.disk 44) % WORD
      = ELFHDR + image32 m.disk 28 + 32 * image16 m.disk 44
    unfold ELFHDR WORD
    omega
  have hrun := segLoop_run elf32 (P + 1) Q hQ G (image16 m.disk 44) F
    (ELFHDR + image32 m.disk 28) ms
    (by show ELFHDR + image32 m.disk 28 + 32 * image16 m.disk 44 < WORD
        unfold ELFHDR WORD
        omega) hG hs
  rw [h0] at hrun
  have hjump : bootmain elf32 entry (P + 1) F m =
      Except.ok (enter entry
        (load32 (ms (image16 m.disk 44)).mem (ELFHDR + elf32.e_entry) &&& 0xFFFFFF)
        (ms (image16 m.disk 44))) := by
    refine bootmain_jump (P + 1) elf32 entry F m (headerLoad m) _ hh hm ?_
    rw [hoff, hnum, hph, heph]
    exact hrun
  obtain ⟨evs, t, c, e, -⟩ := segLoop_calls elf32 Q G (image16 m.disk 44)
    (ELFHDR + image32 m.disk 28) ms hs
  rw [h0] at t
  refine ⟨hjump, ⟨evs, t, c, e⟩, ?_⟩
  intro hw
  have inv := scratch_kept Q G (image16 m.disk 44) (ELFHDR + image32 m.disk 28) (headerLoad m)
    ms h0 hs hw
  have hargs : ∀ i, i < image16 m.disk 44 →
      segArgs elf32 (ms i).mem (ELFHDR + image32 m.disk 28 + 32 * i)
        = diskArgs elf32 m.disk i := by
    intro i hi
    rw [Nat.add_assoc ELFHDR (image32 m.disk 28) (32 * i),
      segArgs_scratch (ms i).mem (headerLoad m).mem _ (by omega) (inv i (by omega))]
    exact diskArgs_header m hr i (by omega)
  have hentry : load32 (ms (image16 m.disk 44)).mem (ELFHDR + elf32.e_entry)
      = image32 m.disk 24 := by
    show load32 (ms (image16 m.disk 44)).mem (ELFHDR + 24) = image32 m.disk 24
    rw [load32_scratch _ (headerLoad m).mem 24 (by decide) (inv _ (le_refl _)),
      load32_header m hr 24 (by decide)]
    rfl
  have hjump2 : bootmain elf32 entry (P + 1) F m =
      Except.ok (enter entry (image32 m.disk 24 &&& 0xFFFFFF) (ms (image16 m.disk 44))) := by
    rw [hjump, hentry]
  refine ⟨hargs, ?_, hentry, hjump2, ?_⟩
  · refine ⟨evs, t, ?_, e⟩
    rw [c]
    apply List.map_congr_left
    intro i hi
    rw [List.mem_range] at hi
    exact hargs i hi
  · intro he
    rw [hjump2]
    unfold enter
    rw [he]

/-- Witness for C16: in the end-to-end scenario the one descriptor on the disk prescribes
`readseg(0x100000, 512, 512)`, that call is made and nothing else, and the entry call goes to
`0x100000`. And the non-interference condition is needed: on the kernel whose segment is
loaded over the header, the on-disk `e_entry & 0xFFFFFF` is `0x100000`, but the call goes to
`0xAAAAAA`, the value the segment put in its place. -/
theorem bootmain_disk_values_witness :
    Ready kernelMachine.disk ∧
    image32 kernelMachine.disk 0 = 0x464C457F ∧
    image32 kernelMachine.disk 28 + 32 * image16 kernelMachine.disk 44 ≤ 4096 ∧
    image16 kernelMachine.disk 44 = 1 ∧
    diskArgs elf32 kernelMachine.disk 0 = (0x100000, 512, 512) ∧
    image32 kernelMachine.disk 24 &&& 0xFFFFFF = 0x100000 ∧
    (∀ i, i < 1 →
      readseg 1 4 (segArgs elf32 (kernelStates i).mem (ELFHDR + 52 + 32 * i)).1
        (segArgs elf32 (kernelStates i).mem (ELFHDR + 52 + 32 * i)).2.1
        (segArgs elf32 (kernelStates i).mem (ELFHDR + 52 + 32 * i)).2.2 (kernelStates i)
        = Except.ok (kernelStates (i + 1))) ∧
    (∀ i, i < 1 → ∀ evs, (kernelStates (i + 1)).trace = (kernelStates i).trace ++ evs →
      ∀ a, 0x10000 ≤ a → a < 0x11000 → written evs a = false) ∧
    segArgs elf32 (kernelStates 0).mem (ELFHDR + 52 + 32 * 0) = (0x100000, 512, 512) ∧
    (∃ evs, (kernelStates 1).trace = (headerLoad kernelMachine).trace ++ evs ∧
      segCalls evs = [(0x100000, 512, 512)] ∧ entryCalls evs = []) ∧
    bootmain elf32 neverReturns 1 11 kernelMachine =
      Except.ok (Final.jumped ((kernelStates 1).log (Event.call 0x100000))) ∧
    image32 clobberMachine.disk 24 &&& 0xFFFFFF = 0x100000 ∧
    ∃ mp : Machine, bootmain elf32 neverReturns 1 11 clobberMachine =
      Except.ok (Final.jumped (mp.log (Event.call 0xAAAAAA))) := by
  have e28 : image32 kernelMachine.disk 28 = 52 := by decide
  have e44 : image16 kernelMachine.disk 44 = 1 := by decide
  have e24 : image32 kernelMachine.disk 24 &&& 0xFFFFFF = 0x100000 := by decide
  have ed : diskArgs elf32 kernelMachine.disk 0 = (0x100000, 512, 512) := by decide
  have h := (bootmain_disk_values neverReturns 1 11 kernelMachine (ready_diskOf _ _)
    (by decide) (by decide) (by decide) (by decide)).2 1 4 kernelStates (le_refl _)
    (by rw [e44]; decide) (if_pos rfl) (by rw [e28, e44]; exact kernelStates_step)
  obtain ⟨ha, ⟨evs, t, c, e⟩, -, -, hj⟩ := h.2.2 (by rw [e44]; exact kernelStates_scratch)
  rw [e28, e44] at ha
  rw [e44] at t c hj
  rw [e24] at hj
  refine ⟨ready_diskOf _ _, by decide, by decide, e44, ed, e24, kernelStates_step,
    kernelStates_scratch, ?_, ⟨evs, t, ?_, e⟩, hj rfl, by decide, _, clobber_run⟩
  · rw [ha 0 (by decide), ed]
  · rw [c]
    simp only [List.range_succ, List.range_zero, List.nil_append, List.map_cons, List.map_nil,
      ed]

end Bootmain
